import Mathlib

/-!
Task-list scheduler of Athena++ (src/task_list/task_list.cpp, radiation_integrator.cpp)

Shallow embedding of `TaskList::DoAllAvailableTasks`, `TaskList::DoTaskListOneStage`,
the `RadiationIntegratorTaskList` constructor and `AddRadiationIntegratorTask`.

Conventions of the embedding

* `uint64_t` masks (`task_id`, `dependency`, `finished_tasks`) are natural numbers; the
  code only combines them with `&` and `|`, which never leave the range of their operands.
* `int` counters: `num_tasks_left` and `nmb_left` (which are decremented) are integers;
  `indx_first_task`, `skip`, `ntasks` and loop indices (which start at 0 and are only
  incremented, and index the array) are natural numbers.
* A bound action `TaskFunc(pmb, stage)` is a function of the data of the mesh block that
  returns a status and the new data of the block; the outcomes are arbitrary because the
  function and the type of the data are.
* The `for` loop of `DoAllAvailableTasks` is a structural recursion on the number of
  iterations that are left (`ntasks - i`).
* The `while` loop of `DoTaskListOneStage` can spin forever; it is run with a bound on the
  number of sweeps, and the driver has returned when the guard `nmb_left > 0` is false.
* A thrown `std::runtime_error(msg.str().c_str())` is the result `Except.error m`, with `m`
  the C string that the exception keeps: the streamed text up to its first NUL character.
* Ghost instrumentation, absent from the code and never read by it: the list of action
  invocations made by a call (`log`), and the statuses returned in each sweep (`history`).
-/

namespace Athena

/-- Modelled from the spec: the enum `TaskStatus` of task_list.hpp (not under src), the
outcome of a bound action: Fail, Success, SuccessContinue. -/
inductive TaskStatus where
  | TASK_FAIL
  | TASK_SUCCESS
  | TASK_NEXT
  deriving DecidableEq, Repr

/-- Modelled from the spec: the enum `TaskListStatus` of task_list.hpp (not under src), the
status returned by `DoAllAvailableTasks`. -/
inductive TaskListStatus where
  | TL_RUNNING
  | TL_STUCK
  | TL_COMPLETE
  | TL_NOTHING_TO_DO
  deriving DecidableEq, Repr

open TaskStatus TaskListStatus

/-- Modelled from the spec: the struct `Task` of task_list.hpp (not under src): identity
bit, dependency mask and bound action. -/
structure Task (β : Type) where
  task_id : Nat
  dependency : Nat
  TaskFunc : β → Int → TaskStatus × β

/-- Modelled from the spec: the struct `TaskState` of task_list.hpp (not under src), the
progress state of one mesh block. -/
structure TaskState where
  finished_tasks : Nat
  indx_first_task : Nat
  num_tasks_left : Int
  deriving DecidableEq, Repr

/-- Modelled from the spec: `TaskState::Reset(ntasks)` of task_list.hpp (not under src):
"reset to finished_mask=0, remaining_count=task_count, resume_index=0". -/
def TaskState.Reset (ntasks : Nat) : TaskState :=
  TaskState.mk 0 0 (ntasks : Int)

/-- The members of class `TaskList` used by task_list.cpp: `ntasks`, `nstages` and the
array `task_list_` (a memory of descriptors addressed by index). -/
structure TaskList (β : Type) where
  ntasks : Nat
  nstages : Nat
  task_list_ : Nat → Task β

/-- The constructor `TaskList::TaskList`: `ntasks = 0; nstages = 0`; the array is left as
it is found. -/
def TaskList.new {β : Type} (mem : Nat → Task β) : TaskList β :=
  TaskList.mk 0 0 mem

/-- Ghost record of one invocation `(this->*task_list_[i].TaskFunc)(pmb, stage)`: the index
`i`, the value of `ts.finished_tasks` at the moment of the call, and what it returned. -/
structure Invocation where
  index : Nat
  finished_at_call : Nat
  ret : TaskStatus
  deriving DecidableEq, Repr

/-- What a call of `DoAllAvailableTasks` leaves: the returned status, the progress state
`ts` (passed by reference), the data of the block, and the ghost log of invocations. -/
structure Outcome (β : Type) where
  status : TaskListStatus
  ts : TaskState
  pmb : β
  log : List Invocation

/-- Ghost: put an invocation in front of the log of the rest of the scan. -/
def Outcome.record {β : Type} (e : Invocation) (r : Outcome β) : Outcome β :=
  Outcome.mk r.status r.ts r.pmb (e :: r.log)

/-- The loop `for (int i=ts.indx_first_task; i<ntasks; i++)` of `DoAllAvailableTasks`
(task_list.cpp lines 51-72); the first argument is the number of iterations left,
`ntasks - i`, and falling out of the loop returns `TL_STUCK`. -/
def scan {β : Type} (tl : TaskList β) (stage : Int) :
    Nat → Nat → Nat → TaskState → β → Outcome β
  | 0, _, _, ts, pmb => Outcome.mk TaskListStatus.TL_STUCK ts pmb []
  | n + 1, i, skip, ts, pmb =>
    let taski := tl.task_list_ i
    if taski.task_id &&& ts.finished_tasks = 0 then
      if taski.dependency &&& ts.finished_tasks = taski.dependency then
        let r := taski.TaskFunc pmb stage
        let e := Invocation.mk i ts.finished_tasks r.1
        if r.1 ≠ TaskStatus.TASK_FAIL then
          let left := ts.num_tasks_left - 1
          let fin := ts.finished_tasks ||| taski.task_id
          let first := if skip = 0 then ts.indx_first_task + 1 else ts.indx_first_task
          let ts1 := TaskState.mk fin first left
          if left = 0 then Outcome.mk TaskListStatus.TL_COMPLETE ts1 r.2 [e]
          else if r.1 = TaskStatus.TASK_NEXT then
            Outcome.record e (scan tl stage n (i + 1) skip ts1 r.2)
          else Outcome.mk TaskListStatus.TL_RUNNING ts1 r.2 [e]
        else Outcome.record e (scan tl stage n (i + 1) (skip + 1) ts r.2)
      else scan tl stage n (i + 1) (skip + 1) ts pmb
    else if skip = 0 then
      scan tl stage n (i + 1) skip
        (TaskState.mk ts.finished_tasks (ts.indx_first_task + 1) ts.num_tasks_left) pmb
    else scan tl stage n (i + 1) skip ts pmb

/-- `TaskList::DoAllAvailableTasks(pmb, stage, ts)` (task_list.cpp lines 45-73). -/
def DoAllAvailableTasks {β : Type} (tl : TaskList β) (pmb : β) (stage : Int)
    (ts : TaskState) : Outcome β :=
  if ts.num_tasks_left = 0 then Outcome.mk TaskListStatus.TL_NOTHING_TO_DO ts pmb []
  else scan tl stage (tl.ntasks - ts.indx_first_task) ts.indx_first_task 0 ts pmb

/-- Ghost: what a sequence of calls for one unit leaves: the statuses returned, in
order, the last progress state and block data, and the invocations of all the calls. -/
structure Run (β : Type) where
  statuses : List TaskListStatus
  ts : TaskState
  pmb : β
  log : List Invocation

/-- Ghost: `k` successive calls of `DoAllAvailableTasks` for one unit, each on the
progress state and the block data the call before left. -/
def DoCalls {β : Type} (tl : TaskList β) (stage : Int) : Nat → TaskState → β → Run β
  | 0, ts, pmb => Run.mk [] ts pmb []
  | k + 1, ts, pmb =>
    let r := DoAllAvailableTasks tl pmb stage ts
    let rest := DoCalls tl stage k r.ts r.pmb
    Run.mk (r.status :: rest.statuses) rest.ts rest.pmb (r.log ++ rest.log)

/-- The part of a `MeshBlock` the scheduler sees: its progress state `tasks` and the data
the bound actions work on. -/
structure MeshBlock (β : Type) where
  tasks : TaskState
  data : β

/-- State of the `while (nmb_left > 0)` loop of `DoTaskListOneStage`: the blocks, the
counter `nmb_left`, and (ghost) the statuses returned in each sweep made so far. -/
structure StageState (β : Type) where
  blocks : List (MeshBlock β)
  nmb_left : Int
  history : List (List TaskListStatus)

/-- The body of the while loop (task_list.cpp lines 104-108): one call of
`DoAllAvailableTasks` for every block, `nmb_left--` for every `TL_COMPLETE`. Returns the
blocks, the counter and (ghost) the statuses in block order. -/
def sweep {β : Type} (tl : TaskList β) (stage : Int) :
    List (MeshBlock β) → Int → List (MeshBlock β) × Int × List TaskListStatus
  | [], nmb_left => ([], nmb_left, [])
  | b :: bs, nmb_left =>
    let r := DoAllAvailableTasks tl b.data stage b.tasks
    let left := if r.status = TaskListStatus.TL_COMPLETE then nmb_left - 1 else nmb_left
    let rest := sweep tl stage bs left
    (MeshBlock.mk r.ts r.pmb :: rest.1, rest.2.1, r.status :: rest.2.2)

/-- One iteration of the while loop on the loop state. -/
def sweepStep {β : Type} (tl : TaskList β) (stage : Int) (s : StageState β) :
    StageState β :=
  let r := sweep tl stage s.blocks s.nmb_left
  StageState.mk r.1 r.2.1 (s.history ++ [r.2.2])

/-- The loop `while (nmb_left > 0)` cut after at most `n` iterations. -/
def whileRounds {β : Type} (tl : TaskList β) (stage : Int) :
    Nat → StageState β → StageState β
  | 0, s => s
  | n + 1, s => if s.nmb_left > 0 then whileRounds tl stage n (sweepStep tl stage s) else s

/-- The state with which `DoTaskListOneStage` enters its while loop (lines 91-98): every
block has had `tasks.Reset(ntasks)` and the hook `StartupTaskList`, `nmb_left = nmb`. -/
def stageInit {β : Type} (tl : TaskList β) (startup : β → Int → β) (stage : Int)
    (pmb_array : List (MeshBlock β)) : StageState β :=
  StageState.mk
    (pmb_array.map (fun b => MeshBlock.mk (TaskState.Reset tl.ntasks) (startup b.data stage)))
    (pmb_array.length : Int) []

/-- `TaskList::DoTaskListOneStage(pmesh, stage)` (task_list.cpp lines 79-112) with at most
`fuel` sweeps: `none` when the loop is still running after `fuel` sweeps, otherwise the
state in which the driver returns. -/
def DoTaskListOneStage {β : Type} (tl : TaskList β) (startup : β → Int → β) (stage : Int)
    (fuel : Nat) (pmb_array : List (MeshBlock β)) : Option (StageState β) :=
  let s := whileRounds tl stage fuel (stageInit tl startup stage pmb_array)
  if s.nmb_left > 0 then none else some s

/-! ## The radiation integrator task list (radiation_integrator.cpp) -/

/-- Modelled from the spec: the identities `INT_LOC_JEANS` and `INT_CONST` of the namespace
`RadiationIntegratorTaskNames` of task_list.hpp (not under src). Their values are not known;
they are the labels of two cases of one `switch`, hence distinct. -/
structure RadiationIntegratorTaskNames where
  INT_LOC_JEANS : Nat
  INT_CONST : Nat
  distinct : INT_LOC_JEANS ≠ INT_CONST

/-- Modelled from the spec: the constant `NONE` of `RadiationIntegratorTaskNames`
(task_list.hpp, not under src): "requirement == 0 means no prerequisites". -/
def NONE : Nat := 0

/-- `RadiationIntegratorTaskList::LocalIntegratorJeans` (lines 94-101): returns
`TASK_SUCCESS`; with INCLUDE_CHEMISTRY it first calls `UpdateRadJeans` on the block
(the parameter `UpdateRadJeans`, the identity when chemistry is not compiled in). -/
def LocalIntegratorJeans {β : Type} (UpdateRadJeans : β → β) (pmb : β) (_step : Int) :
    TaskStatus × β :=
  (TaskStatus.TASK_SUCCESS, UpdateRadJeans pmb)

/-- `RadiationIntegratorTaskList::ConstRadiation` (lines 103-106). -/
def ConstRadiation {β : Type} (pmb : β) (_step : Int) : TaskStatus × β :=
  (TaskStatus.TASK_SUCCESS, pmb)

/-- What `std::runtime_error(const char*)` keeps of `msg.str().c_str()` (lines 56 and 86):
the characters of the string before its first NUL character. -/
def c_str (s : String) : String :=
  String.mk (s.data.takeWhile (fun c => c != Char.ofNat 0))

/-- The text that the `default` case of `AddRadiationIntegratorTask` writes to the stream
`msg` (lines 84-85). -/
def invalidTaskMessage (id : Nat) : String :=
  "### FATAL ERROR in Add Radiation Task\n" ++ "Invalid Task " ++ toString id
    ++ " is specified\n"

/-- `RadiationIntegratorTaskList::AddRadiationIntegratorTask(id, dep)` (lines 65-90). The
result is what the call throws, if anything, and the task list as the call leaves it: the
slot `task_list_[ntasks]` gets `id` and `dep` before the `switch` (`slot`), the `switch`
binds the action, and `ntasks++` is only reached when the `switch` does not throw; what
is thrown is `std::runtime_error(msg.str().c_str())`. -/
def AddRadiationIntegratorTask {β : Type} (names : RadiationIntegratorTaskNames)
    (UpdateRadJeans : β → β) (tl : TaskList β) (id dep : Nat) :
    Except String Unit × TaskList β :=
  let slot := Task.mk id dep (tl.task_list_ tl.ntasks).TaskFunc
  if id = names.INT_LOC_JEANS then
    (Except.ok (), TaskList.mk (tl.ntasks + 1) tl.nstages
      (Function.update tl.task_list_ tl.ntasks
        (Task.mk slot.task_id slot.dependency (LocalIntegratorJeans UpdateRadJeans))))
  else if id = names.INT_CONST then
    (Except.ok (), TaskList.mk (tl.ntasks + 1) tl.nstages
      (Function.update tl.task_list_ tl.ntasks
        (Task.mk slot.task_id slot.dependency ConstRadiation)))
  else
    (Except.error (c_str (invalidTaskMessage id)), TaskList.mk tl.ntasks tl.nstages
      (Function.update tl.task_list_ tl.ntasks slot))

/-- The members of `RadiationIntegratorTaskList`: the `TaskList` it derives from,
`nsub_steps` and `integrator`. -/
structure RadiationIntegratorTaskList (β : Type) where
  base : TaskList β
  nsub_steps : Nat
  integrator : String

/-- The text that the constructor writes to the stream `msg` for an integrator it does not
know (lines 53-55). -/
def invalidIntegratorMessage (integrator : String) : String :=
  "### FATAL ERROR in Radiation task list\n" ++ "integrator=" ++ integrator
    ++ " not valid radiation integrator, \n" ++ "choose from \x7bjeans, six_ray, const\x7d\n"

/-- The constructor `RadiationIntegratorTaskList::RadiationIntegratorTaskList(pin, pm)`
(lines 36-59); `integrator` is what `pin->GetString("radiation","integrator")` returns and
`mem` the content of the array `task_list_` before the constructor runs. The result is
what the constructor throws, if anything (`std::runtime_error(msg.str().c_str())`), and
the members at that point. -/
def RadiationIntegratorTaskList.new {β : Type} (names : RadiationIntegratorTaskNames)
    (UpdateRadJeans : β → β) (integrator : String) (mem : Nat → Task β) :
    Except String Unit × RadiationIntegratorTaskList β :=
  let tl := TaskList.new mem
  if integrator = "jeans" then
    let r := AddRadiationIntegratorTask names UpdateRadJeans tl names.INT_LOC_JEANS NONE
    (r.1, RadiationIntegratorTaskList.mk r.2 1 integrator)
  else if integrator = "six_ray" then
    (Except.ok (), RadiationIntegratorTaskList.mk tl 1 integrator)
  else if integrator = "const" then
    let r := AddRadiationIntegratorTask names UpdateRadJeans tl names.INT_CONST NONE
    (r.1, RadiationIntegratorTaskList.mk r.2 1 integrator)
  else if integrator = "six_ray" then
    (Except.ok (), RadiationIntegratorTaskList.mk tl 1 integrator)
  else
    (Except.error (c_str (invalidIntegratorMessage integrator)),
      RadiationIntegratorTaskList.mk tl 1 integrator)

/-! ## Vocabulary of the properties -/

/-- A non-zero single bit of a 64-bit word: the shape of a task identity. -/
def IsBit (x : Nat) : Prop := ∃ k, k < 64 ∧ x = 2 ^ k

instance instDecidableIsBit (x : Nat) : Decidable (IsBit x) := by
  unfold IsBit; infer_instance

/-- The identities of the graph are pairwise distinct non-zero single bits. -/
def DistinctBits {β : Type} (tl : TaskList β) : Prop :=
  (∀ i, i < tl.ntasks → IsBit (tl.task_list_ i).task_id) ∧
  (∀ i, i < tl.ntasks → ∀ j, j < tl.ntasks → i ≠ j →
    (tl.task_list_ i).task_id ≠ (tl.task_list_ j).task_id)

instance instDecidableDistinctBits {β : Type} (tl : TaskList β) :
    Decidable (DistinctBits tl) := by
  unfold DistinctBits; infer_instance

/-- Bitwise OR of the identities of the first `n` descriptors. -/
def orIds {β : Type} (tl : TaskList β) : Nat → Nat
  | 0 => 0
  | n + 1 => orIds tl n ||| (tl.task_list_ n).task_id

/-- Bitwise OR of the identities of all tasks of the graph. -/
def allIds {β : Type} (tl : TaskList β) : Nat := orIds tl tl.ntasks

/-- Number of descriptors among the first `n` that the executor regards as not done
(`(task_id & finished_tasks) == 0`). -/
def unfinished {β : Type} (tl : TaskList β) (fin : Nat) : Nat → Nat
  | 0 => 0
  | n + 1 => unfinished tl fin n + (if (tl.task_list_ n).task_id &&& fin = 0 then 1 else 0)

/-- The value of `finished_tasks` after the invocation `e` made when it was `f`. -/
def stepFinished {β : Type} (tl : TaskList β) (f : Nat) (e : Invocation) : Nat :=
  if e.ret ≠ TaskStatus.TASK_FAIL then f ||| (tl.task_list_ e.index).task_id else f

/-- The value of `finished_tasks` after the invocations of `log`, made from `f`. -/
def replay {β : Type} (tl : TaskList β) (f : Nat) (log : List Invocation) : Nat :=
  log.foldl (stepFinished tl) f

/-- Number of invocations of `log` that did not signal Fail. -/
def successes (log : List Invocation) : Nat :=
  (log.filter (fun e => decide (e.ret ≠ TaskStatus.TASK_FAIL))).length

/-- The log is the trace of an execution that starts with `finished_tasks = f`: every
invocation was made on a task that was not done and whose dependency was satisfied, at the
value of `finished_tasks` that the invocations before it produced. -/
def LogValid {β : Type} (tl : TaskList β) : Nat → List Invocation → Prop
  | _, [] => True
  | f, e :: l =>
    e.finished_at_call = f ∧ (tl.task_list_ e.index).task_id &&& f = 0 ∧
    (tl.task_list_ e.index).dependency &&& f = (tl.task_list_ e.index).dependency ∧
    LogValid tl (stepFinished tl f e) l

/-- Task `a` depends on task `b`: a bit of the identity of `b` is in the dependency mask
of `a`. -/
def DependsOn {β : Type} (tl : TaskList β) (a b : Fin tl.ntasks) : Prop :=
  (tl.task_list_ b).task_id &&& (tl.task_list_ a).dependency ≠ 0

/-- The dependency relation has no cycle. -/
def Acyclic {β : Type} (tl : TaskList β) : Prop :=
  ∀ a : Fin tl.ntasks, ¬ Relation.TransGen (DependsOn tl) a a

/-- Every dependency bit is the identity of a task of the graph. -/
def DepsProvided {β : Type} (tl : TaskList β) : Prop :=
  ∀ i, i < tl.ntasks → (tl.task_list_ i).dependency &&& allIds tl = (tl.task_list_ i).dependency

/-- Every action of the graph signals Success or SuccessContinue, whatever the data. -/
def NeverFails {β : Type} (tl : TaskList β) (stage : Int) : Prop :=
  ∀ i, i < tl.ntasks → ∀ d, ((tl.task_list_ i).TaskFunc d stage).1 ≠ TaskStatus.TASK_FAIL

/-- The progress state after task `i` has succeeded (lines 58-60). -/
def markDone {β : Type} (tl : TaskList β) (i skip : Nat) (ts : TaskState) : TaskState :=
  TaskState.mk (ts.finished_tasks ||| (tl.task_list_ i).task_id)
    (if skip = 0 then ts.indx_first_task + 1 else ts.indx_first_task) (ts.num_tasks_left - 1)

/-- The progress state after the scan has passed a task that was already done (line 68). -/
def passDone (skip : Nat) (ts : TaskState) : TaskState :=
  if skip = 0 then TaskState.mk ts.finished_tasks (ts.indx_first_task + 1) ts.num_tasks_left
  else ts

/-- The ghost record of the invocation of task `i` in state `ts` on data `pmb`. -/
def invoked {β : Type} (tl : TaskList β) (stage : Int) (i : Nat) (ts : TaskState) (pmb : β) :
    Invocation :=
  Invocation.mk i ts.finished_tasks ((tl.task_list_ i).TaskFunc pmb stage).1

/-- The resume index is sound: it is at most `ntasks` and every task below it has its
identity set in `finished_tasks`. -/
def ResumeOK {β : Type} (tl : TaskList β) (ts : TaskState) : Prop :=
  ts.indx_first_task ≤ tl.ntasks ∧
  ∀ j, j < ts.indx_first_task →
    (tl.task_list_ j).task_id &&& ts.finished_tasks = (tl.task_list_ j).task_id

/-- The progress state counts right: `num_tasks_left` is the number of tasks of the graph
that are not done. -/
def Counted {β : Type} (tl : TaskList β) (ts : TaskState) : Prop :=
  ts.num_tasks_left = (unfinished tl ts.finished_tasks tl.ntasks : Int)

/-- The graph is the linear chain of `M` tasks: task `k` has identity `2^k` and depends on
task `k - 1` (on nothing for `k = 0`), and every action signals plain Success. -/
def IsChain {β : Type} (tl : TaskList β) (stage : Int) (M : Nat) : Prop :=
  tl.ntasks = M ∧ ∀ k, k < M →
    (tl.task_list_ k).task_id = 2 ^ k ∧
    (tl.task_list_ k).dependency = (if k = 0 then 0 else 2 ^ (k - 1)) ∧
    ∀ d, ((tl.task_list_ k).TaskFunc d stage).1 = TASK_SUCCESS

/-- The progress state of a unit of the `M`-chain whose first `a` tasks are done. -/
def chainState (M a : Nat) : TaskState :=
  TaskState.mk (2 ^ a - 1) a ((M : Int) - (a : Int))

/-- What one call of `DoAllAvailableTasks` makes of a block. -/
def callBlock {β : Type} (tl : TaskList β) (stage : Int) (b : MeshBlock β) : MeshBlock β :=
  MeshBlock.mk (DoAllAvailableTasks tl b.data stage b.tasks).ts
    (DoAllAvailableTasks tl b.data stage b.tasks).pmb

/-- The status one call of `DoAllAvailableTasks` returns for a block. -/
def callStatus {β : Type} (tl : TaskList β) (stage : Int) (b : MeshBlock β) :
    TaskListStatus :=
  (DoAllAvailableTasks tl b.data stage b.tasks).status

/-- Number of blocks that still have tasks left. -/
def pending {β : Type} (blocks : List (MeshBlock β)) : Nat :=
  (blocks.filter (fun b => decide (b.tasks.num_tasks_left ≠ 0))).length

/-- The progress state of the block is consistent with the graph: the counter is the
number of tasks not done and `finished_tasks` holds identity bits of the graph only. -/
def Good {β : Type} (tl : TaskList β) (b : MeshBlock β) : Prop :=
  Counted tl b.tasks ∧ b.tasks.finished_tasks &&& allIds tl = b.tasks.finished_tasks

/-- Every block is in the state of the `M`-chain in which the first `a` tasks are done. -/
def AllAt {β : Type} (M a : Nat) (blocks : List (MeshBlock β)) : Prop :=
  ∀ b ∈ blocks, b.tasks = chainState M a

/-- What `k` successive calls of `DoAllAvailableTasks` make of a block. -/
def callsBlock {β : Type} (tl : TaskList β) (stage : Int) (k : Nat) (b : MeshBlock β) :
    MeshBlock β :=
  MeshBlock.mk (DoCalls tl stage k b.tasks b.data).ts (DoCalls tl stage k b.tasks b.data).pmb

/-- What is kept of a unit whose task `j` fails on every data of `Q`: the data stays in
`Q`, the counter is right and the bit of task `j` is not set. -/
def StuckAt {β : Type} (tl : TaskList β) (Q : β → Prop) (j : Nat) (b : MeshBlock β) : Prop :=
  Q b.data ∧ Counted tl b.tasks ∧ (tl.task_list_ j).task_id &&& b.tasks.finished_tasks = 0

/-- What the rounds of the driver keep when unit `u` is stuck: unit `u` stays stuck, none
of its calls has returned `TL_COMPLETE`, and the counter `nmb_left` is at least the number
of blocks with tasks left. -/
def StuckRun {β : Type} (tl : TaskList β) (Q : β → Prop) (j u : Nat) (s : StageState β) :
    Prop :=
  (∃ b, s.blocks[u]? = some b ∧ StuckAt tl Q j b) ∧
  (∀ round ∈ s.history, ∃ st, round[u]? = some st ∧ st ≠ TL_COMPLETE) ∧
  (pending s.blocks : Int) ≤ s.nmb_left

/-- The text `sub` occurs in the text `s`. -/
def Contains (s sub : String) : Prop := ∃ pre post : String, s = pre ++ sub ++ post

/-! ## Example graphs -/

/-- Example: three tasks in a chain, every action signals plain Success and counts its
invocations in the data of the block. -/
def chain3 : TaskList Nat :=
  TaskList.mk 3 1 (fun k =>
    Task.mk (2 ^ k) (if k = 0 then 0 else 2 ^ (k - 1)) (fun d _ => (TASK_SUCCESS, d + 1)))

/-- Example: one task whose action signals Fail on its first invocation (data 0) and
Success afterwards. -/
def retry1 : TaskList Nat :=
  TaskList.mk 1 1 (fun _ =>
    Task.mk 1 0 (fun d _ => (if d = 0 then TASK_FAIL else TASK_SUCCESS, d + 1)))

/-- Example: the three-task chain registered in reverse order (the last task of the chain
first); every action signals plain Success. -/
def rev3 : TaskList Nat :=
  TaskList.mk 3 1 (fun k =>
    Task.mk (2 ^ (2 - k)) (if 2 ≤ k then 0 else 2 ^ (1 - k)) (fun d _ => (TASK_SUCCESS, d + 1)))

/-- Example: two tasks in a chain; the first always succeeds and the second signals Fail as
long as the data of the block is 0; no action changes the data. -/
def stuck2 : TaskList Nat :=
  TaskList.mk 2 1 (fun k =>
    if k = 0 then Task.mk 1 0 (fun d _ => (TASK_SUCCESS, d))
    else Task.mk 2 1 (fun d _ => (if d = 0 then TASK_FAIL else TASK_SUCCESS, d)))

/-- Example: identities for the radiation list, bits 0 and 1. -/
def exampleNames : RadiationIntegratorTaskNames :=
  RadiationIntegratorTaskNames.mk 1 2 (by decide)

/-- Example: an array of descriptors as the constructor may find it. -/
def exampleMem : Nat → Task Nat :=
  fun _ => Task.mk 0 0 (fun d _ => (TaskStatus.TASK_FAIL, d))

/-! ## Runnable tasks, the naive executor, stages that cannot complete -/

/-- Task `m` is runnable when `finished_tasks = f`: it is not done and its dependency is
satisfied (the two tests of lines 53 and 55). -/
def Runnable {β : Type} (tl : TaskList β) (f m : Nat) : Prop :=
  (tl.task_list_ m).task_id &&& f = 0 ∧
  (tl.task_list_ m).dependency &&& f = (tl.task_list_ m).dependency

instance instDecidableRunnable {β : Type} (tl : TaskList β) (f m : Nat) :
    Decidable (Runnable tl f m) := by
  unfold Runnable; infer_instance

/-- Example: three independent tasks; the action of the first always signals Fail, the
other two signal plain Success. -/
def failFirst3 : TaskList Nat :=
  TaskList.mk 3 1 (fun k =>
    Task.mk (2 ^ k) 0 (fun d _ => (if k = 0 then TASK_FAIL else TASK_SUCCESS, d)))

/-- Example: two tasks whose actions signal SuccessContinue, the first registered one
depending on the second. -/
def next2 : TaskList Nat :=
  TaskList.mk 2 1 (fun k =>
    if k = 0 then Task.mk 1 2 (fun d _ => (TASK_NEXT, d))
    else Task.mk 2 0 (fun d _ => (TASK_NEXT, d)))

/-- The graph is registered in topological order: every dependency bit of a task is the
identity of a task at a smaller index. -/
def Topological {β : Type} (tl : TaskList β) : Prop :=
  ∀ i, i < tl.ntasks → (tl.task_list_ i).dependency &&& orIds tl i = (tl.task_list_ i).dependency

instance instDecidableTopological {β : Type} (tl : TaskList β) : Decidable (Topological tl) := by
  unfold Topological; infer_instance

/-- Example: the three-task chain with actions that signal SuccessContinue. -/
def chainNext3 : TaskList Nat :=
  TaskList.mk 3 1 (fun k =>
    Task.mk (2 ^ k) (if k = 0 then 0 else 2 ^ (k - 1)) (fun d _ => (TASK_NEXT, d + 1)))

/-- The naive executor of the resume-index claim, written from the claim's words: the
executor that "performs the same scan starting from index 0" instead of
`indx_first_task`. -/
def DoAllAvailableTasksNaive {β : Type} (tl : TaskList β) (pmb : β) (stage : Int)
    (ts : TaskState) : Outcome β :=
  if ts.num_tasks_left = 0 then Outcome.mk TaskListStatus.TL_NOTHING_TO_DO ts pmb []
  else scan tl stage tl.ntasks 0 0 ts pmb

/-- Two outcomes agree on what a caller can observe apart from the resume index: status,
invocations, `finished_tasks`, `num_tasks_left` and the data of the block. -/
def SameOutcome {β : Type} (r r' : Outcome β) : Prop :=
  r.status = r'.status ∧ r.log = r'.log ∧ r.ts.finished_tasks = r'.ts.finished_tasks ∧
  r.ts.num_tasks_left = r'.ts.num_tasks_left ∧ r.pmb = r'.pmb

/-- Ghost: the call number `a + 1` of a sequence of calls for one unit that starts from a
reset: the call made on what the first `a` calls left. -/
def callAt {β : Type} (tl : TaskList β) (stage : Int) (pmb : β) (a : Nat) : Outcome β :=
  DoAllAvailableTasks tl (DoCalls tl stage a (TaskState.Reset tl.ntasks) pmb).pmb stage
    (DoCalls tl stage a (TaskState.Reset tl.ntasks) pmb).ts

/-- Number of blocks whose `num_tasks_left` is still greater than 0. -/
def unitsLeft {β : Type} (blocks : List (MeshBlock β)) : Nat :=
  (blocks.filter (fun b => decide (0 < b.tasks.num_tasks_left))).length

/-- Task `j` can never be completed for a unit whose data stays in `Q`: its action signals
Fail on every data of `Q`, or its dependency names a bit that no task of the graph
provides. -/
def CannotComplete {β : Type} (tl : TaskList β) (stage : Int) (Q : β → Prop) (j : Nat) : Prop :=
  (∀ d, Q d → ((tl.task_list_ j).TaskFunc d stage).1 = TaskStatus.TASK_FAIL) ∨
  (tl.task_list_ j).dependency &&& allIds tl ≠ (tl.task_list_ j).dependency

/-- What is kept of a unit one task of which can never be completed: the data stays in
`Q`, the progress state is consistent with the graph and the bit of task `j` is not
set. -/
def NeverDone {β : Type} (tl : TaskList β) (Q : β → Prop) (j : Nat) (b : MeshBlock β) : Prop :=
  Q b.data ∧ Good tl b ∧ (tl.task_list_ j).task_id &&& b.tasks.finished_tasks = 0

/-- Example: one task whose dependency is a bit that no task provides. -/
def orphan1 : TaskList Nat :=
  TaskList.mk 1 1 (fun _ => Task.mk 1 2 (fun d _ => (TaskStatus.TASK_SUCCESS, d)))

/-- Modelled from the spec: the fixed width of the identity masks, "width = maximum
supported tasks per graph, e.g. 64" (the capacity of the array `task_list_` is declared in
task_list.hpp, not under src). -/
def width : Nat := 64

/-- Successive calls `AddRadiationIntegratorTask(id, dep)` for the pairs of the list, in
order, up to the first one that throws. -/
def addAll {β : Type} (names : RadiationIntegratorTaskNames) (UpdateRadJeans : β → β) :
    TaskList β → List (Nat × Nat) → Except String Unit × TaskList β
  | tl, [] => (Except.ok (), tl)
  | tl, p :: rest =>
    match AddRadiationIntegratorTask names UpdateRadJeans tl p.1 p.2 with
    | (Except.ok _, tl1) => addAll names UpdateRadJeans tl1 rest
    | (Except.error msg, tl1) => (Except.error msg, tl1)

/-! ## Bit masks -/

theorem and_or_of_and {a f : Nat} (b : Nat) (h : a &&& f = a) : a &&& (f ||| b) = a := by
  apply Nat.eq_of_testBit_eq
  intro i
  have hi := congrArg (fun x => x.testBit i) h
  simp only [Nat.testBit_and] at hi
  simp only [Nat.testBit_and, Nat.testBit_or]
  cases ha : a.testBit i <;> simp_all

theorem and_or_self (a f : Nat) : a &&& (f ||| a) = a := by
  apply Nat.eq_of_testBit_eq
  intro i
  simp only [Nat.testBit_and, Nat.testBit_or]
  cases a.testBit i <;> simp

theorem and_or_eq_zero {a f b : Nat} : a &&& (f ||| b) = 0 ↔ a &&& f = 0 ∧ a &&& b = 0 := by
  rw [Nat.and_or_distrib_left]
  constructor
  · intro h
    constructor
    · apply Nat.eq_of_testBit_eq
      intro i
      have hi := congrArg (fun x => x.testBit i) h
      simp only [Nat.testBit_or, Nat.zero_testBit, Bool.or_eq_false_iff] at hi
      simpa using hi.1
    · apply Nat.eq_of_testBit_eq
      intro i
      have hi := congrArg (fun x => x.testBit i) h
      simp only [Nat.testBit_or, Nat.zero_testBit, Bool.or_eq_false_iff] at hi
      simpa using hi.2
  · rintro ⟨h1, h2⟩
    rw [h1, h2]; rfl

theorem IsBit.ne_zero {a : Nat} (h : IsBit a) : a ≠ 0 := by
  obtain ⟨k, _, rfl⟩ := h
  exact Nat.pos_iff_ne_zero.mp (Nat.two_pow_pos k)

theorem IsBit.and_eq {a : Nat} (h : IsBit a) (f : Nat) : a &&& f = 0 ∨ a &&& f = a := by
  obtain ⟨k, _, rfl⟩ := h
  cases hb : f.testBit k
  · left
    apply Nat.eq_of_testBit_eq
    intro i
    simp only [Nat.testBit_and, Nat.testBit_two_pow, Nat.zero_testBit]
    by_cases hki : k = i
    · subst hki; simp [hb]
    · simp [hki]
  · right
    apply Nat.eq_of_testBit_eq
    intro i
    simp only [Nat.testBit_and, Nat.testBit_two_pow]
    by_cases hki : k = i
    · subst hki; simp [hb]
    · simp [hki]

theorem IsBit.and_bit {a b : Nat} (ha : IsBit a) (hb : IsBit b) (hne : a ≠ b) :
    a &&& b = 0 := by
  obtain ⟨k, _, rfl⟩ := ha
  obtain ⟨l, _, rfl⟩ := hb
  have hkl : k ≠ l := fun h => hne (by rw [h])
  apply Nat.eq_of_testBit_eq
  intro i
  simp only [Nat.testBit_and, Nat.testBit_two_pow, Nat.zero_testBit]
  by_cases hki : k = i
  · subst hki; simp [Ne.symm hkl]
  · simp [hki]

/-! ## The loop of DoAllAvailableTasks -/

/-- Induction along the loop of `DoAllAvailableTasks`: one case for each way through the
body of the loop. -/
theorem scan_ind {β : Type} (tl : TaskList β) (stage : Int)
    {P : Nat → Nat → Nat → TaskState → β → Outcome β → Prop}
    (stuck : ∀ i skip ts pmb, P 0 i skip ts pmb (Outcome.mk TaskListStatus.TL_STUCK ts pmb []))
    (done : ∀ n i skip ts pmb r, (tl.task_list_ i).task_id &&& ts.finished_tasks ≠ 0 →
      P n (i + 1) skip (passDone skip ts) pmb r → P (n + 1) i skip ts pmb r)
    (blocked : ∀ n i skip ts pmb r, (tl.task_list_ i).task_id &&& ts.finished_tasks = 0 →
      (tl.task_list_ i).dependency &&& ts.finished_tasks ≠ (tl.task_list_ i).dependency →
      P n (i + 1) (skip + 1) ts pmb r → P (n + 1) i skip ts pmb r)
    (fail : ∀ n i skip ts pmb r, (tl.task_list_ i).task_id &&& ts.finished_tasks = 0 →
      (tl.task_list_ i).dependency &&& ts.finished_tasks = (tl.task_list_ i).dependency →
      ((tl.task_list_ i).TaskFunc pmb stage).1 = TASK_FAIL →
      P n (i + 1) (skip + 1) ts ((tl.task_list_ i).TaskFunc pmb stage).2 r →
      P (n + 1) i skip ts pmb (Outcome.record (invoked tl stage i ts pmb) r))
    (complete : ∀ n i skip ts pmb, (tl.task_list_ i).task_id &&& ts.finished_tasks = 0 →
      (tl.task_list_ i).dependency &&& ts.finished_tasks = (tl.task_list_ i).dependency →
      ((tl.task_list_ i).TaskFunc pmb stage).1 ≠ TASK_FAIL → ts.num_tasks_left - 1 = 0 →
      P (n + 1) i skip ts pmb (Outcome.mk TL_COMPLETE (markDone tl i skip ts)
        ((tl.task_list_ i).TaskFunc pmb stage).2 [invoked tl stage i ts pmb]))
    (next : ∀ n i skip ts pmb r, (tl.task_list_ i).task_id &&& ts.finished_tasks = 0 →
      (tl.task_list_ i).dependency &&& ts.finished_tasks = (tl.task_list_ i).dependency →
      ((tl.task_list_ i).TaskFunc pmb stage).1 = TASK_NEXT → ts.num_tasks_left - 1 ≠ 0 →
      P n (i + 1) skip (markDone tl i skip ts) ((tl.task_list_ i).TaskFunc pmb stage).2 r →
      P (n + 1) i skip ts pmb (Outcome.record (invoked tl stage i ts pmb) r))
    (running : ∀ n i skip ts pmb, (tl.task_list_ i).task_id &&& ts.finished_tasks = 0 →
      (tl.task_list_ i).dependency &&& ts.finished_tasks = (tl.task_list_ i).dependency →
      ((tl.task_list_ i).TaskFunc pmb stage).1 = TASK_SUCCESS → ts.num_tasks_left - 1 ≠ 0 →
      P (n + 1) i skip ts pmb (Outcome.mk TL_RUNNING (markDone tl i skip ts)
        ((tl.task_list_ i).TaskFunc pmb stage).2 [invoked tl stage i ts pmb])) :
    ∀ n i skip ts pmb, P n i skip ts pmb (scan tl stage n i skip ts pmb) := by
  intro n
  induction n with
  | zero => intro i skip ts pmb; exact stuck i skip ts pmb
  | succ n ih =>
    intro i skip ts pmb
    by_cases h1 : (tl.task_list_ i).task_id &&& ts.finished_tasks = 0
    · by_cases h2 : (tl.task_list_ i).dependency &&& ts.finished_tasks
          = (tl.task_list_ i).dependency
      · by_cases h3 : ((tl.task_list_ i).TaskFunc pmb stage).1 = TASK_FAIL
        · have := fail n i skip ts pmb _ h1 h2 h3 (ih _ _ _ _)
          simpa only [scan, h1, h2, h3, if_true, ne_eq, not_true_eq_false, if_false, invoked]
            using this
        · by_cases h4 : ts.num_tasks_left - 1 = 0
          · have := complete n i skip ts pmb h1 h2 h3 h4
            simpa only [scan, h1, h2, h3, h4, if_true, ne_eq, not_false_eq_true, invoked,
              markDone] using this
          · by_cases h5 : ((tl.task_list_ i).TaskFunc pmb stage).1 = TASK_NEXT
            · have := next n i skip ts pmb _ h1 h2 h5 h4 (ih _ _ _ _)
              simpa only [scan, h1, h2, h3, h4, h5, if_true, if_false, ne_eq,
                not_false_eq_true, invoked, markDone] using this
            · have h6 : ((tl.task_list_ i).TaskFunc pmb stage).1 = TASK_SUCCESS := by
                cases h : ((tl.task_list_ i).TaskFunc pmb stage).1 <;> simp_all
              have := running n i skip ts pmb h1 h2 h6 h4
              simpa only [scan, h1, h2, h3, h4, h5, if_true, if_false, ne_eq,
                not_false_eq_true, invoked, markDone] using this
      · have := blocked n i skip ts pmb _ h1 h2 (ih _ _ _ _)
        simpa only [scan, h1, h2, if_true, if_false] using this
    · have := done n i skip ts pmb _ h1 (ih _ _ _ _)
      by_cases h7 : skip = 0
      · simpa only [scan, h1, h7, if_true, if_false, passDone] using this
      · simpa only [scan, h1, h7, if_true, if_false, passDone] using this

theorem successes_cons (e : Invocation) (l : List Invocation) :
    successes (e :: l) = (if e.ret ≠ TASK_FAIL then 1 else 0) + successes l := by
  unfold successes
  by_cases h : e.ret = TASK_FAIL
  · simp [List.filter_cons, h]
  · simp [List.filter_cons, h]; omega

theorem successes_append (l₁ l₂ : List Invocation) :
    successes (l₁ ++ l₂) = successes l₁ + successes l₂ := by
  simp [successes, List.filter_append]

/-- The log of a scan is a valid trace from the value of `finished_tasks` at its start; the
scan leaves the replay of its log in `finished_tasks` and has decremented `num_tasks_left`
once for every success. -/
theorem scan_trace {β : Type} (tl : TaskList β) (stage : Int) :
    ∀ (n i skip : Nat) (ts : TaskState) (pmb : β),
      LogValid tl ts.finished_tasks (scan tl stage n i skip ts pmb).log ∧
      (scan tl stage n i skip ts pmb).ts.finished_tasks =
        replay tl ts.finished_tasks (scan tl stage n i skip ts pmb).log ∧
      (scan tl stage n i skip ts pmb).ts.num_tasks_left =
        ts.num_tasks_left - (successes (scan tl stage n i skip ts pmb).log : Int) := by
  apply scan_ind tl stage
    (P := fun _ _ _ ts _ r => LogValid tl ts.finished_tasks r.log ∧
      r.ts.finished_tasks = replay tl ts.finished_tasks r.log ∧
      r.ts.num_tasks_left = ts.num_tasks_left - (successes r.log : Int))
  · intro i skip ts pmb
    simp [LogValid, replay, successes]
  · intro n i skip ts pmb r _ ih
    unfold passDone at ih
    split_ifs at ih <;> exact ih
  · intro n i skip ts pmb r _ _ ih
    exact ih
  · intro n i skip ts pmb r h1 h2 h3 ih
    obtain ⟨a, b, c⟩ := ih
    simp only [Outcome.record, LogValid, replay, List.foldl_cons, successes_cons, stepFinished,
      invoked, h1, h2, h3, ne_eq, not_true_eq_false, if_false, true_and]
    exact ⟨a, b, by rw [c]; simp⟩
  · intro n i skip ts pmb h1 h2 h3 _
    simp [LogValid, replay, stepFinished, successes, invoked, markDone, h1, h2, h3]
  · intro n i skip ts pmb r h1 h2 h3 _ ih
    obtain ⟨a, b, c⟩ := ih
    simp only [Outcome.record, LogValid, replay, List.foldl_cons, successes_cons, stepFinished,
      invoked, h1, h2, h3, ne_eq, not_false_eq_true, if_true, true_and, reduceCtorEq]
    simp only [markDone] at a b c
    refine ⟨a, b, ?_⟩
    rw [c]; push_cast; ring
  · intro n i skip ts pmb h1 h2 h3 _
    simp [LogValid, replay, stepFinished, successes, invoked, markDone, h1, h2, h3]

/-- The invocations of a scan that starts at index `i` with `n` iterations left are made on
indices of `[i, i + n)`. -/
theorem scan_index {β : Type} (tl : TaskList β) (stage : Int) :
    ∀ (n i skip : Nat) (ts : TaskState) (pmb : β),
      ∀ e ∈ (scan tl stage n i skip ts pmb).log, i ≤ e.index ∧ e.index < i + n := by
  apply scan_ind tl stage (P := fun n i _ _ _ r => ∀ e ∈ r.log, i ≤ e.index ∧ e.index < i + n)
  · intro i skip ts pmb e he; simp at he
  · intro n i skip ts pmb r _ ih e he
    have := ih e he; omega
  · intro n i skip ts pmb r _ _ ih e he
    have := ih e he; omega
  · intro n i skip ts pmb r _ _ _ ih e he
    simp only [Outcome.record, List.mem_cons] at he
    rcases he with rfl | he
    · simp [invoked]
    · have := ih e he; omega
  · intro n i skip ts pmb _ _ _ _ e he
    simp only [List.mem_singleton] at he
    subst he; simp [invoked]
  · intro n i skip ts pmb r _ _ _ _ ih e he
    simp only [Outcome.record, List.mem_cons] at he
    rcases he with rfl | he
    · simp [invoked]
    · have := ih e he; omega
  · intro n i skip ts pmb _ _ _ _ e he
    simp only [List.mem_singleton] at he
    subst he; simp [invoked]

/-- What an invocation of the log returned is what the action of its task returns on some
data of the block; a property of the data that the actions keep holds throughout. -/
theorem scan_ret {β : Type} (tl : TaskList β) (stage : Int) (Q : β → Prop)
    (hQ : ∀ j d, Q d → Q ((tl.task_list_ j).TaskFunc d stage).2) :
    ∀ (n i skip : Nat) (ts : TaskState) (pmb : β), Q pmb →
      Q (scan tl stage n i skip ts pmb).pmb ∧
      ∀ e ∈ (scan tl stage n i skip ts pmb).log,
        ∃ d, Q d ∧ e.ret = ((tl.task_list_ e.index).TaskFunc d stage).1 := by
  apply scan_ind tl stage (P := fun _ _ _ _ pmb r => Q pmb →
      Q r.pmb ∧ ∀ e ∈ r.log, ∃ d, Q d ∧ e.ret = ((tl.task_list_ e.index).TaskFunc d stage).1)
  · intro i skip ts pmb h
    exact ⟨h, by simp⟩
  · intro n i skip ts pmb r _ ih h
    exact ih h
  · intro n i skip ts pmb r _ _ ih h
    exact ih h
  · intro n i skip ts pmb r _ _ _ ih h
    obtain ⟨a, b⟩ := ih (hQ i pmb h)
    refine ⟨a, ?_⟩
    intro e he
    simp only [Outcome.record, List.mem_cons] at he
    rcases he with rfl | he
    · exact ⟨pmb, h, rfl⟩
    · exact b e he
  · intro n i skip ts pmb _ _ _ _ h
    refine ⟨hQ i pmb h, ?_⟩
    intro e he
    simp only [List.mem_singleton] at he
    subst he
    exact ⟨pmb, h, rfl⟩
  · intro n i skip ts pmb r _ _ _ _ ih h
    obtain ⟨a, b⟩ := ih (hQ i pmb h)
    refine ⟨a, ?_⟩
    intro e he
    simp only [Outcome.record, List.mem_cons] at he
    rcases he with rfl | he
    · exact ⟨pmb, h, rfl⟩
    · exact b e he
  · intro n i skip ts pmb _ _ _ _ h
    refine ⟨hQ i pmb h, ?_⟩
    intro e he
    simp only [List.mem_singleton] at he
    subst he
    exact ⟨pmb, h, rfl⟩

/-- Status of a scan against the counter: `TL_COMPLETE` is returned exactly when the scan
has brought `num_tasks_left` to 0, and a scan never returns `TL_NOTHING_TO_DO`. -/
theorem scan_status {β : Type} (tl : TaskList β) (stage : Int) :
    ∀ (n i skip : Nat) (ts : TaskState) (pmb : β),
      ((scan tl stage n i skip ts pmb).status = TL_COMPLETE →
        (scan tl stage n i skip ts pmb).ts.num_tasks_left = 0) ∧
      (ts.num_tasks_left ≠ 0 → (scan tl stage n i skip ts pmb).ts.num_tasks_left = 0 →
        (scan tl stage n i skip ts pmb).status = TL_COMPLETE) ∧
      (scan tl stage n i skip ts pmb).status ≠ TL_NOTHING_TO_DO := by
  apply scan_ind tl stage (P := fun _ _ _ ts _ r =>
      (r.status = TL_COMPLETE → r.ts.num_tasks_left = 0) ∧
      (ts.num_tasks_left ≠ 0 → r.ts.num_tasks_left = 0 → r.status = TL_COMPLETE) ∧
      r.status ≠ TL_NOTHING_TO_DO)
  · intro i skip ts pmb
    simp
  · intro n i skip ts pmb r _ ih
    unfold passDone at ih
    split_ifs at ih <;> exact ih
  · intro n i skip ts pmb r _ _ ih
    exact ih
  · intro n i skip ts pmb r _ _ _ ih
    exact ih
  · intro n i skip ts pmb _ _ _ h4
    simp [markDone, h4]
  · intro n i skip ts pmb r _ _ _ h4 ih
    simp only [markDone] at ih
    exact ⟨ih.1, fun _ => ih.2.1 h4, ih.2.2⟩
  · intro n i skip ts pmb _ _ _ h4
    simp [markDone, h4]

/-- A scan that invokes nothing has found every task of its range done or blocked. -/
theorem scan_quiet {β : Type} (tl : TaskList β) (stage : Int) :
    ∀ (n i skip : Nat) (ts : TaskState) (pmb : β),
      (scan tl stage n i skip ts pmb).log = [] →
      ∀ j, i ≤ j → j < i + n → (tl.task_list_ j).task_id &&& ts.finished_tasks = 0 →
        (tl.task_list_ j).dependency &&& ts.finished_tasks ≠ (tl.task_list_ j).dependency := by
  apply scan_ind tl stage (P := fun n i _ ts _ r => r.log = [] →
      ∀ j, i ≤ j → j < i + n → (tl.task_list_ j).task_id &&& ts.finished_tasks = 0 →
        (tl.task_list_ j).dependency &&& ts.finished_tasks ≠ (tl.task_list_ j).dependency)
  · intro i skip ts pmb _ j h1 h2
    omega
  · intro n i skip ts pmb r h ih hr j h1 h2 h3
    have hfin : (passDone skip ts).finished_tasks = ts.finished_tasks := by
      unfold passDone; split_ifs <;> rfl
    rw [hfin] at ih
    rcases Nat.eq_or_lt_of_le h1 with rfl | hlt
    · exact absurd h3 h
    · exact ih hr j hlt (by omega) h3
  · intro n i skip ts pmb r _ h ih hr j h1 h2 h3
    rcases Nat.eq_or_lt_of_le h1 with rfl | hlt
    · exact h
    · exact ih hr j hlt (by omega) h3
  · intro n i skip ts pmb r _ _ _ _ hr
    simp [Outcome.record] at hr
  · intro n i skip ts pmb _ _ _ _ hr
    simp at hr
  · intro n i skip ts pmb r _ _ _ _ _ hr
    simp [Outcome.record] at hr
  · intro n i skip ts pmb _ _ _ _ hr
    simp at hr

theorem scan_resume {β : Type} (tl : TaskList β) (stage : Int) :
    ∀ (n i skip : Nat) (ts : TaskState) (pmb : β),
      (∀ j, i ≤ j → j < i + n → IsBit (tl.task_list_ j).task_id) →
      (skip = 0 → ts.indx_first_task = i) → ts.indx_first_task ≤ i →
      (∀ j, j < ts.indx_first_task →
        (tl.task_list_ j).task_id &&& ts.finished_tasks = (tl.task_list_ j).task_id) →
      (scan tl stage n i skip ts pmb).ts.indx_first_task ≤ i + n ∧
      ∀ j, j < (scan tl stage n i skip ts pmb).ts.indx_first_task →
        (tl.task_list_ j).task_id &&& (scan tl stage n i skip ts pmb).ts.finished_tasks
          = (tl.task_list_ j).task_id := by
  apply scan_ind tl stage (P := fun n i skip ts _ r =>
      (∀ j, i ≤ j → j < i + n → IsBit (tl.task_list_ j).task_id) →
      (skip = 0 → ts.indx_first_task = i) → ts.indx_first_task ≤ i →
      (∀ j, j < ts.indx_first_task →
        (tl.task_list_ j).task_id &&& ts.finished_tasks = (tl.task_list_ j).task_id) →
      r.ts.indx_first_task ≤ i + n ∧
      ∀ j, j < r.ts.indx_first_task →
        (tl.task_list_ j).task_id &&& r.ts.finished_tasks = (tl.task_list_ j).task_id)
  · intro i skip ts pmb _ _ h2 h3
    exact ⟨by simpa using h2, h3⟩
  · intro n i skip ts pmb r hd ih hb h1 h2 h3
    have hb' : ∀ j, i + 1 ≤ j → j < i + 1 + n → IsBit (tl.task_list_ j).task_id :=
      fun j a b => hb j (by omega) (by omega)
    by_cases hs : skip = 0
    · have h1' := h1 hs
      simp only [passDone, hs, if_true] at ih
      have := ih hb' (fun _ => by simp [h1']) (by simp [h1']) (by
        intro j hj
        rcases Nat.lt_succ_iff_lt_or_eq.mp hj with hlt | heq
        · exact h3 j hlt
        · have hji : j = i := by omega
          subst hji
          rcases (hb j (le_refl _) (by omega)).and_eq ts.finished_tasks with h | h
          · exact absurd h hd
          · exact h)
      exact ⟨by omega, this.2⟩
    · simp only [passDone, hs, if_false] at ih
      have := ih hb' (fun h => h.elim) (by omega) h3
      exact ⟨by omega, this.2⟩
  · intro n i skip ts pmb r _ _ ih hb h1 h2 h3
    have := ih (fun j a b => hb j (by omega) (by omega)) (fun h => by omega) (by omega) h3
    exact ⟨by omega, this.2⟩
  · intro n i skip ts pmb r _ _ _ ih hb h1 h2 h3
    simp only [Outcome.record]
    have := ih (fun j a b => hb j (by omega) (by omega)) (fun h => by omega) (by omega) h3
    exact ⟨by omega, this.2⟩
  · intro n i skip ts pmb _ _ _ _ hb h1 h2 h3
    simp only [markDone]
    by_cases hs : skip = 0
    · have h1' := h1 hs
      simp only [hs, if_true]
      refine ⟨by omega, ?_⟩
      intro j hj
      rcases Nat.lt_succ_iff_lt_or_eq.mp hj with hlt | heq
      · exact and_or_of_and _ (h3 j hlt)
      · have hji : j = i := by omega
        subst hji
        exact and_or_self _ _
    · simp only [hs, if_false]
      exact ⟨by omega, fun j hj => and_or_of_and _ (h3 j hj)⟩
  · intro n i skip ts pmb r _ _ _ _ ih hb h1 h2 h3
    simp only [Outcome.record]
    have hb' : ∀ j, i + 1 ≤ j → j < i + 1 + n → IsBit (tl.task_list_ j).task_id :=
      fun j a b => hb j (by omega) (by omega)
    by_cases hs : skip = 0
    · have h1' := h1 hs
      simp only [markDone, hs, if_true] at ih
      have := ih hb' (fun _ => by simp [h1']) (by simp [h1']) (by
        intro j hj
        rcases Nat.lt_succ_iff_lt_or_eq.mp hj with hlt | heq
        · exact and_or_of_and _ (h3 j hlt)
        · have hji : j = i := by omega
          subst hji
          exact and_or_self _ _)
      exact ⟨by omega, this.2⟩
    · simp only [markDone, hs, if_false] at ih
      have := ih hb' (fun h => h.elim) (by simpa using Nat.le_succ_of_le h2)
        (fun j hj => and_or_of_and _ (h3 j hj))
      exact ⟨by omega, this.2⟩
  · intro n i skip ts pmb _ _ _ _ hb h1 h2 h3
    simp only [markDone]
    by_cases hs : skip = 0
    · have h1' := h1 hs
      simp only [hs, if_true]
      refine ⟨by omega, ?_⟩
      intro j hj
      rcases Nat.lt_succ_iff_lt_or_eq.mp hj with hlt | heq
      · exact and_or_of_and _ (h3 j hlt)
      · have hji : j = i := by omega
        subst hji
        exact and_or_self _ _
    · simp only [hs, if_false]
      exact ⟨by omega, fun j hj => and_or_of_and _ (h3 j hj)⟩

/-- One call keeps the resume index sound when the identities are single bits. -/
theorem call_resume {β : Type} (tl : TaskList β) (stage : Int)
    (hb : ∀ j, j < tl.ntasks → IsBit (tl.task_list_ j).task_id)
    (ts : TaskState) (pmb : β) (h : ResumeOK tl ts) :
    ResumeOK tl (DoAllAvailableTasks tl pmb stage ts).ts := by
  unfold DoAllAvailableTasks
  split_ifs with h0
  · exact h
  · have := scan_resume tl stage (tl.ntasks - ts.indx_first_task) ts.indx_first_task 0 ts pmb
      (fun j _ b => hb j (by have := h.1; omega)) (fun _ => rfl) (le_refl _) h.2
    exact ⟨by have := h.1; omega, this.2⟩

theorem resumeOK_reset {β : Type} (tl : TaskList β) : ResumeOK tl (TaskState.Reset tl.ntasks) :=
  ⟨Nat.zero_le _, fun j hj => absurd hj (Nat.not_lt_zero j)⟩

theorem calls_resume {β : Type} (tl : TaskList β) (stage : Int)
    (hb : ∀ j, j < tl.ntasks → IsBit (tl.task_list_ j).task_id) :
    ∀ (k : Nat) (ts : TaskState) (pmb : β), ResumeOK tl ts →
      ResumeOK tl (DoCalls tl stage k ts pmb).ts := by
  intro k
  induction k with
  | zero => intro ts pmb h; exact h
  | succ k ih =>
    intro ts pmb h
    exact ih _ _ (call_resume tl stage hb ts pmb h)

/-! ## Traces -/

theorem replay_append {β : Type} (tl : TaskList β) (f : Nat) (l₁ l₂ : List Invocation) :
    replay tl f (l₁ ++ l₂) = replay tl (replay tl f l₁) l₂ := by
  simp [replay, List.foldl_append]

theorem logValid_append {β : Type} (tl : TaskList β) :
    ∀ (l₁ l₂ : List Invocation) (f : Nat),
      LogValid tl f (l₁ ++ l₂) ↔ LogValid tl f l₁ ∧ LogValid tl (replay tl f l₁) l₂ := by
  intro l₁
  induction l₁ with
  | nil => intro l₂ f; simp [LogValid, replay]
  | cons e l ih =>
    intro l₂ f
    have h := ih l₂ (stepFinished tl f e)
    simp only [replay] at h
    have h' : LogValid tl (stepFinished tl f e) (l.append l₂) ↔
        LogValid tl (stepFinished tl f e) l ∧
          LogValid tl (List.foldl (stepFinished tl) (stepFinished tl f e) l) l₂ := h
    simp only [List.cons_append, LogValid, replay, List.foldl_cons]
    rw [h']
    tauto

/-- In a valid trace every invocation is made on a task that is not done and whose
dependency is satisfied at the moment of the call. -/
theorem logValid_mem {β : Type} (tl : TaskList β) :
    ∀ (l : List Invocation) (f : Nat), LogValid tl f l → ∀ e ∈ l,
      (tl.task_list_ e.index).task_id &&& e.finished_at_call = 0 ∧
      (tl.task_list_ e.index).dependency &&& e.finished_at_call
        = (tl.task_list_ e.index).dependency := by
  intro l
  induction l with
  | nil => intro f _ e he; simp at he
  | cons a l ih =>
    intro f h e he
    obtain ⟨h1, h2, h3, h4⟩ := h
    rcases List.mem_cons.mp he with rfl | he
    · rw [h1]; exact ⟨h2, h3⟩
    · exact ih _ h4 e he

theorem stepFinished_mono {β : Type} (tl : TaskList β) (f : Nat) (e : Invocation) {g : Nat}
    (hg : g &&& f = g) : g &&& stepFinished tl f e = g := by
  unfold stepFinished
  split_ifs
  · exact and_or_of_and _ hg
  · exact hg

/-- The mask `finished_tasks` only grows along a valid trace. -/
theorem logValid_mono {β : Type} (tl : TaskList β) :
    ∀ (l : List Invocation) (f g : Nat), LogValid tl f l → g &&& f = g →
      (∀ e ∈ l, g &&& e.finished_at_call = g) ∧ g &&& replay tl f l = g := by
  intro l
  induction l with
  | nil => intro f g _ hg; exact ⟨by simp, by simpa [replay] using hg⟩
  | cons a l ih =>
    intro f g h hg
    obtain ⟨h1, _, _, h4⟩ := h
    have := ih _ g h4 (stepFinished_mono tl f a hg)
    refine ⟨?_, by simpa [replay] using this.2⟩
    intro e he
    rcases List.mem_cons.mp he with rfl | he
    · rw [h1]; exact hg
    · exact this.1 e he

/-- In a valid trace, a task whose identity is not zero is not invoked again after an
invocation of it that did not signal Fail. -/
theorem logValid_no_reinvoke {β : Type} (tl : TaskList β) (f : Nat)
    (l₁ l₂ : List Invocation) (e : Invocation) (h : LogValid tl f (l₁ ++ e :: l₂))
    (hret : e.ret ≠ TASK_FAIL) (hid : (tl.task_list_ e.index).task_id ≠ 0) :
    ∀ e' ∈ l₂, e'.index ≠ e.index := by
  intro e' he' heq
  have h2 := ((logValid_append tl l₁ (e :: l₂) f).mp h).2
  obtain ⟨_, _, _, h4⟩ := h2
  have hmono := (logValid_mono tl l₂ _ (tl.task_list_ e.index).task_id h4 (by
    unfold stepFinished
    rw [if_pos hret]
    exact and_or_self _ _)).1 e' he'
  have hnot := (logValid_mem tl l₂ _ h4 e' he').1
  rw [heq, hmono] at hnot
  exact hid hnot

/-- One call: its log is a valid trace from the `finished_tasks` it starts with, and it
leaves the replay of that log and one decrement of `num_tasks_left` per success. -/
theorem call_trace {β : Type} (tl : TaskList β) (stage : Int) (ts : TaskState) (pmb : β) :
    LogValid tl ts.finished_tasks (DoAllAvailableTasks tl pmb stage ts).log ∧
    (DoAllAvailableTasks tl pmb stage ts).ts.finished_tasks =
      replay tl ts.finished_tasks (DoAllAvailableTasks tl pmb stage ts).log ∧
    (DoAllAvailableTasks tl pmb stage ts).ts.num_tasks_left =
      ts.num_tasks_left - (successes (DoAllAvailableTasks tl pmb stage ts).log : Int) := by
  unfold DoAllAvailableTasks
  split_ifs with h0
  · simp [LogValid, replay, successes]
  · exact scan_trace tl stage _ _ _ _ _

theorem call_index {β : Type} (tl : TaskList β) (stage : Int) (ts : TaskState) (pmb : β) :
    ∀ e ∈ (DoAllAvailableTasks tl pmb stage ts).log, e.index < tl.ntasks := by
  unfold DoAllAvailableTasks
  split_ifs with h0
  · simp
  · intro e he
    have := scan_index tl stage _ _ _ _ _ e he
    omega

theorem call_ret {β : Type} (tl : TaskList β) (stage : Int) (Q : β → Prop)
    (hQ : ∀ j d, Q d → Q ((tl.task_list_ j).TaskFunc d stage).2)
    (ts : TaskState) (pmb : β) (h : Q pmb) :
    Q (DoAllAvailableTasks tl pmb stage ts).pmb ∧
    ∀ e ∈ (DoAllAvailableTasks tl pmb stage ts).log,
      ∃ d, Q d ∧ e.ret = ((tl.task_list_ e.index).TaskFunc d stage).1 := by
  unfold DoAllAvailableTasks
  split_ifs with h0
  · exact ⟨h, by simp⟩
  · exact scan_ret tl stage Q hQ _ _ _ _ _ h

/-- Status of one call against the counter `num_tasks_left`. -/
theorem call_status {β : Type} (tl : TaskList β) (stage : Int) (ts : TaskState) (pmb : β) :
    ((DoAllAvailableTasks tl pmb stage ts).status = TL_COMPLETE ↔
      ts.num_tasks_left ≠ 0 ∧ (DoAllAvailableTasks tl pmb stage ts).ts.num_tasks_left = 0) ∧
    ((DoAllAvailableTasks tl pmb stage ts).status = TL_NOTHING_TO_DO ↔
      ts.num_tasks_left = 0) := by
  unfold DoAllAvailableTasks
  split_ifs with h0
  · simp [h0]
  · have := scan_status tl stage (tl.ntasks - ts.indx_first_task) ts.indx_first_task 0 ts pmb
    refine ⟨⟨fun h => ⟨h0, this.1 h⟩, fun h => this.2.1 h0 h.2⟩, ?_⟩
    constructor
    · intro h; exact absurd h this.2.2
    · intro h; exact absurd h h0

theorem call_done {β : Type} (tl : TaskList β) (stage : Int) (ts : TaskState) (pmb : β)
    (h0 : ts.num_tasks_left = 0) :
    DoAllAvailableTasks tl pmb stage ts = Outcome.mk TL_NOTHING_TO_DO ts pmb [] := by
  unfold DoAllAvailableTasks
  rw [if_pos h0]

/-- A sequence of calls: the concatenated log is a valid trace. -/
theorem calls_trace {β : Type} (tl : TaskList β) (stage : Int) :
    ∀ (k : Nat) (ts : TaskState) (pmb : β),
      LogValid tl ts.finished_tasks (DoCalls tl stage k ts pmb).log ∧
      (DoCalls tl stage k ts pmb).ts.finished_tasks =
        replay tl ts.finished_tasks (DoCalls tl stage k ts pmb).log ∧
      (DoCalls tl stage k ts pmb).ts.num_tasks_left =
        ts.num_tasks_left - (successes (DoCalls tl stage k ts pmb).log : Int) := by
  intro k
  induction k with
  | zero => intro ts pmb; simp [DoCalls, LogValid, replay, successes]
  | succ k ih =>
    intro ts pmb
    obtain ⟨a, b, c⟩ := call_trace tl stage ts pmb
    obtain ⟨a', b', c'⟩ := ih (DoAllAvailableTasks tl pmb stage ts).ts
      (DoAllAvailableTasks tl pmb stage ts).pmb
    simp only [DoCalls]
    refine ⟨?_, ?_, ?_⟩
    · rw [logValid_append]
      exact ⟨a, by rw [← b]; exact a'⟩
    · rw [replay_append, ← b]; exact b'
    · rw [successes_append, c', c]; push_cast; ring

theorem calls_index {β : Type} (tl : TaskList β) (stage : Int) :
    ∀ (k : Nat) (ts : TaskState) (pmb : β),
      ∀ e ∈ (DoCalls tl stage k ts pmb).log, e.index < tl.ntasks := by
  intro k
  induction k with
  | zero => intro ts pmb e he; simp [DoCalls] at he
  | succ k ih =>
    intro ts pmb e he
    simp only [DoCalls, List.mem_append] at he
    rcases he with he | he
    · exact call_index tl stage ts pmb e he
    · exact ih _ _ e he

theorem calls_ret {β : Type} (tl : TaskList β) (stage : Int) (Q : β → Prop)
    (hQ : ∀ j d, Q d → Q ((tl.task_list_ j).TaskFunc d stage).2) :
    ∀ (k : Nat) (ts : TaskState) (pmb : β), Q pmb →
      Q (DoCalls tl stage k ts pmb).pmb ∧
      ∀ e ∈ (DoCalls tl stage k ts pmb).log,
        ∃ d, Q d ∧ e.ret = ((tl.task_list_ e.index).TaskFunc d stage).1 := by
  intro k
  induction k with
  | zero => intro ts pmb h; exact ⟨h, by simp [DoCalls]⟩
  | succ k ih =>
    intro ts pmb h
    obtain ⟨a, b⟩ := call_ret tl stage Q hQ ts pmb h
    obtain ⟨a', b'⟩ := ih (DoAllAvailableTasks tl pmb stage ts).ts _ a
    refine ⟨a', ?_⟩
    intro e he
    simp only [DoCalls, List.mem_append] at he
    rcases he with he | he
    · exact b e he
    · exact b' e he

/-! ## Counting the tasks that are not done -/

theorem id_and_orIds {β : Type} (tl : TaskList β) :
    ∀ n x, x < n → (tl.task_list_ x).task_id &&& orIds tl n = (tl.task_list_ x).task_id := by
  intro n
  induction n with
  | zero => intro x hx; omega
  | succ n ih =>
    intro x hx
    simp only [orIds]
    rcases Nat.lt_succ_iff_lt_or_eq.mp hx with h | h
    · exact and_or_of_and _ (ih x h)
    · subst h; exact and_or_self _ _

theorem orIds_testBit {β : Type} (tl : TaskList β) (b : Nat) :
    ∀ n, (orIds tl n).testBit b = true → ∃ x, x < n ∧ (tl.task_list_ x).task_id.testBit b = true := by
  intro n
  induction n with
  | zero => intro h; simp [orIds] at h
  | succ n ih =>
    intro h
    simp only [orIds, Nat.testBit_or, Bool.or_eq_true] at h
    rcases h with h | h
    · obtain ⟨x, hx, hb⟩ := ih h
      exact ⟨x, by omega, hb⟩
    · exact ⟨n, by omega, h⟩

theorem unfinished_zero {β : Type} (tl : TaskList β) (f : Nat) :
    ∀ n, unfinished tl f n = 0 → ∀ j, j < n → (tl.task_list_ j).task_id &&& f ≠ 0 := by
  intro n
  induction n with
  | zero => intro _ j hj; omega
  | succ n ih =>
    intro h j hj
    simp only [unfinished] at h
    rcases Nat.lt_succ_iff_lt_or_eq.mp hj with hlt | heq
    · exact ih (by omega) j hlt
    · subst heq
      intro h0
      rw [if_pos h0] at h
      omega

theorem unfinished_pos {β : Type} (tl : TaskList β) (f : Nat) :
    ∀ n, 0 < unfinished tl f n → ∃ j, j < n ∧ (tl.task_list_ j).task_id &&& f = 0 := by
  intro n
  induction n with
  | zero => intro h; simp [unfinished] at h
  | succ n ih =>
    intro h
    simp only [unfinished] at h
    by_cases h0 : (tl.task_list_ n).task_id &&& f = 0
    · exact ⟨n, by omega, h0⟩
    · rw [if_neg h0] at h
      obtain ⟨j, hj, hj0⟩ := ih (by omega)
      exact ⟨j, by omega, hj0⟩

theorem unfinished_reset {β : Type} (tl : TaskList β) : ∀ n, unfinished tl 0 n = n := by
  intro n
  induction n with
  | zero => rfl
  | succ n ih => simp [unfinished, ih]

/-- Marking one not-done task of a graph with distinct identity bits lowers the number of
not-done tasks by exactly one. -/
theorem unfinished_or {β : Type} (tl : TaskList β) (hwf : DistinctBits tl) (f i : Nat)
    (hi : i < tl.ntasks) (h0 : (tl.task_list_ i).task_id &&& f = 0) :
    ∀ n, n ≤ tl.ntasks →
      unfinished tl (f ||| (tl.task_list_ i).task_id) n + (if i < n then 1 else 0)
        = unfinished tl f n := by
  intro n
  induction n with
  | zero => intro _; simp [unfinished]
  | succ n ih =>
    intro hn
    have ihn := ih (by omega)
    simp only [unfinished]
    by_cases hni : n = i
    · subst hni
      have h1 : (tl.task_list_ n).task_id &&& (f ||| (tl.task_list_ n).task_id) ≠ 0 := by
        rw [and_or_self]; exact (hwf.1 n hi).ne_zero
      rw [if_neg h1, if_pos h0]
      simp only [Nat.lt_irrefl, if_false] at ihn
      simp only [Nat.lt_succ_self, if_true]
      omega
    · have hdis : (tl.task_list_ n).task_id &&& (tl.task_list_ i).task_id = 0 :=
        (hwf.1 n (by omega)).and_bit (hwf.1 i hi) (hwf.2 n (by omega) i hi hni)
      have hiff : (tl.task_list_ n).task_id &&& (f ||| (tl.task_list_ i).task_id) = 0 ↔
          (tl.task_list_ n).task_id &&& f = 0 := by
        rw [and_or_eq_zero]
        exact ⟨fun h => h.1, fun h => ⟨h, hdis⟩⟩
      have hlt : (i < n + 1) ↔ (i < n) := by omega
      simp only [hiff, hlt]
      omega

/-- Along a valid trace on a graph with distinct identity bits, every success lowers the
number of not-done tasks by one. -/
theorem logValid_count {β : Type} (tl : TaskList β) (hwf : DistinctBits tl) :
    ∀ (l : List Invocation) (f : Nat), LogValid tl f l → (∀ e ∈ l, e.index < tl.ntasks) →
      unfinished tl (replay tl f l) tl.ntasks + successes l = unfinished tl f tl.ntasks := by
  intro l
  induction l with
  | nil => intro f _ _; simp [replay, successes]
  | cons e l ih =>
    intro f h hidx
    obtain ⟨_, h2, _, h4⟩ := h
    have hrest := ih _ h4 (fun e' he' => hidx e' (List.mem_cons_of_mem _ he'))
    have he := hidx e (List.mem_cons_self _ _)
    rw [successes_cons]
    simp only [replay, List.foldl_cons] at hrest ⊢
    by_cases hret : e.ret = TASK_FAIL
    · simp only [stepFinished, hret, ne_eq, not_true_eq_false, if_false] at hrest ⊢
      omega
    · have hstep := unfinished_or tl hwf f e.index he h2 tl.ntasks (le_refl _)
      rw [if_pos he] at hstep
      simp only [stepFinished, hret, ne_eq, not_false_eq_true, if_true] at hrest ⊢
      omega

/-- The mask stays inside the OR of all identities along a trace. -/
theorem replay_sub_allIds {β : Type} (tl : TaskList β) :
    ∀ (l : List Invocation) (f : Nat), f &&& allIds tl = f → (∀ e ∈ l, e.index < tl.ntasks) →
      replay tl f l &&& allIds tl = replay tl f l := by
  intro l
  induction l with
  | nil => intro f h _; simpa [replay] using h
  | cons e l ih =>
    intro f h hidx
    simp only [replay, List.foldl_cons]
    apply ih _ _ (fun e' he' => hidx e' (List.mem_cons_of_mem _ he'))
    unfold stepFinished
    split_ifs
    · have hid : (tl.task_list_ e.index).task_id &&& allIds tl = (tl.task_list_ e.index).task_id :=
        id_and_orIds tl tl.ntasks e.index (hidx e (List.mem_cons_self _ _))
      rw [Nat.and_distrib_right, h, hid]
    · exact h

/-! ## Progress on acyclic graphs -/

/-- In an acyclic graph whose dependency bits are all provided, as long as a task is not
done there is a task that is not done and whose dependency is satisfied. -/
theorem exists_runnable {β : Type} (tl : TaskList β) (hwf : DistinctBits tl)
    (hdeps : DepsProvided tl) (hacyc : Acyclic tl) (f : Nat)
    (hex : ∃ j, j < tl.ntasks ∧ (tl.task_list_ j).task_id &&& f = 0) :
    ∃ t, t < tl.ntasks ∧ (tl.task_list_ t).task_id &&& f = 0 ∧
      (tl.task_list_ t).dependency &&& f = (tl.task_list_ t).dependency := by
  classical
  have hirr : IsIrrefl (Fin tl.ntasks) (Relation.TransGen (Function.swap (DependsOn tl))) :=
    ⟨fun a h => hacyc a (Relation.transGen_swap.mp h)⟩
  have hwfr : WellFounded (Relation.TransGen (Function.swap (DependsOn tl))) :=
    Finite.wellFounded_of_trans_of_irrefl _
  obtain ⟨j, hj, hj0⟩ := hex
  obtain ⟨m, hm, hmin⟩ := hwfr.has_min
    {a : Fin tl.ntasks | (tl.task_list_ a).task_id &&& f = 0} ⟨⟨j, hj⟩, hj0⟩
  refine ⟨m.1, m.2, hm, ?_⟩
  apply Nat.eq_of_testBit_eq
  intro b
  rw [Nat.testBit_and]
  cases hb : (tl.task_list_ m).dependency.testBit b
  · simp
  · simp only [Bool.true_and]
    have hall : (allIds tl).testBit b = true := by
      have := congrArg (fun x => x.testBit b) (hdeps m.1 m.2)
      simp only [Nat.testBit_and, hb, Bool.true_and] at this
      exact this
    obtain ⟨x, hx, hxb⟩ := orIds_testBit tl b tl.ntasks hall
    have hdep : DependsOn tl m ⟨x, hx⟩ := by
      unfold DependsOn
      intro h0
      have := congrArg (fun y => y.testBit b) h0
      simp [Nat.testBit_and, hxb, hb] at this
    have hxdone : (tl.task_list_ x).task_id &&& f ≠ 0 := by
      intro h0
      exact hmin ⟨x, hx⟩ h0 (Relation.TransGen.single hdep)
    rcases (hwf.1 x hx).and_eq f with h | h
    · exact absurd h hxdone
    · have := congrArg (fun y => y.testBit b) h
      simp only [Nat.testBit_and, hxb, Bool.true_and] at this
      exact this

theorem call_quiet {β : Type} (tl : TaskList β) (stage : Int) (ts : TaskState) (pmb : β)
    (h0 : ts.num_tasks_left ≠ 0) (hlog : (DoAllAvailableTasks tl pmb stage ts).log = []) :
    ∀ j, ts.indx_first_task ≤ j → j < tl.ntasks →
      (tl.task_list_ j).task_id &&& ts.finished_tasks = 0 →
      (tl.task_list_ j).dependency &&& ts.finished_tasks ≠ (tl.task_list_ j).dependency := by
  unfold DoAllAvailableTasks at hlog
  rw [if_neg h0] at hlog
  intro j h1 h2
  exact scan_quiet tl stage _ _ _ _ _ hlog j h1 (by omega)

/-- One call keeps the count right on a graph with distinct identity bits. -/
theorem call_counted {β : Type} (tl : TaskList β) (stage : Int) (hwf : DistinctBits tl)
    (ts : TaskState) (pmb : β) (h : Counted tl ts) :
    Counted tl (DoAllAvailableTasks tl pmb stage ts).ts := by
  obtain ⟨a, b, c⟩ := call_trace tl stage ts pmb
  have := logValid_count tl hwf _ _ a (call_index tl stage ts pmb)
  unfold Counted at h ⊢
  rw [c, b, h]
  omega

/-- All the invocations of a call succeed when no action of the graph ever fails. -/
theorem call_all_success {β : Type} (tl : TaskList β) (stage : Int) (hok : NeverFails tl stage)
    (ts : TaskState) (pmb : β) :
    successes (DoAllAvailableTasks tl pmb stage ts).log
      = (DoAllAvailableTasks tl pmb stage ts).log.length := by
  unfold successes
  rw [List.filter_eq_self.mpr]
  intro e he
  obtain ⟨d, _, hd⟩ := (call_ret tl stage (fun _ => True) (fun _ _ _ => trivial) ts pmb
    trivial).2 e he
  have := hok e.index (call_index tl stage ts pmb e he) d
  simp [hd, this]

/-- Progress: on a well-formed acyclic graph whose actions never fail, a call made while
tasks are left completes at least one task. -/
theorem call_progress {β : Type} (tl : TaskList β) (stage : Int) (hwf : DistinctBits tl)
    (hdeps : DepsProvided tl) (hacyc : Acyclic tl) (hok : NeverFails tl stage)
    (ts : TaskState) (pmb : β) (hres : ResumeOK tl ts) (hcnt : Counted tl ts)
    (h0 : ts.num_tasks_left ≠ 0) :
    (DoAllAvailableTasks tl pmb stage ts).ts.num_tasks_left < ts.num_tasks_left := by
  have hne : (DoAllAvailableTasks tl pmb stage ts).log ≠ [] := by
    intro hlog
    have hpos : 0 < unfinished tl ts.finished_tasks tl.ntasks := by
      unfold Counted at hcnt
      omega
    obtain ⟨t, ht, ht0, htd⟩ := exists_runnable tl hwf hdeps hacyc ts.finished_tasks
      (unfinished_pos tl _ _ hpos)
    have hge : ts.indx_first_task ≤ t := by
      by_contra hlt
      have := hres.2 t (by omega)
      rw [ht0] at this
      exact (hwf.1 t ht).ne_zero this.symm
    exact call_quiet tl stage ts pmb h0 hlog t hge ht ht0 htd
  have hlen : 0 < (DoAllAvailableTasks tl pmb stage ts).log.length :=
    List.length_pos.mpr hne
  rw [(call_trace tl stage ts pmb).2.2, call_all_success tl stage hok]
  omega

theorem acyclic_of_rank {β : Type} (tl : TaskList β) (rank : Nat → Nat)
    (h : ∀ a b : Fin tl.ntasks, DependsOn tl a b → rank b.1 < rank a.1) : Acyclic tl := by
  have key : ∀ a b : Fin tl.ntasks, Relation.TransGen (DependsOn tl) a b →
      rank b.1 < rank a.1 := by
    intro a b hab
    induction hab with
    | single hab => exact h _ _ hab
    | tail _ hbc ih => exact lt_trans (h _ _ hbc) ih
  intro a ha
  exact lt_irrefl _ (key a a ha)

theorem logValid_nodup {β : Type} (tl : TaskList β) :
    ∀ (l : List Invocation) (f : Nat), LogValid tl f l →
      (∀ e ∈ l, e.ret ≠ TASK_FAIL ∧ (tl.task_list_ e.index).task_id ≠ 0) →
      (l.map Invocation.index).Nodup := by
  intro l
  induction l with
  | nil => intro f _ _; simp
  | cons e l ih =>
    intro f h hall
    have he := hall e (List.mem_cons_self _ _)
    have hno := logValid_no_reinvoke tl f [] l e (by simpa using h) he.1 he.2
    simp only [List.map_cons, List.nodup_cons, List.mem_map, not_exists, not_and]
    refine ⟨fun e' he' heq => hno e' he' heq, ?_⟩
    exact ih _ h.2.2.2 (fun e' he' => hall e' (List.mem_cons_of_mem _ he'))

/-- A list of `m` pairwise distinct numbers below `m` holds every number below `m` exactly
once. -/
theorem count_eq_one_of_nodup (L : List Nat) (m : Nat) (hnd : L.Nodup)
    (hlt : ∀ x ∈ L, x < m) (hlen : L.length = m) : ∀ i, i < m → L.count i = 1 := by
  intro i hi
  have hsub : L.toFinset ⊆ Finset.range m := by
    intro x hx
    simp only [List.mem_toFinset] at hx
    simpa using hlt x hx
  have hcard : (Finset.range m).card ≤ L.toFinset.card := by
    rw [List.toFinset_card_of_nodup hnd, hlen, Finset.card_range]
  have heq := Finset.eq_of_subset_of_card_le hsub hcard
  have hmem : i ∈ L := by
    have : i ∈ L.toFinset := by rw [heq]; simpa using hi
    simpa using this
  exact List.count_eq_one_of_mem hnd hmem

theorem calls_all_success {β : Type} (tl : TaskList β) (stage : Int) (hok : NeverFails tl stage)
    (k : Nat) (ts : TaskState) (pmb : β) :
    ∀ e ∈ (DoCalls tl stage k ts pmb).log, e.ret ≠ TASK_FAIL := by
  intro e he
  obtain ⟨d, _, hd⟩ := (calls_ret tl stage (fun _ => True) (fun _ _ _ => trivial) k ts pmb
    trivial).2 e he
  rw [hd]
  exact hok e.index (calls_index tl stage k ts pmb e he) d

theorem counted_reset {β : Type} (tl : TaskList β) : Counted tl (TaskState.Reset tl.ntasks) := by
  simp [Counted, TaskState.Reset, unfinished_reset]

/-- On a well-formed acyclic graph whose actions never fail, a unit with `m + 1` tasks left
gets `TL_COMPLETE` from one of its next `m + 1` calls, which leaves no task. -/
theorem calls_complete {β : Type} (tl : TaskList β) (stage : Int) (hwf : DistinctBits tl)
    (hdeps : DepsProvided tl) (hacyc : Acyclic tl) (hok : NeverFails tl stage) :
    ∀ (m : Nat) (ts : TaskState) (pmb : β), ResumeOK tl ts → Counted tl ts →
      ts.num_tasks_left = (m : Int) + 1 →
      ∃ k, 1 ≤ k ∧ k ≤ m + 1 ∧
        (DoCalls tl stage k ts pmb).statuses.getLast? = some TL_COMPLETE ∧
        (DoCalls tl stage k ts pmb).ts.num_tasks_left = 0 := by
  intro m
  induction m using Nat.strong_induction_on with
  | _ m ih =>
    intro ts pmb hres hcnt hleft
    have h0 : ts.num_tasks_left ≠ 0 := by omega
    have hlt := call_progress tl stage hwf hdeps hacyc hok ts pmb hres hcnt h0
    have hres' := call_resume tl stage hwf.1 ts pmb hres
    have hcnt' := call_counted tl stage hwf ts pmb hcnt
    by_cases hz : (DoAllAvailableTasks tl pmb stage ts).ts.num_tasks_left = 0
    · refine ⟨1, le_refl _, by omega, ?_, ?_⟩
      · have := ((call_status tl stage ts pmb).1).mpr ⟨h0, hz⟩
        simp [DoCalls, this]
      · simpa [DoCalls] using hz
    · have hnn : 0 ≤ (DoAllAvailableTasks tl pmb stage ts).ts.num_tasks_left := by
        unfold Counted at hcnt'
        omega
      obtain ⟨m', hm'⟩ : ∃ m' : Nat,
          (DoAllAvailableTasks tl pmb stage ts).ts.num_tasks_left = (m' : Int) + 1 :=
        ⟨((DoAllAvailableTasks tl pmb stage ts).ts.num_tasks_left - 1).toNat, by omega⟩
      obtain ⟨k, hk1, hk2, hk3, hk4⟩ := ih m' (by omega) _
        (DoAllAvailableTasks tl pmb stage ts).pmb hres' hcnt' hm'
      refine ⟨k + 1, by omega, by omega, ?_, ?_⟩
      · simp only [DoCalls, List.getLast?_cons, hk3, Option.getD_some]
      · simpa only [DoCalls] using hk4

/-! ## The linear chain -/

theorem two_pow_sub_one_or (a : Nat) : (2 ^ a - 1) ||| 2 ^ a = 2 ^ (a + 1) - 1 := by
  apply Nat.eq_of_testBit_eq
  intro i
  simp only [Nat.testBit_or, Nat.testBit_two_pow_sub_one, Nat.testBit_two_pow]
  by_cases h1 : i < a
  · have : i < a + 1 := by omega
    simp [h1, this]
  · by_cases h2 : a = i
    · subst h2; simp
    · have : ¬ i < a + 1 := by omega
      simp [h1, h2, this]

/-- One call on the chain: task `a` is invoked, succeeds, and the call returns. -/
theorem chain_call {β : Type} (tl : TaskList β) (stage : Int) (M : Nat)
    (hc : IsChain tl stage M) (a : Nat) (ha : a < M) (pmb : β) :
    DoAllAvailableTasks tl pmb stage (chainState M a) =
      Outcome.mk (if a + 1 = M then TL_COMPLETE else TL_RUNNING) (chainState M (a + 1))
        ((tl.task_list_ a).TaskFunc pmb stage).2 [Invocation.mk a (2 ^ a - 1) TASK_SUCCESS] := by
  obtain ⟨hn, hk⟩ := hc
  obtain ⟨hid, hdep, hact⟩ := hk a ha
  obtain ⟨n, hnM⟩ : ∃ n, M - a = n + 1 := ⟨M - a - 1, by omega⟩
  have h0 : (chainState M a).num_tasks_left ≠ 0 := by
    simp only [chainState]; omega
  have h1 : (tl.task_list_ a).task_id &&& (2 ^ a - 1) = 0 := by
    rw [hid, Nat.and_pow_two_sub_one_eq_mod, Nat.mod_self]
  have h2 : (tl.task_list_ a).dependency &&& (2 ^ a - 1) = (tl.task_list_ a).dependency := by
    rw [hdep]
    by_cases ha0 : a = 0
    · simp [ha0]
    · rw [if_neg ha0, Nat.and_pow_two_sub_one_eq_mod]
      exact Nat.mod_eq_of_lt (Nat.pow_lt_pow_right (by omega) (by omega))
  unfold DoAllAvailableTasks
  rw [if_neg h0]
  simp only [chainState, hn, hnM, scan, h1, h2, hact, if_true, ne_eq, reduceCtorEq,
    not_false_eq_true, hid, two_pow_sub_one_or]
  by_cases hlast : a + 1 = M
  · have : (M : Int) - (a : Int) - 1 = 0 := by omega
    simp [this, hlast]
  · have : (M : Int) - (a : Int) - 1 ≠ 0 := by omega
    simp [this, hlast]
    omega

/-- Calls on the chain, from the state in which the first `a` tasks are done: after `j`
more calls the first `a + j` tasks are done, every call but the one that finishes the
chain has returned `TL_RUNNING`, and the one that finishes it `TL_COMPLETE`. -/
theorem chain_calls {β : Type} (tl : TaskList β) (stage : Int) (M : Nat)
    (hc : IsChain tl stage M) :
    ∀ (j a : Nat) (pmb : β), a + j ≤ M →
      (DoCalls tl stage j (chainState M a) pmb).ts = chainState M (a + j) ∧
      (DoCalls tl stage j (chainState M a) pmb).statuses =
        List.map (fun i => if a + i + 1 = M then TL_COMPLETE else TL_RUNNING) (List.range j) := by
  intro j
  induction j with
  | zero => intro a pmb _; simp [DoCalls]
  | succ j ih =>
    intro a pmb h
    have hcall := chain_call tl stage M hc a (by omega) pmb
    obtain ⟨h1, h2⟩ := ih (a + 1) ((tl.task_list_ a).TaskFunc pmb stage).2 (by omega)
    simp only [DoCalls, hcall]
    refine ⟨by rw [h1]; congr 1; omega, ?_⟩
    rw [h2, List.range_succ_eq_map, List.map_cons, List.map_map]
    simp only [Nat.add_zero, List.cons.injEq, true_and]
    apply List.map_congr_left
    intro i _
    simp only [Function.comp, Nat.succ_eq_add_one]
    have : a + 1 + i + 1 = M ↔ a + (i + 1) + 1 = M := by omega
    simp only [this]

theorem reset_eq_chainState (M : Nat) : TaskState.Reset M = chainState M 0 := by
  simp [TaskState.Reset, chainState]

theorem isChain_chain3 : IsChain chain3 0 3 := by
  refine ⟨rfl, ?_⟩
  intro k _
  exact ⟨rfl, rfl, fun _ => rfl⟩

/-! ## The stage driver -/

/-- The sweep treats every block on its own: the blocks and the statuses it leaves. -/
theorem sweep_blocks {β : Type} (tl : TaskList β) (stage : Int) :
    ∀ (bs : List (MeshBlock β)) (left : Int),
      (sweep tl stage bs left).1 = bs.map (callBlock tl stage) ∧
      (sweep tl stage bs left).2.2 = bs.map (callStatus tl stage) := by
  intro bs
  induction bs with
  | nil => intro left; simp [sweep]
  | cons b bs ih =>
    intro left
    simp only [sweep, List.map_cons, callBlock, callStatus]
    exact ⟨by rw [(ih _).1], by rw [(ih _).2]⟩

theorem pending_cons {β : Type} (b : MeshBlock β) (bs : List (MeshBlock β)) :
    pending (b :: bs) = (if b.tasks.num_tasks_left ≠ 0 then 1 else 0) + pending bs := by
  unfold pending
  by_cases h : b.tasks.num_tasks_left = 0
  · simp [List.filter_cons, h]
  · simp [List.filter_cons, h]; omega

/-- The counter `nmb_left` and the number of blocks with tasks left go down together. -/
theorem sweep_pending {β : Type} (tl : TaskList β) (stage : Int) :
    ∀ (bs : List (MeshBlock β)) (left : Int),
      (pending (sweep tl stage bs left).1 : Int) - (sweep tl stage bs left).2.1
        = (pending bs : Int) - left := by
  intro bs
  induction bs with
  | nil => intro left; simp [sweep]
  | cons b bs ih =>
    intro left
    simp only [sweep, pending_cons]
    rw [Int.ofNat_add, Int.ofNat_add]
    have hst := call_status tl stage b.tasks b.data
    by_cases hc : (DoAllAvailableTasks tl b.data stage b.tasks).status = TL_COMPLETE
    · obtain ⟨h1, h2⟩ := hst.1.mp hc
      have := ih (left - 1)
      simp only [hc, if_true, h1, h2, ne_eq, not_true_eq_false, not_false_eq_true, if_false]
      push_cast
      omega
    · have := ih left
      simp only [hc, if_false]
      by_cases h0 : b.tasks.num_tasks_left = 0
      · rw [call_done tl stage b.tasks b.data h0]
        simp only [h0, ne_eq, not_true_eq_false, if_false]
        omega
      · have h1 : (DoAllAvailableTasks tl b.data stage b.tasks).ts.num_tasks_left ≠ 0 :=
          fun h => hc (hst.1.mpr ⟨h0, h⟩)
        simp only [h0, h1, ne_eq, not_false_eq_true, if_true]
        omega

theorem whileRounds_stop {β : Type} (tl : TaskList β) (stage : Int) (n : Nat)
    (s : StageState β) (h : ¬ s.nmb_left > 0) : whileRounds tl stage n s = s := by
  cases n with
  | zero => rfl
  | succ n => simp [whileRounds, h]

theorem whileRounds_add {β : Type} (tl : TaskList β) (stage : Int) :
    ∀ (a b : Nat) (s : StageState β),
      whileRounds tl stage (a + b) s = whileRounds tl stage b (whileRounds tl stage a s) := by
  intro a
  induction a with
  | zero => intro b s; simp [whileRounds]
  | succ a ih =>
    intro b s
    rw [Nat.add_right_comm]
    simp only [whileRounds]
    split_ifs with h
    · exact ih b _
    · exact (whileRounds_stop tl stage b s h).symm

/-- A property of the loop state that every sweep keeps holds after any number of
rounds. -/
theorem whileRounds_inv {β : Type} (tl : TaskList β) (stage : Int) (I : StageState β → Prop)
    (hstep : ∀ s, I s → s.nmb_left > 0 → I (sweepStep tl stage s)) :
    ∀ (n : Nat) (s : StageState β), I s → I (whileRounds tl stage n s) := by
  intro n
  induction n with
  | zero => intro s h; exact h
  | succ n ih =>
    intro s h
    simp only [whileRounds]
    split_ifs with hg
    · exact ih _ (hstep s h hg)
    · exact h

theorem good_callBlock {β : Type} (tl : TaskList β) (stage : Int) (hwf : DistinctBits tl)
    (b : MeshBlock β) (h : Good tl b) : Good tl (callBlock tl stage b) := by
  refine ⟨call_counted tl stage hwf b.tasks b.data h.1, ?_⟩
  simp only [callBlock]
  rw [(call_trace tl stage b.tasks b.data).2.1]
  exact replay_sub_allIds tl _ _ h.2 (call_index tl stage b.tasks b.data)

theorem orIds_sub {β : Type} (tl : TaskList β) (f : Nat) :
    ∀ n, (∀ j, j < n → (tl.task_list_ j).task_id &&& f = (tl.task_list_ j).task_id) →
      orIds tl n &&& f = orIds tl n := by
  intro n
  induction n with
  | zero => intro _; simp [orIds]
  | succ n ih =>
    intro h
    simp only [orIds]
    rw [Nat.and_distrib_right, ih (fun j hj => h j (by omega)), h n (by omega)]

/-- A consistent progress state with no task left has exactly the identities of the graph
in `finished_tasks`. -/
theorem good_done {β : Type} (tl : TaskList β) (hwf : DistinctBits tl) (b : MeshBlock β)
    (h : Good tl b) (h0 : b.tasks.num_tasks_left = 0) :
    b.tasks.finished_tasks = allIds tl := by
  have hz : unfinished tl b.tasks.finished_tasks tl.ntasks = 0 := by
    have := h.1
    unfold Counted at this
    omega
  have hall := orIds_sub tl b.tasks.finished_tasks tl.ntasks (by
    intro j hj
    rcases (hwf.1 j hj).and_eq b.tasks.finished_tasks with h1 | h1
    · exact absurd h1 (unfinished_zero tl _ _ hz j hj)
    · exact h1)
  have h2 := h.2
  rw [Nat.and_comm] at h2
  unfold allIds at h2 ⊢
  rw [← h2, hall]

theorem pending_zero {β : Type} (bs : List (MeshBlock β)) (h : pending bs = 0) :
    ∀ b ∈ bs, b.tasks.num_tasks_left = 0 := by
  intro b hb
  unfold pending at h
  have := List.length_eq_zero.mp h
  rw [List.filter_eq_nil_iff] at this
  simpa using this b hb

theorem pending_allAt {β : Type} (M a : Nat) :
    ∀ (bs : List (MeshBlock β)), AllAt M a bs →
      pending bs = if a = M then 0 else bs.length := by
  intro bs
  induction bs with
  | nil => intro _; simp [pending]
  | cons b bs ih =>
    intro h
    have hb : b.tasks = chainState M a := h b (List.mem_cons_self _ _)
    have := ih (fun b' hb' => h b' (List.mem_cons_of_mem _ hb'))
    rw [pending_cons, this, hb]
    by_cases haM : a = M
    · simp [chainState, haM]
    · have : (M : Int) - (a : Int) ≠ 0 := by omega
      simp [chainState, haM, this]
      omega

theorem sweepStep_allAt {β : Type} (tl : TaskList β) (stage : Int) (M : Nat)
    (hc : IsChain tl stage M) (a : Nat) (ha : a < M) (s : StageState β)
    (hall : AllAt M a s.blocks) (hleft : s.nmb_left = (pending s.blocks : Int)) :
    AllAt M (a + 1) (sweepStep tl stage s).blocks ∧
    (sweepStep tl stage s).nmb_left = (pending (sweepStep tl stage s).blocks : Int) ∧
    (sweepStep tl stage s).history.length = s.history.length + 1 ∧
    (sweepStep tl stage s).blocks.length = s.blocks.length := by
  have hb := (sweep_blocks tl stage s.blocks s.nmb_left).1
  have hp := sweep_pending tl stage s.blocks s.nmb_left
  simp only [sweepStep]
  refine ⟨?_, by omega, by simp, by rw [hb, List.length_map]⟩
  intro b hbmem
  rw [hb] at hbmem
  obtain ⟨b0, hb0, rfl⟩ := List.mem_map.mp hbmem
  simp only [callBlock, hall b0 hb0, chain_call tl stage M hc a ha]

/-- Rounds of the driver on blocks of the chain that are all at the same point. -/
theorem chain_rounds {β : Type} (tl : TaskList β) (stage : Int) (M : Nat)
    (hc : IsChain tl stage M) :
    ∀ (n a : Nat) (s : StageState β), a + n ≤ M → AllAt M a s.blocks →
      s.nmb_left = (pending s.blocks : Int) → s.blocks ≠ [] →
      AllAt M (a + n) (whileRounds tl stage n s).blocks ∧
      (whileRounds tl stage n s).nmb_left = (pending (whileRounds tl stage n s).blocks : Int) ∧
      (whileRounds tl stage n s).history.length = s.history.length + n ∧
      (whileRounds tl stage n s).blocks.length = s.blocks.length := by
  intro n
  induction n with
  | zero => intro a s _ h1 h2 _; exact ⟨h1, h2, rfl, rfl⟩
  | succ n ih =>
    intro a s han h1 h2 h3
    have hpos : 0 < s.blocks.length := List.length_pos.mpr h3
    have hg : s.nmb_left > 0 := by
      rw [h2, pending_allAt M a s.blocks h1, if_neg (by omega)]
      exact_mod_cast hpos
    obtain ⟨q1, q2, q3, q4⟩ := sweepStep_allAt tl stage M hc a (by omega) s h1 h2
    have hne : (sweepStep tl stage s).blocks ≠ [] := by
      intro h
      rw [h] at q4
      simp at q4
      omega
    obtain ⟨r1, r2, r3, r4⟩ := ih (a + 1) (sweepStep tl stage s) (by omega) q1 q2 hne
    simp only [whileRounds, hg, if_true]
    refine ⟨?_, r2, by omega, by omega⟩
    have : a + (n + 1) = a + 1 + n := by omega
    rw [this]
    exact r1

theorem stageInit_allAt {β : Type} (tl : TaskList β) (startup : β → Int → β) (stage : Int)
    (M : Nat) (hn : tl.ntasks = M) (pmb_array : List (MeshBlock β)) :
    AllAt M 0 (stageInit tl startup stage pmb_array).blocks := by
  intro b hb
  simp only [stageInit, List.mem_map] at hb
  obtain ⟨b0, _, rfl⟩ := hb
  simp only [hn, reset_eq_chainState]

/-! ## Units of the driver, one by one -/

theorem callsBlock_succ {β : Type} (tl : TaskList β) (stage : Int) (k : Nat)
    (b : MeshBlock β) :
    callsBlock tl stage (k + 1) b = callsBlock tl stage k (callBlock tl stage b) := by
  simp [callsBlock, callBlock, DoCalls]

theorem callsBlock_zero {β : Type} (tl : TaskList β) (stage : Int) (b : MeshBlock β) :
    callsBlock tl stage 0 b = b := by
  simp [callsBlock, DoCalls]

/-- After any number of rounds every block is what as many calls as sweeps were made,
applied to that block alone, make of it. -/
theorem rounds_blocks {β : Type} (tl : TaskList β) (stage : Int) :
    ∀ (n : Nat) (s : StageState β),
      s.history.length ≤ (whileRounds tl stage n s).history.length ∧
      (whileRounds tl stage n s).blocks = s.blocks.map
        (callsBlock tl stage ((whileRounds tl stage n s).history.length - s.history.length)) := by
  intro n
  induction n with
  | zero =>
    intro s
    simp only [whileRounds, Nat.sub_self, le_refl, true_and]
    rw [List.map_congr_left (fun b _ => callsBlock_zero tl stage b)]
    simp
  | succ n ih =>
    intro s
    simp only [whileRounds]
    split_ifs with hg
    · obtain ⟨h1, h2⟩ := ih (sweepStep tl stage s)
      have hlen : (sweepStep tl stage s).history.length = s.history.length + 1 := by
        simp [sweepStep]
      have hb : (sweepStep tl stage s).blocks = s.blocks.map (callBlock tl stage) :=
        (sweep_blocks tl stage s.blocks s.nmb_left).1
      refine ⟨by omega, ?_⟩
      rw [h2, hb, List.map_map]
      apply List.map_congr_left
      intro b _
      have : (whileRounds tl stage n (sweepStep tl stage s)).history.length - s.history.length
          = ((whileRounds tl stage n (sweepStep tl stage s)).history.length
              - (sweepStep tl stage s).history.length) + 1 := by omega
      rw [this, callsBlock_succ]
      rfl
    · simp only [Nat.sub_self, le_refl, true_and]
      rw [List.map_congr_left (fun b _ => callsBlock_zero tl stage b)]
      simp

theorem replay_avoid {β : Type} (tl : TaskList β) (g : Nat) :
    ∀ (l : List Invocation) (f : Nat),
      (∀ e ∈ l, e.ret ≠ TASK_FAIL → g &&& (tl.task_list_ e.index).task_id = 0) →
      g &&& f = 0 → g &&& replay tl f l = 0 := by
  intro l
  induction l with
  | nil => intro f _ h; simpa [replay] using h
  | cons e l ih =>
    intro f hall h
    simp only [replay, List.foldl_cons]
    apply ih _ (fun e' he' => hall e' (List.mem_cons_of_mem _ he'))
    unfold stepFinished
    split_ifs with hr
    · exact and_or_eq_zero.mpr ⟨h, hall e (List.mem_cons_self _ _) hr⟩
    · exact h

theorem pending_pos {β : Type} (bs : List (MeshBlock β)) (b : MeshBlock β) (hb : b ∈ bs)
    (h : b.tasks.num_tasks_left ≠ 0) : 0 < pending bs := by
  unfold pending
  apply List.length_pos.mpr
  intro hnil
  rw [List.filter_eq_nil_iff] at hnil
  exact hnil b hb (by simpa using h)

theorem stuckAt_left {β : Type} (tl : TaskList β) (Q : β → Prop) (j : Nat)
    (hj : j < tl.ntasks) (b : MeshBlock β) (h : StuckAt tl Q j b) :
    0 < b.tasks.num_tasks_left := by
  obtain ⟨_, hc, h0⟩ := h
  unfold Counted at hc
  have : 0 < unfinished tl b.tasks.finished_tasks tl.ntasks := by
    by_contra hz
    exact unfinished_zero tl _ _ (by omega) j hj h0
  omega

/-- One call keeps a stuck unit stuck and does not return `TL_COMPLETE`. -/
theorem stuckAt_call {β : Type} (tl : TaskList β) (stage : Int) (hwf : DistinctBits tl)
    (Q : β → Prop) (j : Nat) (hj : j < tl.ntasks)
    (hQ : ∀ i d, Q d → Q ((tl.task_list_ i).TaskFunc d stage).2)
    (hfail : ∀ d, Q d → ((tl.task_list_ j).TaskFunc d stage).1 = TASK_FAIL)
    (b : MeshBlock β) (h : StuckAt tl Q j b) :
    StuckAt tl Q j (callBlock tl stage b) ∧ callStatus tl stage b ≠ TL_COMPLETE := by
  obtain ⟨hq, hc, h0⟩ := h
  obtain ⟨hq', hret⟩ := call_ret tl stage Q hQ b.tasks b.data hq
  have hidx := call_index tl stage b.tasks b.data
  have hst : StuckAt tl Q j (callBlock tl stage b) := by
    refine ⟨hq', call_counted tl stage hwf b.tasks b.data hc, ?_⟩
    simp only [callBlock]
    rw [(call_trace tl stage b.tasks b.data).2.1]
    apply replay_avoid tl _ _ _ _ h0
    intro e he hr
    have hne : j ≠ e.index := by
      intro heq
      obtain ⟨d, hd, hde⟩ := hret e he
      rw [← heq] at hde
      exact hr (by rw [hde]; exact hfail d hd)
    exact (hwf.1 j hj).and_bit (hwf.1 e.index (hidx e he)) (hwf.2 j hj e.index (hidx e he) hne)
  refine ⟨hst, ?_⟩
  intro hcomp
  have := ((call_status tl stage b.tasks b.data).1.mp hcomp).2
  have hpos := stuckAt_left tl Q j hj _ hst
  simp only [callBlock] at hpos
  omega

theorem stuckRun_guard {β : Type} (tl : TaskList β) (Q : β → Prop) (j u : Nat)
    (hj : j < tl.ntasks) (s : StageState β) (h : StuckRun tl Q j u s) : s.nmb_left > 0 := by
  obtain ⟨⟨b, hb, hst⟩, _, hp⟩ := h
  have hpos := stuckAt_left tl Q j hj b hst
  have := pending_pos s.blocks b (List.getElem?_mem hb) (by omega)
  omega

theorem stuckRun_step {β : Type} (tl : TaskList β) (stage : Int) (hwf : DistinctBits tl)
    (Q : β → Prop) (j u : Nat) (hj : j < tl.ntasks)
    (hQ : ∀ i d, Q d → Q ((tl.task_list_ i).TaskFunc d stage).2)
    (hfail : ∀ d, Q d → ((tl.task_list_ j).TaskFunc d stage).1 = TASK_FAIL)
    (s : StageState β) (h : StuckRun tl Q j u s) : StuckRun tl Q j u (sweepStep tl stage s) := by
  obtain ⟨⟨b, hb, hst⟩, hh, hp⟩ := h
  obtain ⟨hb1, hb2⟩ := sweep_blocks tl stage s.blocks s.nmb_left
  have hpend := sweep_pending tl stage s.blocks s.nmb_left
  obtain ⟨hst', hne⟩ := stuckAt_call tl stage hwf Q j hj hQ hfail b hst
  simp only [sweepStep]
  refine ⟨⟨callBlock tl stage b, ?_, hst'⟩, ?_, by simp only; omega⟩
  · rw [hb1, List.getElem?_map, hb]; rfl
  · intro round hr
    rcases List.mem_append.mp hr with hr | hr
    · exact hh round hr
    · rw [List.mem_singleton] at hr
      subst hr
      exact ⟨callStatus tl stage b, by rw [hb2, List.getElem?_map, hb]; rfl, hne⟩

theorem stuckRun_rounds {β : Type} (tl : TaskList β) (stage : Int) (hwf : DistinctBits tl)
    (Q : β → Prop) (j u : Nat) (hj : j < tl.ntasks)
    (hQ : ∀ i d, Q d → Q ((tl.task_list_ i).TaskFunc d stage).2)
    (hfail : ∀ d, Q d → ((tl.task_list_ j).TaskFunc d stage).1 = TASK_FAIL) :
    ∀ (n : Nat) (s : StageState β), StuckRun tl Q j u s →
      StuckRun tl Q j u (whileRounds tl stage n s) ∧
      (whileRounds tl stage n s).history.length = s.history.length + n := by
  intro n
  induction n with
  | zero => intro s h; exact ⟨h, rfl⟩
  | succ n ih =>
    intro s h
    have hg := stuckRun_guard tl Q j u hj s h
    obtain ⟨h1, h2⟩ := ih _ (stuckRun_step tl stage hwf Q j u hj hQ hfail s h)
    simp only [whileRounds, hg, if_true]
    refine ⟨h1, ?_⟩
    rw [h2]
    simp [sweepStep]
    omega

/-! ## Error messages of the radiation task list -/

/-- A string without NUL character is its own C string. -/
theorem c_str_of_no_nul (s : String) (h : ∀ c ∈ s.data, c ≠ Char.ofNat 0) : c_str s = s := by
  unfold c_str
  have : s.data.takeWhile (fun c => c != Char.ofNat 0) = s.data := by
    rw [List.takeWhile_eq_self_iff]
    intro c hc
    simpa using h c hc
  rw [this]

/-- The C string of `a ++ b` when `a` has no NUL character. -/
theorem c_str_append_of_no_nul (a b : String) (h : ∀ c ∈ a.data, c ≠ Char.ofNat 0) :
    c_str (a ++ b) = a ++ c_str b := by
  unfold c_str
  apply String.ext
  simp only [String.data_append]
  rw [List.takeWhile_append_of_pos]
  intro c hc
  simpa using h c hc

theorem takeWhile_append_of_mem (p : Char → Bool) :
    ∀ (l m : List Char), (∃ c ∈ l, p c = false) →
      (l ++ m).takeWhile p = l.takeWhile p := by
  intro l
  induction l with
  | nil => intro m h; simp at h
  | cons x xs ih =>
    intro m h
    by_cases hx : p x = true
    · have : ∃ c ∈ xs, p c = false := by
        obtain ⟨c, hc, hp⟩ := h
        rcases List.mem_cons.mp hc with rfl | hc
        · rw [hx] at hp; cases hp
        · exact ⟨c, hc, hp⟩
      simp [List.takeWhile, hx, ih m this]
    · simp [List.takeWhile, hx]

/-- The C string of `a ++ b` when `a` has a NUL character. -/
theorem c_str_append_of_nul (a b : String) (h : Char.ofNat 0 ∈ a.data) :
    c_str (a ++ b) = c_str a := by
  unfold c_str
  apply String.ext
  simp only [String.data_append]
  exact takeWhile_append_of_mem _ _ _ ⟨_, h, by simp⟩

/-- A C string has no NUL character. -/
theorem c_str_no_nul (s : String) : ∀ c ∈ (c_str s).data, c ≠ Char.ofNat 0 := by
  intro c hc
  have := List.mem_takeWhile_imp hc
  simpa using this

theorem ite_ne_nul (c : Prop) [Decidable c] (a b : Char) (ha : a ≠ Char.ofNat 0)
    (hb : b ≠ Char.ofNat 0) : (if c then a else b) ≠ Char.ofNat 0 := by
  split <;> assumption

theorem digitChar_ne_nul (n : Nat) : Nat.digitChar n ≠ Char.ofNat 0 := by
  unfold Nat.digitChar
  repeat (refine ite_ne_nul _ _ _ (by decide) ?_)
  decide

theorem toDigitsCore_no_nul (b : Nat) :
    ∀ (f n : Nat) (ds : List Char), (∀ c ∈ ds, c ≠ Char.ofNat 0) →
      ∀ c ∈ Nat.toDigitsCore b f n ds, c ≠ Char.ofNat 0 := by
  intro f
  induction f with
  | zero => intro n ds h; simpa [Nat.toDigitsCore] using h
  | succ f ih =>
    intro n ds h
    simp only [Nat.toDigitsCore]
    have h2 : ∀ c ∈ Nat.digitChar (n % b) :: ds, c ≠ Char.ofNat 0 := by
      intro c hc
      rcases List.mem_cons.mp hc with rfl | hc
      · exact digitChar_ne_nul _
      · exact h c hc
    split
    · exact h2
    · exact ih _ _ h2

/-- The decimal text of a number has no NUL character. -/
theorem toString_nat_no_nul (n : Nat) : ∀ c ∈ (toString n).data, c ≠ Char.ofNat 0 := by
  show ∀ c ∈ (Nat.repr n).data, c ≠ Char.ofNat 0
  unfold Nat.repr Nat.toDigits
  simp only [List.asString]
  exact toDigitsCore_no_nul 10 _ _ [] (by simp)

/-- The message of the `default` case has no NUL character: it is thrown whole. -/
theorem c_str_invalidTaskMessage (id : Nat) :
    c_str (invalidTaskMessage id) = invalidTaskMessage id := by
  apply c_str_of_no_nul
  intro c hc
  simp only [invalidTaskMessage, String.data_append, List.mem_append] at hc
  rcases hc with ((hc | hc) | hc) | hc
  · revert c; decide
  · revert c; decide
  · exact toString_nat_no_nul id c hc
  · revert c; decide

/-- What the constructor throws for an integrator without NUL character: the whole text. -/
theorem c_str_invalidIntegratorMessage (integrator : String)
    (h : ∀ c ∈ integrator.data, c ≠ Char.ofNat 0) :
    c_str (invalidIntegratorMessage integrator) = invalidIntegratorMessage integrator := by
  apply c_str_of_no_nul
  intro c hc
  simp only [invalidIntegratorMessage, String.data_append, List.mem_append] at hc
  rcases hc with (((hc | hc) | hc) | hc) | hc
  · revert c; decide
  · revert c; decide
  · exact h c hc
  · revert c; decide
  · revert c; decide

/-- What the constructor throws for an integrator with a NUL character: the text up to
that character. -/
theorem c_str_invalidIntegratorMessage_nul (integrator : String)
    (h : Char.ofNat 0 ∈ integrator.data) :
    c_str (invalidIntegratorMessage integrator)
      = "### FATAL ERROR in Radiation task list\n" ++ "integrator=" ++ c_str integrator := by
  have h1 : ∀ c ∈ ("### FATAL ERROR in Radiation task list\n" ++ "integrator=").data,
      c ≠ Char.ofNat 0 := by decide
  simp only [invalidIntegratorMessage, String.append_assoc]
  rw [← String.append_assoc, c_str_append_of_no_nul _ _ h1, c_str_append_of_nul _ _ h,
    String.append_assoc]

/-- A string that contains `sub` has every character of `sub`. -/
theorem contains_mem (s sub : String) (h : Contains s sub) : ∀ c ∈ sub.data, c ∈ s.data := by
  obtain ⟨pre, post, rfl⟩ := h
  intro c hc
  simp [hc]

/-- The thrown text contains the integrator value up to its first NUL character. -/
theorem c_str_invalidIntegratorMessage_value (integrator : String) :
    Contains (c_str (invalidIntegratorMessage integrator)) (c_str integrator) := by
  by_cases h : Char.ofNat 0 ∈ integrator.data
  · rw [c_str_invalidIntegratorMessage_nul integrator h]
    exact ⟨"### FATAL ERROR in Radiation task list\n" ++ "integrator=", "", by simp⟩
  · have hn : ∀ c ∈ integrator.data, c ≠ Char.ofNat 0 := fun c hc e => h (e ▸ hc)
    rw [c_str_invalidIntegratorMessage integrator hn, c_str_of_no_nul integrator hn]
    refine ⟨"### FATAL ERROR in Radiation task list\n" ++ "integrator=",
      " not valid radiation integrator, \n" ++
        "choose from \x7bjeans, six_ray, const\x7d\n", ?_⟩
    simp only [invalidIntegratorMessage, String.append_assoc]

theorem invalidIntegratorMessage_value (integrator : String) :
    Contains (invalidIntegratorMessage integrator) integrator := by
  refine ⟨"### FATAL ERROR in Radiation task list\n" ++ "integrator=",
    " not valid radiation integrator, \n" ++ "choose from \x7bjeans, six_ray, const\x7d\n", ?_⟩
  simp [invalidIntegratorMessage, String.append_assoc]

theorem invalidIntegratorMessage_choices (integrator : String) :
    Contains (invalidIntegratorMessage integrator) "\x7bjeans, six_ray, const\x7d" := by
  refine ⟨"### FATAL ERROR in Radiation task list\n" ++ "integrator=" ++ integrator
    ++ " not valid radiation integrator, \n" ++ "choose from ", "\n", ?_⟩
  have h : "choose from \x7bjeans, six_ray, const\x7d\n"
      = "choose from " ++ ("\x7bjeans, six_ray, const\x7d" ++ "\n") := by decide
  simp only [invalidIntegratorMessage, h, String.append_assoc]

theorem invalidTaskMessage_id (id : Nat) :
    Contains (invalidTaskMessage id) ("Invalid Task " ++ toString id) := by
  refine ⟨"### FATAL ERROR in Add Radiation Task\n", " is specified\n", ?_⟩
  simp only [invalidTaskMessage, String.append_assoc]

/-! ## Failing and succeeding invocations -/

/-- A scan in which no invocation succeeds falls out of the loop: it returns `TL_STUCK` and
leaves `finished_tasks` and `num_tasks_left` as they were. -/
theorem scan_all_fail {β : Type} (tl : TaskList β) (stage : Int) :
    ∀ (n i skip : Nat) (ts : TaskState) (pmb : β),
      (∀ e ∈ (scan tl stage n i skip ts pmb).log, e.ret = TASK_FAIL) →
      (scan tl stage n i skip ts pmb).status = TL_STUCK ∧
      (scan tl stage n i skip ts pmb).ts.finished_tasks = ts.finished_tasks ∧
      (scan tl stage n i skip ts pmb).ts.num_tasks_left = ts.num_tasks_left := by
  apply scan_ind tl stage (P := fun _ _ _ ts _ r => (∀ e ∈ r.log, e.ret = TASK_FAIL) →
      r.status = TL_STUCK ∧ r.ts.finished_tasks = ts.finished_tasks ∧
      r.ts.num_tasks_left = ts.num_tasks_left)
  · intro i skip ts pmb _
    exact ⟨rfl, rfl, rfl⟩
  · intro n i skip ts pmb r _ ih h
    have := ih h
    unfold passDone at this
    split_ifs at this <;> exact this
  · intro n i skip ts pmb r _ _ ih h
    exact ih h
  · intro n i skip ts pmb r _ _ _ ih h
    exact ih (fun e he => h e (List.mem_cons_of_mem _ he))
  · intro n i skip ts pmb _ _ h3 _ h
    exact absurd (h _ (List.mem_singleton.mpr rfl)) h3
  · intro n i skip ts pmb r _ _ h3 _ _ h
    have := h _ (List.mem_cons_self _ _)
    simp [invoked, h3] at this
  · intro n i skip ts pmb _ _ h3 _ h
    have := h _ (List.mem_singleton.mpr rfl)
    simp [invoked, h3] at this

/-- A call made with tasks left in which no invocation succeeds returns `TL_STUCK` and
leaves `finished_tasks` and `num_tasks_left` as they were. -/
theorem call_all_fail {β : Type} (tl : TaskList β) (stage : Int) (ts : TaskState) (pmb : β)
    (h0 : ts.num_tasks_left ≠ 0)
    (h : ∀ e ∈ (DoAllAvailableTasks tl pmb stage ts).log, e.ret = TASK_FAIL) :
    (DoAllAvailableTasks tl pmb stage ts).status = TL_STUCK ∧
    (DoAllAvailableTasks tl pmb stage ts).ts.finished_tasks = ts.finished_tasks ∧
    (DoAllAvailableTasks tl pmb stage ts).ts.num_tasks_left = ts.num_tasks_left := by
  unfold DoAllAvailableTasks at h ⊢
  rw [if_neg h0] at h ⊢
  exact scan_all_fail tl stage _ _ _ _ _ h

/-- A scan that returns `TL_STUCK` has made no invocation that signalled plain Success. -/
theorem scan_stuck {β : Type} (tl : TaskList β) (stage : Int) :
    ∀ (n i skip : Nat) (ts : TaskState) (pmb : β),
      (scan tl stage n i skip ts pmb).status = TL_STUCK →
      ∀ e ∈ (scan tl stage n i skip ts pmb).log, e.ret ≠ TASK_SUCCESS := by
  apply scan_ind tl stage (P := fun _ _ _ _ _ r => r.status = TL_STUCK →
      ∀ e ∈ r.log, e.ret ≠ TASK_SUCCESS)
  · intro i skip ts pmb _ e he
    simp at he
  · intro n i skip ts pmb r _ ih h
    exact ih h
  · intro n i skip ts pmb r _ _ ih h
    exact ih h
  · intro n i skip ts pmb r _ _ h3 ih h e he
    rcases List.mem_cons.mp he with rfl | he
    · simp [invoked, h3]
    · exact ih h e he
  · intro n i skip ts pmb _ _ _ _ h
    simp at h
  · intro n i skip ts pmb r _ _ h3 _ ih h e he
    rcases List.mem_cons.mp he with rfl | he
    · simp [invoked, h3]
    · exact ih h e he
  · intro n i skip ts pmb _ _ _ _ h
    simp at h

/-- An invocation that signals plain Success is the last one of its scan, and the scan then
returns `TL_RUNNING` when tasks are left and `TL_COMPLETE` when none is. -/
theorem scan_success_last {β : Type} (tl : TaskList β) (stage : Int) :
    ∀ (n i skip : Nat) (ts : TaskState) (pmb : β) (l₁ l₂ : List Invocation) (e : Invocation),
      (scan tl stage n i skip ts pmb).log = l₁ ++ e :: l₂ → e.ret = TASK_SUCCESS →
      l₂ = [] ∧
      ((scan tl stage n i skip ts pmb).ts.num_tasks_left ≠ 0 →
        (scan tl stage n i skip ts pmb).status = TL_RUNNING) ∧
      ((scan tl stage n i skip ts pmb).ts.num_tasks_left = 0 →
        (scan tl stage n i skip ts pmb).status = TL_COMPLETE) := by
  apply scan_ind tl stage (P := fun _ _ _ _ _ r =>
      ∀ (l₁ l₂ : List Invocation) (e : Invocation), r.log = l₁ ++ e :: l₂ →
        e.ret = TASK_SUCCESS →
        l₂ = [] ∧ (r.ts.num_tasks_left ≠ 0 → r.status = TL_RUNNING) ∧
        (r.ts.num_tasks_left = 0 → r.status = TL_COMPLETE))
  · intro i skip ts pmb l₁ l₂ e h _
    simp at h
  · intro n i skip ts pmb r _ ih l₁ l₂ e h he
    exact ih l₁ l₂ e h he
  · intro n i skip ts pmb r _ _ ih l₁ l₂ e h he
    exact ih l₁ l₂ e h he
  · intro n i skip ts pmb r _ _ h3 ih l₁ l₂ e h he
    cases l₁ with
    | nil =>
      simp only [Outcome.record, List.nil_append, List.cons.injEq] at h
      rw [← h.1] at he
      simp [invoked, h3] at he
    | cons a l₁ =>
      simp only [Outcome.record, List.cons_append, List.cons.injEq] at h
      exact ih l₁ l₂ e h.2 he
  · intro n i skip ts pmb _ _ _ h4 l₁ l₂ e h _
    cases l₁ with
    | nil =>
      simp only [List.nil_append, List.cons.injEq] at h
      refine ⟨h.2.symm, ?_, fun _ => rfl⟩
      intro hne
      exact absurd h4 (by simpa [markDone] using hne)
    | cons a l₁ =>
      simp at h
  · intro n i skip ts pmb r _ _ h3 _ ih l₁ l₂ e h he
    cases l₁ with
    | nil =>
      simp only [Outcome.record, List.nil_append, List.cons.injEq] at h
      rw [← h.1] at he
      simp [invoked, h3] at he
    | cons a l₁ =>
      simp only [Outcome.record, List.cons_append, List.cons.injEq] at h
      exact ih l₁ l₂ e h.2 he
  · intro n i skip ts pmb _ _ _ h4 l₁ l₂ e h _
    cases l₁ with
    | nil =>
      simp only [List.nil_append, List.cons.injEq] at h
      refine ⟨h.2.symm, fun _ => rfl, ?_⟩
      intro hz
      exact absurd (by simpa [markDone] using hz) h4
    | cons a l₁ =>
      simp at h

/-- The invocations of a scan are made at increasing indices, from `i` on. -/
theorem scan_increasing {β : Type} (tl : TaskList β) (stage : Int) :
    ∀ (n i skip : Nat) (ts : TaskState) (pmb : β),
      (∀ e ∈ (scan tl stage n i skip ts pmb).log, i ≤ e.index) ∧
      List.Pairwise (fun a b : Invocation => a.index < b.index)
        (scan tl stage n i skip ts pmb).log := by
  apply scan_ind tl stage (P := fun _ i _ _ _ r =>
      (∀ e ∈ r.log, i ≤ e.index) ∧
      List.Pairwise (fun a b : Invocation => a.index < b.index) r.log)
  · intro i skip ts pmb
    exact ⟨by simp, List.Pairwise.nil⟩
  · intro n i skip ts pmb r _ ih
    exact ⟨fun e he => by have := ih.1 e he; omega, ih.2⟩
  · intro n i skip ts pmb r _ _ ih
    exact ⟨fun e he => by have := ih.1 e he; omega, ih.2⟩
  · intro n i skip ts pmb r _ _ _ ih
    refine ⟨?_, List.Pairwise.cons (fun e he => ih.1 e he) ih.2⟩
    intro e he
    rcases List.mem_cons.mp he with rfl | he
    · exact le_refl _
    · have := ih.1 e he; omega
  · intro n i skip ts pmb _ _ _ _
    exact ⟨by simp [invoked], List.pairwise_singleton _ _⟩
  · intro n i skip ts pmb r _ _ _ _ ih
    refine ⟨?_, List.Pairwise.cons (fun e he => ih.1 e he) ih.2⟩
    intro e he
    rcases List.mem_cons.mp he with rfl | he
    · exact le_refl _
    · have := ih.1 e he; omega
  · intro n i skip ts pmb _ _ _ _
    exact ⟨by simp [invoked], List.pairwise_singleton _ _⟩

/-- The first invocation of a scan is the one of the first runnable task of its range. -/
theorem scan_first {β : Type} (tl : TaskList β) (stage : Int) :
    ∀ (n i skip : Nat) (ts : TaskState) (pmb : β) (t : Nat),
      i ≤ t → t < i + n → Runnable tl ts.finished_tasks t →
      (∀ m, i ≤ m → m < t → ¬ Runnable tl ts.finished_tasks m) →
      ∃ rest, (scan tl stage n i skip ts pmb).log
        = Invocation.mk t ts.finished_tasks ((tl.task_list_ t).TaskFunc pmb stage).1 :: rest := by
  apply scan_ind tl stage (P := fun n i _ ts pmb r => ∀ t : Nat,
      i ≤ t → t < i + n → Runnable tl ts.finished_tasks t →
      (∀ m, i ≤ m → m < t → ¬ Runnable tl ts.finished_tasks m) →
      ∃ rest, r.log
        = Invocation.mk t ts.finished_tasks ((tl.task_list_ t).TaskFunc pmb stage).1 :: rest)
  · intro i skip ts pmb t h1 h2
    omega
  · intro n i skip ts pmb r hd ih t h1 h2 hr hmin
    have hfin : (passDone skip ts).finished_tasks = ts.finished_tasks := by
      unfold passDone; split_ifs <;> rfl
    rw [hfin] at ih
    rcases Nat.eq_or_lt_of_le h1 with rfl | hlt
    · exact absurd hr.1 hd
    · exact ih t hlt (by omega) hr (fun m a b => hmin m (by omega) b)
  · intro n i skip ts pmb r _ hb ih t h1 h2 hr hmin
    rcases Nat.eq_or_lt_of_le h1 with rfl | hlt
    · exact absurd hr.2 hb
    · exact ih t hlt (by omega) hr (fun m a b => hmin m (by omega) b)
  · intro n i skip ts pmb r h1 h2 _ _ t ht1 _ _ hmin
    have hti : t = i := by
      by_contra hne
      exact hmin i (le_refl _) (by omega) ⟨h1, h2⟩
    subst hti
    exact ⟨r.log, rfl⟩
  · intro n i skip ts pmb h1 h2 _ _ t ht1 _ _ hmin
    have hti : t = i := by
      by_contra hne
      exact hmin i (le_refl _) (by omega) ⟨h1, h2⟩
    subst hti
    exact ⟨[], rfl⟩
  · intro n i skip ts pmb r h1 h2 _ _ _ t ht1 _ _ hmin
    have hti : t = i := by
      by_contra hne
      exact hmin i (le_refl _) (by omega) ⟨h1, h2⟩
    subst hti
    exact ⟨r.log, rfl⟩
  · intro n i skip ts pmb h1 h2 _ _ t ht1 _ _ hmin
    have hti : t = i := by
      by_contra hne
      exact hmin i (le_refl _) (by omega) ⟨h1, h2⟩
    subst hti
    exact ⟨[], rfl⟩

/-- Body of the loop on a task that is already done (line 68). -/
theorem scan_eq_done {β : Type} (tl : TaskList β) (stage : Int) (n i skip : Nat)
    (ts : TaskState) (pmb : β)
    (h1 : (tl.task_list_ i).task_id &&& ts.finished_tasks ≠ 0) :
    scan tl stage (n + 1) i skip ts pmb = scan tl stage n (i + 1) skip (passDone skip ts) pmb := by
  by_cases h7 : skip = 0
  · simp only [scan, h1, h7, if_true, if_false, passDone]
  · simp only [scan, h1, h7, if_true, if_false, passDone]

/-- Body of the loop on a task that is not done and whose dependency is not satisfied
(line 66). -/
theorem scan_eq_blocked {β : Type} (tl : TaskList β) (stage : Int) (n i skip : Nat)
    (ts : TaskState) (pmb : β)
    (h1 : (tl.task_list_ i).task_id &&& ts.finished_tasks = 0)
    (h2 : (tl.task_list_ i).dependency &&& ts.finished_tasks ≠ (tl.task_list_ i).dependency) :
    scan tl stage (n + 1) i skip ts pmb = scan tl stage n (i + 1) (skip + 1) ts pmb := by
  simp only [scan, h1, h2, if_true, if_false]

/-- Body of the loop on a runnable task whose action signals Fail (lines 56-57, 66): the
invocation is recorded and the loop goes on at the next index with the same progress state
and `skip + 1`. -/
theorem scan_eq_fail {β : Type} (tl : TaskList β) (stage : Int) (n i skip : Nat)
    (ts : TaskState) (pmb : β)
    (h1 : (tl.task_list_ i).task_id &&& ts.finished_tasks = 0)
    (h2 : (tl.task_list_ i).dependency &&& ts.finished_tasks = (tl.task_list_ i).dependency)
    (h3 : ((tl.task_list_ i).TaskFunc pmb stage).1 = TASK_FAIL) :
    scan tl stage (n + 1) i skip ts pmb =
      Outcome.record (invoked tl stage i ts pmb)
        (scan tl stage n (i + 1) (skip + 1) ts ((tl.task_list_ i).TaskFunc pmb stage).2) := by
  simp only [scan, h1, h2, h3, if_true, ne_eq, not_true_eq_false, if_false, invoked]

/-- Body of the loop on a runnable task whose action does not signal Fail (lines 58-63). -/
theorem scan_eq_success {β : Type} (tl : TaskList β) (stage : Int) (n i skip : Nat)
    (ts : TaskState) (pmb : β)
    (h1 : (tl.task_list_ i).task_id &&& ts.finished_tasks = 0)
    (h2 : (tl.task_list_ i).dependency &&& ts.finished_tasks = (tl.task_list_ i).dependency)
    (h3 : ((tl.task_list_ i).TaskFunc pmb stage).1 ≠ TASK_FAIL) :
    scan tl stage (n + 1) i skip ts pmb =
      if ts.num_tasks_left - 1 = 0 then
        Outcome.mk TL_COMPLETE (markDone tl i skip ts)
          ((tl.task_list_ i).TaskFunc pmb stage).2 [invoked tl stage i ts pmb]
      else if ((tl.task_list_ i).TaskFunc pmb stage).1 = TASK_NEXT then
        Outcome.record (invoked tl stage i ts pmb)
          (scan tl stage n (i + 1) skip (markDone tl i skip ts)
            ((tl.task_list_ i).TaskFunc pmb stage).2)
      else
        Outcome.mk TL_RUNNING (markDone tl i skip ts)
          ((tl.task_list_ i).TaskFunc pmb stage).2 [invoked tl stage i ts pmb] := by
  simp only [scan, h1, h2, h3, if_true, ne_eq, not_false_eq_true, invoked, markDone]

/-- After an invocation that signals Fail the scan goes on: what follows it in the log is
the log of the scan of the rest of the range, made with the `finished_tasks` of the
failed invocation. -/
theorem scan_after_fail {β : Type} (tl : TaskList β) (stage : Int) :
    ∀ (n i skip : Nat) (ts : TaskState) (pmb : β) (l₁ l₂ : List Invocation) (e : Invocation),
      (scan tl stage n i skip ts pmb).log = l₁ ++ e :: l₂ → e.ret = TASK_FAIL →
      ∃ (n' skip' : Nat) (ts' : TaskState) (pmb' : β),
        e.index + 1 + n' = i + n ∧ ts'.finished_tasks = e.finished_at_call ∧
        l₂ = (scan tl stage n' (e.index + 1) skip' ts' pmb').log := by
  intro n
  induction n with
  | zero =>
    intro i skip ts pmb l₁ l₂ e h _
    simp [scan] at h
  | succ n ih =>
    intro i skip ts pmb l₁ l₂ e h he
    by_cases h1 : (tl.task_list_ i).task_id &&& ts.finished_tasks = 0
    · by_cases h2 : (tl.task_list_ i).dependency &&& ts.finished_tasks
          = (tl.task_list_ i).dependency
      · by_cases h3 : ((tl.task_list_ i).TaskFunc pmb stage).1 = TASK_FAIL
        · rw [scan_eq_fail tl stage n i skip ts pmb h1 h2 h3] at h
          cases l₁ with
          | nil =>
            simp only [Outcome.record, List.nil_append, List.cons.injEq] at h
            obtain ⟨ha, hb⟩ := h
            refine ⟨n, skip + 1, ts, ((tl.task_list_ i).TaskFunc pmb stage).2, ?_, ?_, ?_⟩
            · rw [← ha]; simp only [invoked]; omega
            · rw [← ha]; rfl
            · rw [← ha]; exact hb.symm
          | cons a l₁ =>
            simp only [Outcome.record, List.cons_append, List.cons.injEq] at h
            obtain ⟨n', s', ts', p', a, b, c⟩ := ih _ _ _ _ l₁ l₂ e h.2 he
            exact ⟨n', s', ts', p', by omega, b, c⟩
        · rw [scan_eq_success tl stage n i skip ts pmb h1 h2 h3] at h
          split_ifs at h with h4 h5
          · cases l₁ with
            | nil =>
              simp only [List.nil_append, List.cons.injEq] at h
              rw [← h.1] at he
              exact absurd he h3
            | cons a l₁ => simp at h
          · cases l₁ with
            | nil =>
              simp only [Outcome.record, List.nil_append, List.cons.injEq] at h
              rw [← h.1] at he
              exact absurd he h3
            | cons a l₁ =>
              simp only [Outcome.record, List.cons_append, List.cons.injEq] at h
              obtain ⟨n', s', ts', p', a, b, c⟩ := ih _ _ _ _ l₁ l₂ e h.2 he
              exact ⟨n', s', ts', p', by omega, b, c⟩
          · cases l₁ with
            | nil =>
              simp only [List.nil_append, List.cons.injEq] at h
              rw [← h.1] at he
              exact absurd he h3
            | cons a l₁ => simp at h
      · rw [scan_eq_blocked tl stage n i skip ts pmb h1 h2] at h
        obtain ⟨n', s', ts', p', a, b, c⟩ := ih _ _ _ _ l₁ l₂ e h he
        exact ⟨n', s', ts', p', by omega, b, c⟩
    · rw [scan_eq_done tl stage n i skip ts pmb h1] at h
      obtain ⟨n', s', ts', p', a, b, c⟩ := ih _ _ _ _ l₁ l₂ e h he
      exact ⟨n', s', ts', p', by omega, b, c⟩

theorem call_increasing {β : Type} (tl : TaskList β) (stage : Int) (ts : TaskState) (pmb : β) :
    List.Pairwise (fun a b : Invocation => a.index < b.index)
      (DoAllAvailableTasks tl pmb stage ts).log := by
  unfold DoAllAvailableTasks
  split_ifs
  · exact List.Pairwise.nil
  · exact (scan_increasing tl stage _ _ _ _ _).2

/-- On a graph with distinct identity bits, a task whose invocation signalled Fail is
still not done when the call ends. -/
theorem call_fail_unfinished {β : Type} (tl : TaskList β) (stage : Int) (hwf : DistinctBits tl)
    (ts : TaskState) (pmb : β) :
    ∀ e ∈ (DoAllAvailableTasks tl pmb stage ts).log, e.ret = TASK_FAIL →
      (tl.task_list_ e.index).task_id &&&
        (DoAllAvailableTasks tl pmb stage ts).ts.finished_tasks = 0 := by
  intro e he hret
  obtain ⟨l₁, l₂, hlog⟩ := List.append_of_mem he
  obtain ⟨hv, hfin, _⟩ := call_trace tl stage ts pmb
  have hidx := call_index tl stage ts pmb
  have hinc := call_increasing tl stage ts pmb
  rw [hlog] at hv hfin hidx hinc
  obtain ⟨_, hv2⟩ := (logValid_append tl l₁ (e :: l₂) _).mp hv
  obtain ⟨_, h0, _, _⟩ := hv2
  have hlt : ∀ e' ∈ l₂, e.index < e'.index :=
    fun e' he' => List.rel_of_pairwise_cons (List.pairwise_append.mp hinc).2.1 he'
  rw [hfin, replay_append]
  simp only [replay, List.foldl_cons, stepFinished, hret, ne_eq, not_true_eq_false, if_false]
  apply replay_avoid tl _ l₂ _ _ h0
  intro e' he' _
  have h1 := hidx e (by simp)
  have h2 := hidx e' (by simp [he'])
  have h3 := hlt e' he'
  exact (hwf.1 e.index h1).and_bit (hwf.1 e'.index h2) (hwf.2 e.index h1 e'.index h2 (by omega))

/-- After an invocation that signalled Fail, the first later task that is runnable is
invoked in the same call, with the same `finished_tasks`. -/
theorem call_after_fail {β : Type} (tl : TaskList β) (stage : Int) (ts : TaskState) (pmb : β)
    (l₁ l₂ : List Invocation) (e : Invocation)
    (hlog : (DoAllAvailableTasks tl pmb stage ts).log = l₁ ++ e :: l₂)
    (hret : e.ret = TASK_FAIL) (t : Nat) (h1 : e.index < t) (h2 : t < tl.ntasks)
    (hr : Runnable tl e.finished_at_call t)
    (hmin : ∀ m, e.index < m → m < t → ¬ Runnable tl e.finished_at_call m) :
    ∃ e' l₃, l₂ = e' :: l₃ ∧ e'.index = t ∧ e'.finished_at_call = e.finished_at_call := by
  unfold DoAllAvailableTasks at hlog
  split_ifs at hlog with h0
  · simp at hlog
  · obtain ⟨n', s', ts', p', a, b, c⟩ := scan_after_fail tl stage _ _ _ _ _ l₁ l₂ e hlog hret
    rw [← b] at hr hmin
    obtain ⟨rest, hrest⟩ := scan_first tl stage n' (e.index + 1) s' ts' p' t (by omega)
      (by omega) hr (fun m hm1 hm2 => hmin m (by omega) hm2)
    exact ⟨_, rest, by rw [c, hrest], rfl, b⟩

/-! ## Draining a graph with SuccessContinue -/

theorem id_and_orIds_zero {β : Type} (tl : TaskList β) (hwf : DistinctBits tl) (i : Nat)
    (hi : i < tl.ntasks) : ∀ k, k ≤ i → (tl.task_list_ i).task_id &&& orIds tl k = 0 := by
  intro k
  induction k with
  | zero => intro _; simp [orIds]
  | succ k ih =>
    intro hk
    simp only [orIds]
    exact and_or_eq_zero.mpr ⟨ih (by omega),
      (hwf.1 i hi).and_bit (hwf.1 k (by omega)) (hwf.2 i hi k (by omega) (by omega))⟩

/-- On a graph in topological order whose actions all signal SuccessContinue, the scan
started at index `i` with the first `i` tasks done runs every remaining task in order and
completes. -/
theorem scan_drain {β : Type} (tl : TaskList β) (stage : Int) (hwf : DistinctBits tl)
    (htopo : Topological tl)
    (hnext : ∀ i, i < tl.ntasks → ∀ d, ((tl.task_list_ i).TaskFunc d stage).1 = TASK_NEXT) :
    ∀ (n i : Nat) (pmb : β), i + n + 1 = tl.ntasks →
      (scan tl stage (n + 1) i 0 (TaskState.mk (orIds tl i) i ((n : Int) + 1)) pmb).status
        = TL_COMPLETE ∧
      (scan tl stage (n + 1) i 0 (TaskState.mk (orIds tl i) i ((n : Int) + 1)) pmb).ts
        = TaskState.mk (allIds tl) tl.ntasks 0 ∧
      (scan tl stage (n + 1) i 0 (TaskState.mk (orIds tl i) i ((n : Int) + 1)) pmb).log.map
        Invocation.index = List.range' i (n + 1) := by
  intro n
  induction n with
  | zero =>
    intro i pmb hi
    have h1 := id_and_orIds_zero tl hwf i (by omega) i (le_refl _)
    have h2 := htopo i (by omega)
    have h3 : ((tl.task_list_ i).TaskFunc pmb stage).1 ≠ TASK_FAIL := by
      rw [hnext i (by omega)]; simp
    rw [scan_eq_success tl stage 0 i 0 _ pmb h1 h2 h3]
    simp only [Int.Nat.cast_ofNat_Int, zero_add, sub_self, if_true, markDone, invoked,
      List.map_cons, List.map_nil, List.range'_one, true_and]
    simp [allIds, ← hi, orIds]
  | succ n ih =>
    intro i pmb hi
    have h1 := id_and_orIds_zero tl hwf i (by omega) i (le_refl _)
    have h2 := htopo i (by omega)
    have hn := hnext i (by omega) pmb
    have h3 : ((tl.task_list_ i).TaskFunc pmb stage).1 ≠ TASK_FAIL := by
      rw [hn]; simp
    have h4 : ¬ (((n + 1 : Nat) : Int) + 1 - 1 = 0) := by omega
    rw [scan_eq_success tl stage (n + 1) i 0 _ pmb h1 h2 h3]
    simp only [h4, if_false, hn, if_true, markDone, Outcome.record, invoked]
    have hst : TaskState.mk (orIds tl i ||| (tl.task_list_ i).task_id) (i + 1)
        (((n + 1 : Nat) : Int) + 1 - 1) = TaskState.mk (orIds tl (i + 1)) (i + 1) ((n : Int) + 1) := by
      simp [orIds]
    rw [hst]
    obtain ⟨a, b, c⟩ := ih (i + 1) ((tl.task_list_ i).TaskFunc pmb stage).2 (by omega)
    refine ⟨a, b, ?_⟩
    rw [List.map_cons, c]
    rfl

/-- An invocation that signals plain Success is the last one of its call, which returns
`TL_RUNNING` when tasks are left. -/
theorem call_success_last {β : Type} (tl : TaskList β) (stage : Int) (ts : TaskState) (pmb : β)
    (l₁ l₂ : List Invocation) (e : Invocation)
    (hlog : (DoAllAvailableTasks tl pmb stage ts).log = l₁ ++ e :: l₂)
    (hret : e.ret = TASK_SUCCESS) :
    l₂ = [] ∧
    ((DoAllAvailableTasks tl pmb stage ts).ts.num_tasks_left ≠ 0 →
      (DoAllAvailableTasks tl pmb stage ts).status = TL_RUNNING) := by
  unfold DoAllAvailableTasks at hlog ⊢
  split_ifs at hlog ⊢ with h0
  · simp at hlog
  · have := scan_success_last tl stage _ _ _ _ _ l₁ l₂ e hlog hret
    exact ⟨this.1, this.2.1⟩

/-! ## The executor without the resume index -/

theorem sameOutcome_record {β : Type} (e : Invocation) (r r' : Outcome β)
    (h : SameOutcome r r') : SameOutcome (Outcome.record e r) (Outcome.record e r') := by
  obtain ⟨a, b, c, d, f⟩ := h
  exact ⟨a, by simp [Outcome.record, b], c, d, f⟩

/-- The scan does not read `indx_first_task`: two scans that differ only in it agree. -/
theorem scan_ignores_resume {β : Type} (tl : TaskList β) (stage : Int) :
    ∀ (n i skip : Nat) (ts ts' : TaskState) (pmb : β),
      ts'.finished_tasks = ts.finished_tasks → ts'.num_tasks_left = ts.num_tasks_left →
      SameOutcome (scan tl stage n i skip ts pmb) (scan tl stage n i skip ts' pmb) := by
  intro n
  induction n with
  | zero =>
    intro i skip ts ts' pmb hf hl
    exact ⟨rfl, rfl, hf.symm, hl.symm, rfl⟩
  | succ n ih =>
    intro i skip ts ts' pmb hf hl
    by_cases h1 : (tl.task_list_ i).task_id &&& ts.finished_tasks = 0
    · by_cases h2 : (tl.task_list_ i).dependency &&& ts.finished_tasks
          = (tl.task_list_ i).dependency
      · by_cases h3 : ((tl.task_list_ i).TaskFunc pmb stage).1 = TASK_FAIL
        · rw [scan_eq_fail tl stage n i skip ts pmb h1 h2 h3,
            scan_eq_fail tl stage n i skip ts' pmb (by rw [hf]; exact h1) (by rw [hf]; exact h2) h3]
          have : invoked tl stage i ts' pmb = invoked tl stage i ts pmb := by
            simp [invoked, hf]
          rw [this]
          exact sameOutcome_record _ _ _ (ih _ _ _ _ _ hf hl)
        · rw [scan_eq_success tl stage n i skip ts pmb h1 h2 h3,
            scan_eq_success tl stage n i skip ts' pmb (by rw [hf]; exact h1)
              (by rw [hf]; exact h2) h3]
          have hinv : invoked tl stage i ts' pmb = invoked tl stage i ts pmb := by
            simp [invoked, hf]
          have hmf : (markDone tl i skip ts').finished_tasks
              = (markDone tl i skip ts).finished_tasks := by simp [markDone, hf]
          have hml : (markDone tl i skip ts').num_tasks_left
              = (markDone tl i skip ts).num_tasks_left := by simp [markDone, hl]
          rw [hinv, hl]
          split_ifs with h4 h5
          · exact ⟨rfl, rfl, hmf.symm, hml.symm, rfl⟩
          · exact sameOutcome_record _ _ _ (ih _ _ _ _ _ hmf hml)
          · exact ⟨rfl, rfl, hmf.symm, hml.symm, rfl⟩
      · rw [scan_eq_blocked tl stage n i skip ts pmb h1 h2,
          scan_eq_blocked tl stage n i skip ts' pmb (by rw [hf]; exact h1) (by rw [hf]; exact h2)]
        exact ih _ _ _ _ _ hf hl
    · rw [scan_eq_done tl stage n i skip ts pmb h1,
        scan_eq_done tl stage n i skip ts' pmb (by rw [hf]; exact h1)]
      apply ih
      · unfold passDone; split_ifs <;> exact hf
      · unfold passDone; split_ifs <;> exact hl

/-- A scan started with `skip = 0` on a run of `k` tasks that are done passes them and
goes on from the next index, having moved the resume index by `k`. -/
theorem scan_pass_done {β : Type} (tl : TaskList β) (stage : Int) (n : Nat) :
    ∀ (k i : Nat) (ts : TaskState) (pmb : β),
      (∀ j, i ≤ j → j < i + k → (tl.task_list_ j).task_id &&& ts.finished_tasks ≠ 0) →
      scan tl stage (k + n) i 0 ts pmb =
        scan tl stage n (i + k) 0
          (TaskState.mk ts.finished_tasks (ts.indx_first_task + k) ts.num_tasks_left) pmb := by
  intro k
  induction k with
  | zero =>
    intro i ts pmb _
    simp
  | succ k ih =>
    intro i ts pmb h
    have h1 := h i (le_refl _) (by omega)
    have : k + 1 + n = (k + n) + 1 := by omega
    rw [this, scan_eq_done tl stage (k + n) i 0 ts pmb h1]
    simp only [passDone, if_true]
    rw [ih (i + 1) (TaskState.mk ts.finished_tasks (ts.indx_first_task + 1) ts.num_tasks_left)
      pmb (fun j a b => h j (by omega) (by omega))]
    have e1 : i + 1 + k = i + (k + 1) := by omega
    have e2 : ts.indx_first_task + 1 + k = ts.indx_first_task + (k + 1) := by omega
    simp only [e1, e2]

/-- In a progress state whose resume index is sound, on a graph with single-bit
identities, the executor and the naive executor agree. -/
theorem naive_same {β : Type} (tl : TaskList β) (stage : Int)
    (hb : ∀ j, j < tl.ntasks → IsBit (tl.task_list_ j).task_id)
    (ts : TaskState) (pmb : β) (hres : ResumeOK tl ts) :
    SameOutcome (DoAllAvailableTasks tl pmb stage ts)
      (DoAllAvailableTasksNaive tl pmb stage ts) := by
  unfold DoAllAvailableTasks DoAllAvailableTasksNaive
  split_ifs with h0
  · exact ⟨rfl, rfl, rfl, rfl, rfl⟩
  · have hle := hres.1
    have hsplit : tl.ntasks = ts.indx_first_task + (tl.ntasks - ts.indx_first_task) := by omega
    have hpass := scan_pass_done tl stage (tl.ntasks - ts.indx_first_task) ts.indx_first_task 0
      ts pmb (by
        intro j _ hj
        have hj' : j < ts.indx_first_task := by omega
        have := hres.2 j hj'
        rw [this]
        exact (hb j (by omega)).ne_zero)
    rw [← hsplit] at hpass
    rw [hpass, Nat.zero_add]
    exact scan_ignores_resume tl stage _ _ _ _ _ pmb rfl rfl

/-! ## Graphs of one task -/

theorem pending_all_nonzero {β : Type} :
    ∀ (bs : List (MeshBlock β)), (∀ b ∈ bs, b.tasks.num_tasks_left ≠ 0) →
      pending bs = bs.length := by
  intro bs
  induction bs with
  | nil => intro _; simp [pending]
  | cons b bs ih =>
    intro h
    rw [pending_cons, ih (fun b' hb' => h b' (List.mem_cons_of_mem _ hb'))]
    simp [h b (List.mem_cons_self _ _)]
    omega

theorem new_jeans {β : Type} (names : RadiationIntegratorTaskNames) (UpdateRadJeans : β → β)
    (mem : Nat → Task β) :
    RadiationIntegratorTaskList.new names UpdateRadJeans "jeans" mem =
      (Except.ok (), RadiationIntegratorTaskList.mk
        (TaskList.mk 1 0 (Function.update mem 0
          (Task.mk names.INT_LOC_JEANS NONE (LocalIntegratorJeans UpdateRadJeans)))) 1 "jeans") := by
  simp [RadiationIntegratorTaskList.new, AddRadiationIntegratorTask, TaskList.new]

theorem new_const {β : Type} (names : RadiationIntegratorTaskNames) (UpdateRadJeans : β → β)
    (mem : Nat → Task β) :
    RadiationIntegratorTaskList.new names UpdateRadJeans "const" mem =
      (Except.ok (), RadiationIntegratorTaskList.mk
        (TaskList.mk 1 0 (Function.update mem 0
          (Task.mk names.INT_CONST NONE ConstRadiation))) 1 "const") := by
  have h1 : ¬ ("const" = "jeans") := by decide
  have h2 : ¬ ("const" = "six_ray") := by decide
  simp [RadiationIntegratorTaskList.new, AddRadiationIntegratorTask, TaskList.new, h1, h2,
    names.distinct.symm]

/-! ## Units with nothing left -/

/-- Calls made on a unit with `num_tasks_left = 0` all return `TL_NOTHING_TO_DO`, invoke
nothing and leave the unit as it is. -/
theorem calls_done {β : Type} (tl : TaskList β) (stage : Int) :
    ∀ (k : Nat) (ts : TaskState) (pmb : β), ts.num_tasks_left = 0 →
      DoCalls tl stage k ts pmb = Run.mk (List.replicate k TL_NOTHING_TO_DO) ts pmb [] := by
  intro k
  induction k with
  | zero => intro ts pmb _; rfl
  | succ k ih =>
    intro ts pmb h0
    simp only [DoCalls, call_done tl stage ts pmb h0, ih ts pmb h0, List.replicate_succ,
      List.nil_append]

theorem callBlock_done {β : Type} (tl : TaskList β) (stage : Int) (b : MeshBlock β)
    (h0 : b.tasks.num_tasks_left = 0) :
    callBlock tl stage b = b ∧ callStatus tl stage b = TL_NOTHING_TO_DO := by
  simp [callBlock, callStatus, call_done tl stage b.tasks b.data h0]

/-- A sweep over blocks that all have `num_tasks_left = 0` changes nothing: the blocks
and `nmb_left` stay as they are and every status is `TL_NOTHING_TO_DO`. -/
theorem sweep_all_done {β : Type} (tl : TaskList β) (stage : Int) :
    ∀ (bs : List (MeshBlock β)) (left : Int), (∀ b ∈ bs, b.tasks.num_tasks_left = 0) →
      sweep tl stage bs left = (bs, left, List.replicate bs.length TL_NOTHING_TO_DO) := by
  intro bs
  induction bs with
  | nil => intro left _; rfl
  | cons b bs ih =>
    intro left h
    have h0 := h b (List.mem_cons_self _ _)
    have hrest := ih left (fun b' hb' => h b' (List.mem_cons_of_mem _ hb'))
    simp only [sweep, call_done tl stage b.tasks b.data h0, List.length_cons,
      List.replicate_succ]
    simp [hrest]

/-- Rounds of the driver over blocks that all have `num_tasks_left = 0` while
`nmb_left > 0`: the loop goes on for ever without changing the blocks or the counter. -/
theorem rounds_all_done {β : Type} (tl : TaskList β) (stage : Int) :
    ∀ (n : Nat) (s : StageState β), (∀ b ∈ s.blocks, b.tasks.num_tasks_left = 0) →
      s.nmb_left > 0 →
      (whileRounds tl stage n s).blocks = s.blocks ∧
      (whileRounds tl stage n s).nmb_left = s.nmb_left ∧
      (whileRounds tl stage n s).history
        = s.history ++ List.replicate n (List.replicate s.blocks.length TL_NOTHING_TO_DO) := by
  intro n
  induction n with
  | zero => intro s _ _; simp [whileRounds]
  | succ n ih =>
    intro s h hg
    have hs : sweepStep tl stage s = StageState.mk s.blocks s.nmb_left
        (s.history ++ [List.replicate s.blocks.length TL_NOTHING_TO_DO]) := by
      simp only [sweepStep, sweep_all_done tl stage s.blocks s.nmb_left h]
    obtain ⟨a, b, c⟩ := ih (sweepStep tl stage s) (by rw [hs]; exact h) (by rw [hs]; exact hg)
    simp only [whileRounds, hg, if_true]
    rw [a, b, c, hs]
    refine ⟨rfl, rfl, ?_⟩
    simp [List.replicate_succ, List.append_assoc]

theorem new_six_ray {β : Type} (names : RadiationIntegratorTaskNames) (UpdateRadJeans : β → β)
    (mem : Nat → Task β) :
    RadiationIntegratorTaskList.new names UpdateRadJeans "six_ray" mem =
      (Except.ok (), RadiationIntegratorTaskList.mk (TaskList.mk 0 0 mem) 1 "six_ray") := by
  have h1 : ¬ ("six_ray" = "jeans") := by decide
  simp [RadiationIntegratorTaskList.new, TaskList.new, h1]

/-! ## Completion is reported once -/

/-- The counter `num_tasks_left` does not go below 0 in a scan started above 0. -/
theorem scan_nonneg {β : Type} (tl : TaskList β) (stage : Int) :
    ∀ (n i skip : Nat) (ts : TaskState) (pmb : β), 0 < ts.num_tasks_left →
      0 ≤ (scan tl stage n i skip ts pmb).ts.num_tasks_left := by
  apply scan_ind tl stage (P := fun _ _ _ ts _ r => 0 < ts.num_tasks_left →
      0 ≤ r.ts.num_tasks_left)
  · intro i skip ts pmb h
    exact le_of_lt h
  · intro n i skip ts pmb r _ ih h
    apply ih
    unfold passDone; split_ifs <;> exact h
  · intro n i skip ts pmb r _ _ ih h
    exact ih h
  · intro n i skip ts pmb r _ _ _ ih h
    exact ih h
  · intro n i skip ts pmb _ _ _ h4 _
    simp [markDone, h4]
  · intro n i skip ts pmb r _ _ _ h4 ih h
    apply ih
    simp only [markDone]
    omega
  · intro n i skip ts pmb _ _ _ _ h
    simp only [markDone]
    omega

theorem call_nonneg {β : Type} (tl : TaskList β) (stage : Int) (ts : TaskState) (pmb : β)
    (h : 0 ≤ ts.num_tasks_left) : 0 ≤ (DoAllAvailableTasks tl pmb stage ts).ts.num_tasks_left := by
  unfold DoAllAvailableTasks
  split_ifs with h0
  · exact h
  · exact scan_nonneg tl stage _ _ _ _ _ (by omega)

theorem calls_nonneg {β : Type} (tl : TaskList β) (stage : Int) :
    ∀ (k : Nat) (ts : TaskState) (pmb : β), 0 ≤ ts.num_tasks_left →
      0 ≤ (DoCalls tl stage k ts pmb).ts.num_tasks_left := by
  intro k
  induction k with
  | zero => intro ts pmb h; exact h
  | succ k ih =>
    intro ts pmb h
    exact ih _ _ (call_nonneg tl stage ts pmb h)

/-- A scan that returns `TL_COMPLETE` ends with the invocation that completed the unit. -/
theorem scan_complete_last {β : Type} (tl : TaskList β) (stage : Int) :
    ∀ (n i skip : Nat) (ts : TaskState) (pmb : β),
      (scan tl stage n i skip ts pmb).status = TL_COMPLETE →
      ∃ l e, (scan tl stage n i skip ts pmb).log = l ++ [e] ∧ e.ret ≠ TASK_FAIL := by
  apply scan_ind tl stage (P := fun _ _ _ _ _ r => r.status = TL_COMPLETE →
      ∃ (l : List Invocation) (e : Invocation), r.log = l ++ [e] ∧ e.ret ≠ TASK_FAIL)
  · intro i skip ts pmb h
    simp at h
  · intro n i skip ts pmb r _ ih h
    exact ih h
  · intro n i skip ts pmb r _ _ ih h
    exact ih h
  · intro n i skip ts pmb r _ _ _ ih h
    obtain ⟨l, e, hl, he⟩ := ih h
    exact ⟨invoked tl stage i ts pmb :: l, e, by simp [Outcome.record, hl], he⟩
  · intro n i skip ts pmb _ _ h3 _ _
    exact ⟨[], invoked tl stage i ts pmb, rfl, h3⟩
  · intro n i skip ts pmb r _ _ _ _ ih h
    obtain ⟨l, e, hl, he⟩ := ih h
    exact ⟨invoked tl stage i ts pmb :: l, e, by simp [Outcome.record, hl], he⟩
  · intro n i skip ts pmb _ _ _ _ h
    simp at h

/-- A call that returns `TL_COMPLETE` ends with the invocation that takes
`num_tasks_left` from 1 to 0. -/
theorem call_complete_last {β : Type} (tl : TaskList β) (stage : Int) (ts : TaskState) (pmb : β)
    (h : (DoAllAvailableTasks tl pmb stage ts).status = TL_COMPLETE) :
    ∃ l e, (DoAllAvailableTasks tl pmb stage ts).log = l ++ [e] ∧ e.ret ≠ TASK_FAIL ∧
      ts.num_tasks_left - (successes l : Int) = 1 := by
  have hleft := (call_trace tl stage ts pmb).2.2
  have hz := ((call_status tl stage ts pmb).1.mp h).2
  have h0 := ((call_status tl stage ts pmb).1.mp h).1
  have hex : ∃ l e, (DoAllAvailableTasks tl pmb stage ts).log = l ++ [e] ∧ e.ret ≠ TASK_FAIL := by
    unfold DoAllAvailableTasks at h ⊢
    rw [if_neg h0] at h ⊢
    exact scan_complete_last tl stage _ _ _ _ _ h
  obtain ⟨l, e, hl, he⟩ := hex
  refine ⟨l, e, hl, he, ?_⟩
  rw [hl, successes_append, hz] at hleft
  have : successes [e] = 1 := by simp [successes, he]
  rw [this] at hleft
  push_cast at hleft
  omega

/-- Calls in sequence: `a + m` calls are `a` calls followed by `m` calls. -/
theorem calls_add {β : Type} (tl : TaskList β) (stage : Int) :
    ∀ (a m : Nat) (ts : TaskState) (pmb : β),
      (DoCalls tl stage (a + m) ts pmb).ts
        = (DoCalls tl stage m (DoCalls tl stage a ts pmb).ts (DoCalls tl stage a ts pmb).pmb).ts ∧
      (DoCalls tl stage (a + m) ts pmb).pmb
        = (DoCalls tl stage m (DoCalls tl stage a ts pmb).ts (DoCalls tl stage a ts pmb).pmb).pmb := by
  intro a
  induction a with
  | zero => intro m ts pmb; simp [DoCalls]
  | succ a ih =>
    intro m ts pmb
    have : a + 1 + m = (a + m) + 1 := by omega
    rw [this]
    simp only [DoCalls]
    exact ih m _ _

/-- The state after `a + 1` calls is the state the call number `a + 1` leaves. -/
theorem calls_succ_callAt {β : Type} (tl : TaskList β) (stage : Int) (pmb : β) (a : Nat) :
    (DoCalls tl stage (a + 1) (TaskState.Reset tl.ntasks) pmb).ts = (callAt tl stage pmb a).ts ∧
    (DoCalls tl stage (a + 1) (TaskState.Reset tl.ntasks) pmb).pmb
      = (callAt tl stage pmb a).pmb := by
  have := calls_add tl stage a 1 (TaskState.Reset tl.ntasks) pmb
  simpa [DoCalls, callAt] using this

/-- Once a call has left `num_tasks_left = 0`, every later call of the sequence returns
`TL_NOTHING_TO_DO`, invokes nothing and leaves the same state. -/
theorem callAt_after_done {β : Type} (tl : TaskList β) (stage : Int) (pmb : β) (a : Nat)
    (hz : (callAt tl stage pmb a).ts.num_tasks_left = 0) :
    ∀ b, a < b → callAt tl stage pmb b =
      Outcome.mk TL_NOTHING_TO_DO (callAt tl stage pmb a).ts (callAt tl stage pmb a).pmb [] := by
  intro b hab
  obtain ⟨m, rfl⟩ : ∃ m, b = (a + 1) + m := ⟨b - (a + 1), by omega⟩
  obtain ⟨h1, h2⟩ := calls_add tl stage (a + 1) m (TaskState.Reset tl.ntasks) pmb
  obtain ⟨h3, h4⟩ := calls_succ_callAt tl stage pmb a
  have hz' : (DoCalls tl stage (a + 1) (TaskState.Reset tl.ntasks) pmb).ts.num_tasks_left = 0 := by
    rw [h3]; exact hz
  rw [calls_done tl stage m _ _ hz'] at h1 h2
  simp only at h1 h2
  unfold callAt at *
  rw [h1, h2, h3, h4]
  exact call_done tl stage _ _ hz

theorem pending_eq_unitsLeft {β : Type} :
    ∀ (bs : List (MeshBlock β)), (∀ b ∈ bs, 0 ≤ b.tasks.num_tasks_left) →
      pending bs = unitsLeft bs := by
  intro bs h
  unfold pending unitsLeft
  congr 1
  apply List.filter_congr
  intro b hb
  have := h b hb
  by_cases h0 : b.tasks.num_tasks_left = 0
  · simp [h0]
  · have hpos : 0 < b.tasks.num_tasks_left := by omega
    simp [h0, hpos]

/-- On a graph with at least one task, after any number of rounds of the driver no block
has a negative counter and `nmb_left` is the number of blocks with tasks left. -/
theorem rounds_units_left {β : Type} (tl : TaskList β) (startup : β → Int → β) (stage : Int)
    (hne : 1 ≤ tl.ntasks) (pmb_array : List (MeshBlock β)) (n : Nat) :
    (∀ b ∈ (whileRounds tl stage n (stageInit tl startup stage pmb_array)).blocks,
      0 ≤ b.tasks.num_tasks_left) ∧
    (whileRounds tl stage n (stageInit tl startup stage pmb_array)).nmb_left
      = (pending (whileRounds tl stage n (stageInit tl startup stage pmb_array)).blocks : Int) := by
  apply whileRounds_inv tl stage
    (fun s => (∀ b ∈ s.blocks, 0 ≤ b.tasks.num_tasks_left) ∧
      s.nmb_left = (pending s.blocks : Int))
  · intro s ⟨h1, h2⟩ _
    have hb := (sweep_blocks tl stage s.blocks s.nmb_left).1
    have hp := sweep_pending tl stage s.blocks s.nmb_left
    simp only [sweepStep]
    refine ⟨?_, by omega⟩
    intro b hbmem
    rw [hb] at hbmem
    obtain ⟨b0, hb0, rfl⟩ := List.mem_map.mp hbmem
    exact call_nonneg tl stage b0.tasks b0.data (h1 b0 hb0)
  · have hall : ∀ b ∈ (stageInit tl startup stage pmb_array).blocks,
        b.tasks.num_tasks_left = (tl.ntasks : Int) := by
      intro b hb
      simp only [stageInit, List.mem_map] at hb
      obtain ⟨b0, _, rfl⟩ := hb
      rfl
    refine ⟨fun b hb => by rw [hall b hb]; omega, ?_⟩
    rw [pending_all_nonzero _ (fun b hb => by rw [hall b hb]; omega)]
    simp [stageInit]

/-! ## Stages that cannot complete -/

/-- At every invocation of a call made with `finished_tasks` inside the identities of the
graph, `finished_tasks` is inside the identities of the graph. -/
theorem call_events_sub {β : Type} (tl : TaskList β) (stage : Int) (ts : TaskState) (pmb : β)
    (h : ts.finished_tasks &&& allIds tl = ts.finished_tasks) :
    ∀ e ∈ (DoAllAvailableTasks tl pmb stage ts).log,
      e.finished_at_call &&& allIds tl = e.finished_at_call := by
  intro e he
  obtain ⟨l₁, l₂, hlog⟩ := List.append_of_mem he
  have hv := (call_trace tl stage ts pmb).1
  have hidx := call_index tl stage ts pmb
  rw [hlog] at hv hidx
  obtain ⟨_, hv2⟩ := (logValid_append tl l₁ (e :: l₂) _).mp hv
  rw [hv2.1]
  exact replay_sub_allIds tl l₁ _ h (fun e' he' => hidx e' (by simp [he']))

theorem neverDone_left {β : Type} (tl : TaskList β) (Q : β → Prop) (j : Nat)
    (hj : j < tl.ntasks) (b : MeshBlock β) (h : NeverDone tl Q j b) :
    0 < b.tasks.num_tasks_left := by
  obtain ⟨_, hg, h0⟩ := h
  have hc := hg.1
  unfold Counted at hc
  have : 0 < unfinished tl b.tasks.finished_tasks tl.ntasks := by
    by_contra hz
    exact unfinished_zero tl _ _ (by omega) j hj h0
  omega

/-- One call on a unit one task of which can never be completed keeps it so, and does
not return `TL_COMPLETE`. -/
theorem neverDone_call {β : Type} (tl : TaskList β) (stage : Int) (hwf : DistinctBits tl)
    (Q : β → Prop) (j : Nat) (hj : j < tl.ntasks)
    (hQ : ∀ i d, Q d → Q ((tl.task_list_ i).TaskFunc d stage).2)
    (hstuck : CannotComplete tl stage Q j)
    (b : MeshBlock β) (h : NeverDone tl Q j b) :
    NeverDone tl Q j (callBlock tl stage b) ∧ callStatus tl stage b ≠ TL_COMPLETE := by
  obtain ⟨hq, hg, h0⟩ := h
  obtain ⟨hq', hret⟩ := call_ret tl stage Q hQ b.tasks b.data hq
  have hidx := call_index tl stage b.tasks b.data
  have hsub := call_events_sub tl stage b.tasks b.data hg.2
  have hmem := logValid_mem tl _ _ (call_trace tl stage b.tasks b.data).1
  have hst : NeverDone tl Q j (callBlock tl stage b) := by
    refine ⟨hq', good_callBlock tl stage hwf b hg, ?_⟩
    simp only [callBlock]
    rw [(call_trace tl stage b.tasks b.data).2.1]
    apply replay_avoid tl _ _ _ _ h0
    intro e he hr
    have hne : j ≠ e.index := by
      intro heq
      rcases hstuck with hfail | hdep
      · obtain ⟨d, hd, hde⟩ := hret e he
        rw [← heq] at hde
        exact hr (by rw [hde]; exact hfail d hd)
      · apply hdep
        have h1 := (hmem e he).2
        have h2 := hsub e he
        rw [← heq] at h1
        rw [← h1, Nat.and_assoc, h2]
    exact (hwf.1 j hj).and_bit (hwf.1 e.index (hidx e he)) (hwf.2 j hj e.index (hidx e he) hne)
  refine ⟨hst, ?_⟩
  intro hcomp
  have := ((call_status tl stage b.tasks b.data).1.mp hcomp).2
  have hpos := neverDone_left tl Q j hj _ hst
  simp only [callBlock] at hpos
  simp only [callStatus] at hcomp
  omega

/-- The driver on an array one unit of which keeps, call after call, a property that
excludes completion: the loop guard holds after any number of rounds, and as many sweeps
as rounds have been made. -/
theorem rounds_never_return {β : Type} (tl : TaskList β) (stage : Int)
    (J : MeshBlock β → Prop)
    (hJ : ∀ b, J b → J (callBlock tl stage b) ∧ b.tasks.num_tasks_left ≠ 0) (u : Nat) :
    ∀ (n : Nat) (s : StageState β), (∃ b, s.blocks[u]? = some b ∧ J b) →
      (pending s.blocks : Int) ≤ s.nmb_left →
      (∃ b, (whileRounds tl stage n s).blocks[u]? = some b ∧ J b) ∧
      (whileRounds tl stage n s).nmb_left > 0 ∧
      (whileRounds tl stage n s).history.length = s.history.length + n := by
  have hguard : ∀ s : StageState β, (∃ b, s.blocks[u]? = some b ∧ J b) →
      (pending s.blocks : Int) ≤ s.nmb_left → s.nmb_left > 0 := by
    intro s ⟨b, hb, hjb⟩ hp
    have := pending_pos s.blocks b (List.getElem?_mem hb) (hJ b hjb).2
    omega
  intro n
  induction n with
  | zero =>
    intro s h1 h2
    exact ⟨h1, hguard s h1 h2, rfl⟩
  | succ n ih =>
    intro s h1 h2
    have hg := hguard s h1 h2
    obtain ⟨b, hb, hjb⟩ := h1
    have hb1 := (sweep_blocks tl stage s.blocks s.nmb_left).1
    have hpend := sweep_pending tl stage s.blocks s.nmb_left
    have hstep1 : ∃ b', (sweepStep tl stage s).blocks[u]? = some b' ∧ J b' :=
      ⟨callBlock tl stage b, by simp only [sweepStep]; rw [hb1, List.getElem?_map, hb]; rfl,
        (hJ b hjb).1⟩
    have hstep2 : (pending (sweepStep tl stage s).blocks : Int) ≤ (sweepStep tl stage s).nmb_left := by
      simp only [sweepStep]; omega
    obtain ⟨r1, r2, r3⟩ := ih (sweepStep tl stage s) hstep1 hstep2
    simp only [whileRounds, hg, if_true]
    refine ⟨r1, r2, ?_⟩
    rw [r3]
    simp [sweepStep]
    omega

theorem stageInit_pending_le {β : Type} (tl : TaskList β) (startup : β → Int → β) (stage : Int)
    (pmb_array : List (MeshBlock β)) :
    (pending (stageInit tl startup stage pmb_array).blocks : Int)
      ≤ (stageInit tl startup stage pmb_array).nmb_left := by
  simp only [stageInit]
  have : pending (List.map (fun b : MeshBlock β =>
      MeshBlock.mk (TaskState.Reset tl.ntasks) (startup b.data stage)) pmb_array)
      ≤ pmb_array.length := by
    unfold pending
    exact le_trans (List.length_filter_le _ _) (by simp)
  exact_mod_cast this

/-- The driver never returns when a task of one of its units can never be completed. -/
theorem driver_never_returns {β : Type} (tl : TaskList β) (startup : β → Int → β)
    (stage : Int) (hwf : DistinctBits tl) (Q : β → Prop) (j u : Nat) (hj : j < tl.ntasks)
    (hQ : ∀ i d, Q d → Q ((tl.task_list_ i).TaskFunc d stage).2)
    (hstuck : CannotComplete tl stage Q j)
    (pmb_array : List (MeshBlock β)) (bu : MeshBlock β) (hu : pmb_array[u]? = some bu)
    (hQu : Q (startup bu.data stage)) (n : Nat) :
    (whileRounds tl stage n (stageInit tl startup stage pmb_array)).nmb_left > 0 ∧
    (whileRounds tl stage n (stageInit tl startup stage pmb_array)).history.length = n ∧
    DoTaskListOneStage tl startup stage n pmb_array = none := by
  have hJ : ∀ b, NeverDone tl Q j b →
      NeverDone tl Q j (callBlock tl stage b) ∧ b.tasks.num_tasks_left ≠ 0 := by
    intro b hb
    have := neverDone_left tl Q j hj b hb
    exact ⟨(neverDone_call tl stage hwf Q j hj hQ hstuck b hb).1, by omega⟩
  have hinit : ∃ b, (stageInit tl startup stage pmb_array).blocks[u]? = some b ∧
      NeverDone tl Q j b := by
    refine ⟨MeshBlock.mk (TaskState.Reset tl.ntasks) (startup bu.data stage), ?_, ?_⟩
    · simp only [stageInit, List.getElem?_map, hu]; rfl
    · exact ⟨hQu, ⟨counted_reset tl, by simp [TaskState.Reset]⟩, by simp [TaskState.Reset]⟩
  obtain ⟨_, r2, r3⟩ := rounds_never_return tl stage (NeverDone tl Q j) hJ u n _ hinit
    (stageInit_pending_le tl startup stage pmb_array)
  refine ⟨r2, by rw [r3]; simp [stageInit], ?_⟩
  unfold DoTaskListOneStage
  simp only [r2, if_true]

theorem stuck2_cannot : CannotComplete stuck2 0 (fun d => d = 0) 1 := by
  left
  intro d hd
  simp [stuck2, hd]

theorem stuck2_closed : ∀ i d, d = 0 → ((stuck2.task_list_ i).TaskFunc d 0).2 = 0 := by
  intro i d hd
  by_cases hi : i = 0 <;> simp [stuck2, hi, hd]

theorem orphan1_cannot : CannotComplete orphan1 0 (fun _ => True) 0 := by
  right
  decide

/-! ## The builder of the radiation task list -/

/-- A call with a known identity: what it returns and leaves. -/
theorem add_ok {β : Type} (names : RadiationIntegratorTaskNames) (UpdateRadJeans : β → β)
    (tl : TaskList β) (id dep : Nat) (h : id = names.INT_LOC_JEANS ∨ id = names.INT_CONST) :
    ∃ f, AddRadiationIntegratorTask names UpdateRadJeans tl id dep =
      (Except.ok (), TaskList.mk (tl.ntasks + 1) tl.nstages
        (Function.update tl.task_list_ tl.ntasks (Task.mk id dep f))) := by
  rcases h with h | h
  · exact ⟨LocalIntegratorJeans UpdateRadJeans, by simp [AddRadiationIntegratorTask, h]⟩
  · subst h
    exact ⟨ConstRadiation, by simp [AddRadiationIntegratorTask, names.distinct.symm]⟩

/-- A call with an unknown identity: what it returns. -/
theorem add_error {β : Type} (names : RadiationIntegratorTaskNames) (UpdateRadJeans : β → β)
    (tl : TaskList β) (id dep : Nat) (h1 : id ≠ names.INT_LOC_JEANS) (h2 : id ≠ names.INT_CONST) :
    (AddRadiationIntegratorTask names UpdateRadJeans tl id dep).1
      = Except.error (invalidTaskMessage id) := by
  simp [AddRadiationIntegratorTask, h1, h2, c_str_invalidTaskMessage]

/-- A sequence of calls with known identities never throws: every call appends its
descriptor, whatever is already in the graph. -/
theorem addAll_ok {β : Type} (names : RadiationIntegratorTaskNames) (UpdateRadJeans : β → β) :
    ∀ (ids : List (Nat × Nat)) (tl : TaskList β),
      (∀ p ∈ ids, p.1 = names.INT_LOC_JEANS ∨ p.1 = names.INT_CONST) →
      (addAll names UpdateRadJeans tl ids).1 = Except.ok () ∧
      (addAll names UpdateRadJeans tl ids).2.ntasks = tl.ntasks + ids.length ∧
      (∀ i, i < tl.ntasks →
        (addAll names UpdateRadJeans tl ids).2.task_list_ i = tl.task_list_ i) ∧
      (∀ (k : Nat) (p : Nat × Nat), ids[k]? = some p →
        ((addAll names UpdateRadJeans tl ids).2.task_list_ (tl.ntasks + k)).task_id = p.1 ∧
        ((addAll names UpdateRadJeans tl ids).2.task_list_ (tl.ntasks + k)).dependency = p.2) := by
  intro ids
  induction ids with
  | nil =>
    intro tl _
    exact ⟨rfl, rfl, fun _ _ => rfl, fun k p h => by simp at h⟩
  | cons q rest ih =>
    intro tl h
    obtain ⟨f, hf⟩ := add_ok names UpdateRadJeans tl q.1 q.2 (h q (List.mem_cons_self _ _))
    obtain ⟨a, b, c, d⟩ := ih (TaskList.mk (tl.ntasks + 1) tl.nstages
      (Function.update tl.task_list_ tl.ntasks (Task.mk q.1 q.2 f)))
      (fun p hp => h p (List.mem_cons_of_mem _ hp))
    simp only [addAll, hf]
    refine ⟨a, by rw [b]; simp only [List.length_cons]; omega, ?_, ?_⟩
    · intro i hi
      rw [c i (by simp only; omega)]
      exact Function.update_noteq (by omega) _ _
    · intro k p hk
      cases k with
      | zero =>
        simp only [List.getElem?_cons_zero, Option.some.injEq] at hk
        subst hk
        have hc := c tl.ntasks (by simp only; omega)
        simp only [Function.update_same] at hc
        simp only [Nat.add_zero]
        rw [hc]
        exact ⟨rfl, rfl⟩
      | succ k =>
        simp only [List.getElem?_cons_succ] at hk
        have := d k p hk
        simp only at this
        have e : tl.ntasks + (k + 1) = tl.ntasks + 1 + k := by omega
        rw [e]
        exact this

theorem new_other {β : Type} (names : RadiationIntegratorTaskNames) (UpdateRadJeans : β → β)
    (integrator : String) (mem : Nat → Task β) (h1 : integrator ≠ "jeans")
    (h2 : integrator ≠ "six_ray") (h3 : integrator ≠ "const") :
    RadiationIntegratorTaskList.new names UpdateRadJeans integrator mem =
      (Except.error (c_str (invalidIntegratorMessage integrator)),
        RadiationIntegratorTaskList.mk (TaskList.new mem) 1 integrator) := by
  simp [RadiationIntegratorTaskList.new, h1, h2, h3]

/-- The constructor leaves at most one descriptor in the graph. -/
theorem new_ntasks_le {β : Type} (names : RadiationIntegratorTaskNames) (UpdateRadJeans : β → β)
    (integrator : String) (mem : Nat → Task β) :
    (RadiationIntegratorTaskList.new names UpdateRadJeans integrator mem).2.base.ntasks ≤ 1 := by
  by_cases h1 : integrator = "jeans"
  · subst h1; rw [new_jeans]
  · by_cases h2 : integrator = "six_ray"
    · subst h2; rw [new_six_ray]; simp
    · by_cases h3 : integrator = "const"
      · subst h3; rw [new_const]
      · rw [new_other names UpdateRadJeans integrator mem h1 h2 h3]
        simp [TaskList.new]

/-! ## The sweeps of the driver on the linear chain -/

/-- One sweep over blocks of the chain that are all at task `a`: every call returns the
same status, `TL_COMPLETE` when `a` is the last task and `TL_RUNNING` otherwise. -/
theorem chain_sweep_history {β : Type} (tl : TaskList β) (stage : Int) (M : Nat)
    (hc : IsChain tl stage M) (a : Nat) (ha : a < M) (s : StageState β)
    (hall : AllAt M a s.blocks) :
    (sweepStep tl stage s).history = s.history ++
      [List.replicate s.blocks.length (if a + 1 = M then TL_COMPLETE else TL_RUNNING)] := by
  have hb := (sweep_blocks tl stage s.blocks s.nmb_left).2
  simp only [sweepStep]
  rw [hb]
  congr 2
  rw [List.eq_replicate_iff]
  refine ⟨by simp, ?_⟩
  intro st hst
  obtain ⟨b0, hb0, rfl⟩ := List.mem_map.mp hst
  simp only [callStatus, hall b0 hb0, chain_call tl stage M hc a ha]

/-- The statuses of `n` rounds of the driver on blocks of the chain that are all at task
`a`. -/
theorem chain_rounds_history {β : Type} (tl : TaskList β) (stage : Int) (M : Nat)
    (hc : IsChain tl stage M) :
    ∀ (n a : Nat) (s : StageState β), a + n ≤ M → AllAt M a s.blocks →
      s.nmb_left = (pending s.blocks : Int) → s.blocks ≠ [] →
      (whileRounds tl stage n s).history = s.history ++
        List.map (fun i => List.replicate s.blocks.length
          (if a + i + 1 = M then TL_COMPLETE else TL_RUNNING)) (List.range n) := by
  intro n
  induction n with
  | zero => intro a s _ _ _ _; simp [whileRounds]
  | succ n ih =>
    intro a s han h1 h2 h3
    have hpos : 0 < s.blocks.length := List.length_pos.mpr h3
    have hg : s.nmb_left > 0 := by
      rw [h2, pending_allAt M a s.blocks h1, if_neg (by omega)]
      exact_mod_cast hpos
    obtain ⟨q1, q2, _, q4⟩ := sweepStep_allAt tl stage M hc a (by omega) s h1 h2
    have hne : (sweepStep tl stage s).blocks ≠ [] := by
      intro h
      rw [h] at q4
      simp at q4
      omega
    have r := ih (a + 1) (sweepStep tl stage s) (by omega) q1 q2 hne
    simp only [whileRounds, hg, if_true]
    rw [r, chain_sweep_history tl stage M hc a (by omega) s h1, q4, List.range_succ_eq_map,
      List.map_cons, List.map_map, List.append_assoc]
    congr 1
    simp only [List.singleton_append, Nat.add_zero, List.cons.injEq, true_and]
    apply List.map_congr_left
    intro i _
    simp only [Function.comp, Nat.succ_eq_add_one]
    have : a + 1 + i + 1 = M ↔ a + (i + 1) + 1 = M := by omega
    simp only [this]

/-- On the chain the first `j ≤ M` rounds of the while loop are `j` executions of its
body: the guard `nmb_left > 0` holds before each of them. -/
theorem chain_rounds_iterate {β : Type} (tl : TaskList β) (startup : β → Int → β)
    (stage : Int) (M : Nat) (hM : 1 ≤ M) (hc : IsChain tl stage M)
    (pmb_array : List (MeshBlock β)) (hN : 1 ≤ pmb_array.length) :
    ∀ j, j ≤ M →
      whileRounds tl stage j (stageInit tl startup stage pmb_array)
        = Nat.iterate (sweepStep tl stage) j (stageInit tl startup stage pmb_array) ∧
      (j < M → (whileRounds tl stage j (stageInit tl startup stage pmb_array)).nmb_left
        = (pmb_array.length : Int)) ∧
      (j = M → (whileRounds tl stage j (stageInit tl startup stage pmb_array)).nmb_left = 0) := by
  have hinit := stageInit_allAt tl startup stage M hc.1 pmb_array
  have hlen : (stageInit tl startup stage pmb_array).blocks.length = pmb_array.length := by
    simp [stageInit]
  have hne : (stageInit tl startup stage pmb_array).blocks ≠ [] := by
    intro h
    rw [h] at hlen
    simp at hlen
    omega
  have hleft : ∀ j, j ≤ M →
      (whileRounds tl stage j (stageInit tl startup stage pmb_array)).nmb_left
        = if j = M then 0 else (pmb_array.length : Int) := by
    intro j hj
    have h0 : (stageInit tl startup stage pmb_array).nmb_left
        = (pending (stageInit tl startup stage pmb_array).blocks : Int) := by
      rw [pending_allAt M 0 _ hinit, if_neg (by omega), hlen]
      rfl
    obtain ⟨r1, r2, _, r4⟩ := chain_rounds tl stage M hc j 0 _ (by omega) hinit h0 hne
    rw [r2, pending_allAt M (0 + j) _ r1, r4, hlen]
    by_cases hjM : j = M
    · simp [hjM]
    · rw [if_neg (by omega), if_neg hjM]
  intro j
  induction j with
  | zero =>
    intro h0
    refine ⟨rfl, fun h => ?_, fun h => ?_⟩
    · rw [hleft 0 h0, if_neg (by omega)]
    · rw [hleft 0 h0, if_pos h]
  | succ j ih =>
    intro hj
    obtain ⟨e, g, _⟩ := ih (by omega)
    refine ⟨?_, fun h => ?_, fun h => ?_⟩
    · rw [whileRounds_add, Function.iterate_succ_apply', ← e]
      have hg : (whileRounds tl stage j (stageInit tl startup stage pmb_array)).nmb_left > 0 := by
        rw [g (by omega)]
        exact_mod_cast hN
      simp only [whileRounds, hg, if_true]
    · rw [hleft (j + 1) hj, if_neg (by omega)]
    · rw [hleft (j + 1) hj, if_pos h]

/-! ## Claims -/

/-- C1 (causal ordering). For every task graph, every stage, every block data and every
number of successive calls of `DoAllAvailableTasks` from a reset progress state, whatever
the actions return: each invocation of an action is made on a task of the graph, and at
the moment of the invocation every bit of the dependency mask of that task is set in
`finished_tasks` (`dependency & finished_tasks == dependency`). -/
theorem C1_causal_ordering {β : Type} (tl : TaskList β) (stage : Int) (k : Nat) (pmb : β) :
    ∀ e ∈ (DoCalls tl stage k (TaskState.Reset tl.ntasks) pmb).log,
      e.index < tl.ntasks ∧
      (tl.task_list_ e.index).dependency &&& e.finished_at_call
        = (tl.task_list_ e.index).dependency := by
  intro e he
  refine ⟨calls_index tl stage k _ pmb e he, ?_⟩
  exact (logValid_mem tl _ _ (calls_trace tl stage k _ pmb).1 e he).2

/-- Witness of C1 on the three-task chain: the second invocation of three calls is the one
of task 1, made when `finished_tasks` was 1, which holds its dependency 1. -/
theorem C1_causal_ordering_witness :
    Invocation.mk 1 1 TASK_SUCCESS ∈ (DoCalls chain3 0 3 (TaskState.Reset chain3.ntasks) 0).log ∧
    ((Invocation.mk 1 1 TASK_SUCCESS).index < chain3.ntasks ∧
      (chain3.task_list_ (Invocation.mk 1 1 TASK_SUCCESS).index).dependency &&&
          (Invocation.mk 1 1 TASK_SUCCESS).finished_at_call
        = (chain3.task_list_ (Invocation.mk 1 1 TASK_SUCCESS).index).dependency) :=
  ⟨by decide, C1_causal_ordering chain3 0 3 0 (Invocation.mk 1 1 TASK_SUCCESS) (by decide)⟩

/-- C2 (eventual completion). For every non-empty graph of `ntasks` tasks whose identities
are pairwise distinct non-zero single bits, whose dependency bits are all identities of
tasks of the graph and whose dependency relation has no cycle, in any registration order,
if no action ever signals Fail then, from a reset progress state, there is a `k` with
`1 ≤ k ≤ ntasks` such that the `k`-th call of `DoAllAvailableTasks` returns `TL_COMPLETE`,
and in the calls up to and including that one the action of every task has been invoked
exactly once, each time with its dependency satisfied by `finished_tasks`. -/
theorem C2_eventual_completion {β : Type} (tl : TaskList β) (stage : Int)
    (hne : 0 < tl.ntasks) (hwf : DistinctBits tl) (hdeps : DepsProvided tl)
    (hacyc : Acyclic tl) (hok : NeverFails tl stage) (pmb : β) :
    ∃ k, 1 ≤ k ∧ k ≤ tl.ntasks ∧
      (DoCalls tl stage k (TaskState.Reset tl.ntasks) pmb).statuses.getLast?
        = some TL_COMPLETE ∧
      (∀ i, i < tl.ntasks →
        ((DoCalls tl stage k (TaskState.Reset tl.ntasks) pmb).log.map
          Invocation.index).count i = 1) ∧
      (∀ e ∈ (DoCalls tl stage k (TaskState.Reset tl.ntasks) pmb).log,
        (tl.task_list_ e.index).dependency &&& e.finished_at_call
          = (tl.task_list_ e.index).dependency) := by
  obtain ⟨m, hm⟩ : ∃ m, tl.ntasks = m + 1 := ⟨tl.ntasks - 1, by omega⟩
  obtain ⟨k, hk1, hk2, hk3, hk4⟩ := calls_complete tl stage hwf hdeps hacyc hok m
    (TaskState.Reset tl.ntasks) pmb (resumeOK_reset tl) (counted_reset tl)
    (by simp [TaskState.Reset, hm])
  refine ⟨k, hk1, by omega, hk3, ?_, ?_⟩
  · obtain ⟨a, _, c⟩ := calls_trace tl stage k (TaskState.Reset tl.ntasks) pmb
    have hidx := calls_index tl stage k (TaskState.Reset tl.ntasks) pmb
    have hsucc := calls_all_success tl stage hok k (TaskState.Reset tl.ntasks) pmb
    have hlen : (DoCalls tl stage k (TaskState.Reset tl.ntasks) pmb).log.length
        = tl.ntasks := by
      have hs : successes (DoCalls tl stage k (TaskState.Reset tl.ntasks) pmb).log
          = (DoCalls tl stage k (TaskState.Reset tl.ntasks) pmb).log.length := by
        unfold successes
        rw [List.filter_eq_self.mpr]
        intro e he
        simpa using hsucc e he
      have hr : (TaskState.Reset tl.ntasks).num_tasks_left = (tl.ntasks : Int) := rfl
      rw [hk4, hr] at c
      omega
    apply count_eq_one_of_nodup
    · exact logValid_nodup tl _ _ a
        (fun e he => ⟨hsucc e he, (hwf.1 e.index (hidx e he)).ne_zero⟩)
    · intro x hx
      obtain ⟨e, he, rfl⟩ := List.mem_map.mp hx
      exact hidx e he
    · simpa using hlen
  · intro e he
    exact (logValid_mem tl _ _ (calls_trace tl stage k _ pmb).1 e he).2

/-- Witness of C2 on the three-task chain registered in reverse order: the hypotheses hold
and the conclusion follows. -/
theorem C2_eventual_completion_witness :
    (0 < rev3.ntasks ∧ DistinctBits rev3 ∧ DepsProvided rev3 ∧ Acyclic rev3 ∧
      NeverFails rev3 0) ∧
    ∃ k, 1 ≤ k ∧ k ≤ rev3.ntasks ∧
      (DoCalls rev3 0 k (TaskState.Reset rev3.ntasks) 0).statuses.getLast?
        = some TL_COMPLETE ∧
      (∀ i, i < rev3.ntasks →
        ((DoCalls rev3 0 k (TaskState.Reset rev3.ntasks) 0).log.map
          Invocation.index).count i = 1) ∧
      (∀ e ∈ (DoCalls rev3 0 k (TaskState.Reset rev3.ntasks) 0).log,
        (rev3.task_list_ e.index).dependency &&& e.finished_at_call
          = (rev3.task_list_ e.index).dependency) := by
  have h1 : 0 < rev3.ntasks := by decide
  have h2 : DistinctBits rev3 := by decide
  have h3 : DepsProvided rev3 := by
    intro i hi
    have hi' : i < 3 := hi
    interval_cases i <;> decide
  have h4 : Acyclic rev3 := by
    apply acyclic_of_rank rev3 (fun k => 3 - k)
    intro a b hab
    have ha : a.1 < 3 := a.2
    have hb : b.1 < 3 := b.2
    unfold DependsOn at hab
    obtain ⟨a, _⟩ := a
    obtain ⟨b, _⟩ := b
    simp only at ha hb hab ⊢
    interval_cases a <;> interval_cases b <;>
      first
        | omega
        | (exfalso; revert hab; decide)
  have h5 : NeverFails rev3 0 := by
    intro i _ d
    simp [rev3]
  exact ⟨⟨h1, h2, h3, h4, h5⟩, C2_eventual_completion rev3 0 h1 h2 h3 h4 h5 0⟩

/-- C3 (resume-index invariant). When the identities of the graph are single bits, in every
progress state reached from `Reset(ntasks)` by any number of calls of
`DoAllAvailableTasks`, whatever the actions return, `indx_first_task` is at most `ntasks`
and every task with an index below `indx_first_task` has its identity bit set in
`finished_tasks`. -/
theorem C3_resume_index_invariant {β : Type} (tl : TaskList β) (stage : Int)
    (hbits : ∀ j, j < tl.ntasks → IsBit (tl.task_list_ j).task_id) (k : Nat) (pmb : β) :
    (DoCalls tl stage k (TaskState.Reset tl.ntasks) pmb).ts.indx_first_task ≤ tl.ntasks ∧
    ∀ j, j < (DoCalls tl stage k (TaskState.Reset tl.ntasks) pmb).ts.indx_first_task →
      (tl.task_list_ j).task_id &&&
          (DoCalls tl stage k (TaskState.Reset tl.ntasks) pmb).ts.finished_tasks
        = (tl.task_list_ j).task_id :=
  calls_resume tl stage hbits k _ pmb (resumeOK_reset tl)

/-- Witness of C3 on the three-task chain after two calls: the resume index is 2 and the
bits of tasks 0 and 1 are set. -/
theorem C3_resume_index_invariant_witness :
    (∀ j, j < chain3.ntasks → IsBit (chain3.task_list_ j).task_id) ∧
    (DoCalls chain3 0 2 (TaskState.Reset chain3.ntasks) 0).ts.indx_first_task = 2 ∧
    ((DoCalls chain3 0 2 (TaskState.Reset chain3.ntasks) 0).ts.indx_first_task
        ≤ chain3.ntasks ∧
      ∀ j, j < (DoCalls chain3 0 2 (TaskState.Reset chain3.ntasks) 0).ts.indx_first_task →
        (chain3.task_list_ j).task_id &&&
            (DoCalls chain3 0 2 (TaskState.Reset chain3.ntasks) 0).ts.finished_tasks
          = (chain3.task_list_ j).task_id) :=
  ⟨by decide, by decide, C3_resume_index_invariant chain3 0 (by decide) 2 0⟩

/-- C4 (no task runs twice). For a graph whose identities are pairwise distinct non-zero
single bits and any number of successive calls from a reset progress state, whatever the
actions return: an invocation that signalled Success or SuccessContinue is never followed,
in the same call or in a later one, by another invocation of the same task. An action that
signalled Fail may be invoked again: the one-task graph `retry1` is invoked a second time
on the second call after having signalled Fail on the first one. -/
theorem C4_no_task_runs_twice {β : Type} (tl : TaskList β) (stage : Int)
    (hwf : DistinctBits tl) (k : Nat) (pmb : β) :
    (∀ (l₁ l₂ : List Invocation) (e : Invocation),
      (DoCalls tl stage k (TaskState.Reset tl.ntasks) pmb).log = l₁ ++ e :: l₂ →
      e.ret ≠ TASK_FAIL → ∀ e' ∈ l₂, e'.index ≠ e.index) ∧
    (DistinctBits retry1 ∧
      (DoCalls retry1 0 2 (TaskState.Reset retry1.ntasks) 0).log =
        [Invocation.mk 0 0 TASK_FAIL, Invocation.mk 0 0 TASK_SUCCESS] ∧
      (DoCalls retry1 0 1 (TaskState.Reset retry1.ntasks) 0).log =
        [Invocation.mk 0 0 TASK_FAIL]) := by
  refine ⟨?_, by decide, by decide, by decide⟩
  intro l₁ l₂ e hlog hret
  have hv := (calls_trace tl stage k (TaskState.Reset tl.ntasks) pmb).1
  have hidx := calls_index tl stage k (TaskState.Reset tl.ntasks) pmb e (by rw [hlog]; simp)
  rw [hlog] at hv
  exact logValid_no_reinvoke tl _ l₁ l₂ e hv hret (hwf.1 e.index hidx).ne_zero

/-- Witness of C4 on the three-task chain: in the log of three calls, the successful
invocation of task 0 is followed by invocations of tasks 1 and 2 only. -/
theorem C4_no_task_runs_twice_witness :
    DistinctBits chain3 ∧
    (DoCalls chain3 0 3 (TaskState.Reset chain3.ntasks) 0).log =
      [] ++ Invocation.mk 0 0 TASK_SUCCESS ::
        [Invocation.mk 1 1 TASK_SUCCESS, Invocation.mk 2 3 TASK_SUCCESS] ∧
    ∀ e' ∈ [Invocation.mk 1 1 TASK_SUCCESS, Invocation.mk 2 3 TASK_SUCCESS],
      e'.index ≠ (Invocation.mk 0 0 TASK_SUCCESS).index :=
  ⟨by decide, by decide,
    (C4_no_task_runs_twice chain3 0 (by decide) 3 0).1 [] _ (Invocation.mk 0 0 TASK_SUCCESS)
      (by decide) (by decide)⟩

/-- C5 (driver postcondition). For every graph whose identities are pairwise distinct
non-zero single bits and every array of blocks, whatever their progress states before the
call: if `DoTaskListOneStage` returns, then it returns the same number of blocks, every
block has `num_tasks_left = 0` and the `finished_tasks` of every block is the bitwise OR
of the identities of all tasks of the graph. -/
theorem C5_driver_postcondition {β : Type} (tl : TaskList β) (startup : β → Int → β)
    (stage : Int) (hwf : DistinctBits tl) (fuel : Nat) (pmb_array : List (MeshBlock β))
    (s : StageState β)
    (hret : DoTaskListOneStage tl startup stage fuel pmb_array = some s) :
    s.blocks.length = pmb_array.length ∧
    ∀ b ∈ s.blocks, b.tasks.num_tasks_left = 0 ∧ b.tasks.finished_tasks = allIds tl := by
  unfold DoTaskListOneStage at hret
  simp only at hret
  split_ifs at hret with hg
  have hs : whileRounds tl stage fuel (stageInit tl startup stage pmb_array) = s :=
    Option.some.inj hret
  have hinv := whileRounds_inv tl stage
    (fun s => (∀ b ∈ s.blocks, Good tl b) ∧ (pending s.blocks : Int) ≤ s.nmb_left ∧
      s.blocks.length = pmb_array.length)
    (by
      intro s ⟨h1, h2, h3⟩ _
      simp only [sweepStep]
      have hb := (sweep_blocks tl stage s.blocks s.nmb_left).1
      have hp := sweep_pending tl stage s.blocks s.nmb_left
      refine ⟨?_, by omega, by rw [hb, List.length_map]; exact h3⟩
      intro b hbmem
      rw [hb] at hbmem
      obtain ⟨b0, hb0, rfl⟩ := List.mem_map.mp hbmem
      exact good_callBlock tl stage hwf b0 (h1 b0 hb0))
    fuel (stageInit tl startup stage pmb_array)
    (by
      refine ⟨?_, ?_, by simp [stageInit]⟩
      · intro b hb
        simp only [stageInit, List.mem_map] at hb
        obtain ⟨b0, _, rfl⟩ := hb
        exact ⟨counted_reset tl, by simp [TaskState.Reset]⟩
      · simp only [stageInit]
        have : pending (List.map (fun b : MeshBlock β =>
            MeshBlock.mk (TaskState.Reset tl.ntasks) (startup b.data stage)) pmb_array)
            ≤ pmb_array.length := by
          unfold pending
          exact le_trans (List.length_filter_le _ _) (by simp)
        exact_mod_cast this)
  rw [hs] at hinv hg
  obtain ⟨h1, h2, h3⟩ := hinv
  refine ⟨h3, ?_⟩
  intro b hb
  have h0 := pending_zero s.blocks (by omega) b hb
  exact ⟨h0, good_done tl hwf b (h1 b hb) h0⟩

/-- Witness of C5: the driver run on two blocks of the three-task chain, entered with
arbitrary progress states, returns within three sweeps. -/
theorem C5_driver_postcondition_witness :
    DistinctBits chain3 ∧
    ∃ s, DoTaskListOneStage chain3 (fun d _ => d) 0 3
        [MeshBlock.mk (TaskState.mk 5 5 5) 0, MeshBlock.mk (TaskState.mk 0 1 2) 7] = some s ∧
      s.blocks.map (fun b => b.tasks) = [TaskState.mk 7 3 0, TaskState.mk 7 3 0] ∧
      s.blocks.length = 2 ∧
      ∀ b ∈ s.blocks, b.tasks.num_tasks_left = 0 ∧ b.tasks.finished_tasks = allIds chain3 :=
  ⟨by decide,
    (whileRounds chain3 0 3 (stageInit chain3 (fun d _ => d) 0
      [MeshBlock.mk (TaskState.mk 5 5 5) 0, MeshBlock.mk (TaskState.mk 0 1 2) 7])),
    rfl, by decide,
    C5_driver_postcondition chain3 (fun d _ => d) 0 (by decide) 3
      [MeshBlock.mk (TaskState.mk 5 5 5) 0, MeshBlock.mk (TaskState.mk 0 1 2) 7] _ rfl⟩

/-- C6 (linear chain, every length). For every `M` with `1 ≤ M ≤ 64`, on the graph whose
task `k` (for `k < M`) has identity `2^k` and dependency `2^(k-1)` (0 for `k = 0`), every
action signalling plain Success, from a reset progress state: for every `1 ≤ j < M` the
`j`-th call of `DoAllAvailableTasks` returns `TL_RUNNING` and leaves
`finished_tasks = 2^j - 1`; the `M`-th call returns `TL_COMPLETE` and leaves
`finished_tasks = 2^M - 1`, a value that fits the 64-bit mask. -/
theorem C6_linear_chain {β : Type} (tl : TaskList β) (stage : Int) (M : Nat)
    (hM1 : 1 ≤ M) (hM64 : M ≤ 64) (hc : IsChain tl stage M) (pmb : β) :
    (∀ j, 1 ≤ j → j < M →
      (DoCalls tl stage j (TaskState.Reset tl.ntasks) pmb).statuses.getLast?
        = some TL_RUNNING ∧
      (DoCalls tl stage j (TaskState.Reset tl.ntasks) pmb).ts.finished_tasks = 2 ^ j - 1) ∧
    (DoCalls tl stage M (TaskState.Reset tl.ntasks) pmb).statuses.getLast?
      = some TL_COMPLETE ∧
    (DoCalls tl stage M (TaskState.Reset tl.ntasks) pmb).ts.finished_tasks = 2 ^ M - 1 ∧
    2 ^ M - 1 < 2 ^ 64 := by
  have hn : tl.ntasks = M := hc.1
  rw [hn, reset_eq_chainState]
  refine ⟨?_, ?_, ?_, ?_⟩
  · intro j hj1 hjM
    obtain ⟨h1, h2⟩ := chain_calls tl stage M hc j 0 pmb (by omega)
    obtain ⟨i, rfl⟩ : ∃ i, j = i + 1 := ⟨j - 1, by omega⟩
    rw [h1, h2, List.range_succ, List.map_append, List.map_singleton, List.getLast?_concat]
    have : ¬ (i + 1 = M) := by omega
    simp [chainState, this]
  · obtain ⟨_, h2⟩ := chain_calls tl stage M hc M 0 pmb (by omega)
    obtain ⟨i, rfl⟩ : ∃ i, M = i + 1 := ⟨M - 1, by omega⟩
    rw [h2, List.range_succ, List.map_append, List.map_singleton, List.getLast?_concat]
    simp
  · obtain ⟨h1, _⟩ := chain_calls tl stage M hc M 0 pmb (by omega)
    rw [h1]
    simp [chainState]
  · have : 2 ^ M ≤ 2 ^ 64 := Nat.pow_le_pow_right (by omega) hM64
    have : 0 < 2 ^ M := Nat.two_pow_pos M
    omega

/-- Witness of C6 for `M = 3`: the statuses are Running, Running, Complete and the masks
go 0, 1, 3, 7. -/
theorem C6_linear_chain_witness :
    IsChain chain3 0 3 ∧
    (DoCalls chain3 0 3 (TaskState.Reset chain3.ntasks) 0).statuses
      = [TL_RUNNING, TL_RUNNING, TL_COMPLETE] ∧
    (List.range 4).map
        (fun j => (DoCalls chain3 0 j (TaskState.Reset chain3.ntasks) 0).ts.finished_tasks)
      = [0, 1, 3, 7] ∧
    ((∀ j, 1 ≤ j → j < 3 →
      (DoCalls chain3 0 j (TaskState.Reset chain3.ntasks) 0).statuses.getLast?
        = some TL_RUNNING ∧
      (DoCalls chain3 0 j (TaskState.Reset chain3.ntasks) 0).ts.finished_tasks = 2 ^ j - 1) ∧
    (DoCalls chain3 0 3 (TaskState.Reset chain3.ntasks) 0).statuses.getLast?
      = some TL_COMPLETE ∧
    (DoCalls chain3 0 3 (TaskState.Reset chain3.ntasks) 0).ts.finished_tasks = 2 ^ 3 - 1 ∧
    2 ^ 3 - 1 < 2 ^ 64) :=
  ⟨isChain_chain3, by decide, by decide,
    C6_linear_chain chain3 0 3 (by decide) (by decide) isChain_chain3 0⟩

/-- C7 (round count of the driver). For every `M ≥ 1` and every non-empty array of blocks
(`N ≥ 1` units), when the graph is the `M`-task linear chain and every action signals plain
Success, `DoTaskListOneStage` executes the body of its while loop exactly `M` times before
returning, whatever `N`. Allowed `M` sweeps or more, it returns the state that `M`
executions of the body (`sweepStep`) make of the entry state; allowed fewer, it has not
returned: the loop has executed its body as often as allowed, every call of every sweep
has returned `TL_RUNNING` and `nmb_left` is still `N`. In the `M` executions of the body,
every unit returns `TL_RUNNING` in the sweeps before the last and `TL_COMPLETE` in sweep
`M`, which leaves `nmb_left = 0`, and every unit ends with the progress state
`(2^M - 1, M, 0)` and the data `M` calls of the executor from a reset produce. -/
theorem C7_round_count {β : Type} (tl : TaskList β) (startup : β → Int → β) (stage : Int)
    (M : Nat) (hM : 1 ≤ M) (hc : IsChain tl stage M) (pmb_array : List (MeshBlock β))
    (hN : 1 ≤ pmb_array.length) :
    (∀ fuel, M ≤ fuel →
      DoTaskListOneStage tl startup stage fuel pmb_array
        = some (Nat.iterate (sweepStep tl stage) M (stageInit tl startup stage pmb_array))) ∧
    (∀ fuel, fuel < M →
      DoTaskListOneStage tl startup stage fuel pmb_array = none ∧
      whileRounds tl stage fuel (stageInit tl startup stage pmb_array)
        = Nat.iterate (sweepStep tl stage) fuel (stageInit tl startup stage pmb_array) ∧
      (Nat.iterate (sweepStep tl stage) fuel (stageInit tl startup stage pmb_array)).nmb_left
        = (pmb_array.length : Int) ∧
      (Nat.iterate (sweepStep tl stage) fuel (stageInit tl startup stage pmb_array)).history
        = List.replicate fuel (List.replicate pmb_array.length TL_RUNNING)) ∧
    (Nat.iterate (sweepStep tl stage) M (stageInit tl startup stage pmb_array)).history
      = List.replicate (M - 1) (List.replicate pmb_array.length TL_RUNNING)
        ++ [List.replicate pmb_array.length TL_COMPLETE] ∧
    (Nat.iterate (sweepStep tl stage) M (stageInit tl startup stage pmb_array)).nmb_left = 0 ∧
    (Nat.iterate (sweepStep tl stage) M (stageInit tl startup stage pmb_array)).blocks
      = pmb_array.map (fun b => MeshBlock.mk (TaskState.mk (2 ^ M - 1) M 0)
          (DoCalls tl stage M (TaskState.Reset tl.ntasks) (startup b.data stage)).pmb) := by
  have hinit := stageInit_allAt tl startup stage M hc.1 pmb_array
  have hlen : (stageInit tl startup stage pmb_array).blocks.length = pmb_array.length := by
    simp [stageInit]
  have hne : (stageInit tl startup stage pmb_array).blocks ≠ [] := by
    intro h
    rw [h] at hlen
    simp at hlen
    omega
  have hleft : (stageInit tl startup stage pmb_array).nmb_left
      = (pending (stageInit tl startup stage pmb_array).blocks : Int) := by
    rw [pending_allAt M 0 _ hinit, if_neg (by omega), hlen]
    rfl
  have hit := chain_rounds_iterate tl startup stage M hM hc pmb_array hN
  have hhist : ∀ j, j ≤ M →
      (whileRounds tl stage j (stageInit tl startup stage pmb_array)).history
        = List.map (fun i => List.replicate pmb_array.length
            (if i + 1 = M then TL_COMPLETE else TL_RUNNING)) (List.range j) := by
    intro j hj
    rw [chain_rounds_history tl stage M hc j 0 _ (by omega) hinit hleft hne, hlen]
    simp [stageInit]
  obtain ⟨eM, _, zM⟩ := hit M (le_refl M)
  refine ⟨?_, ?_, ?_, ?_, ?_⟩
  · intro fuel hfuel
    have hstop : whileRounds tl stage fuel (stageInit tl startup stage pmb_array)
        = whileRounds tl stage M (stageInit tl startup stage pmb_array) := by
      obtain ⟨e, rfl⟩ : ∃ e, fuel = M + e := ⟨fuel - M, by omega⟩
      rw [whileRounds_add]
      exact whileRounds_stop tl stage e _ (by rw [zM rfl]; omega)
    unfold DoTaskListOneStage
    simp only [hstop]
    rw [if_neg (by rw [zM rfl]; omega), eM]
  · intro fuel hfuel
    obtain ⟨ef, gf, _⟩ := hit fuel (by omega)
    refine ⟨?_, ef, ?_, ?_⟩
    · have hpos : (whileRounds tl stage fuel
          (stageInit tl startup stage pmb_array)).nmb_left > 0 := by
        rw [gf hfuel]
        exact_mod_cast hN
      unfold DoTaskListOneStage
      simp only [hpos, if_true]
    · rw [← ef]
      exact gf hfuel
    · rw [← ef, hhist fuel (by omega), List.eq_replicate_iff]
      refine ⟨by simp, ?_⟩
      intro r hr
      obtain ⟨i, hi, rfl⟩ := List.mem_map.mp hr
      rw [if_neg (by have := List.mem_range.mp hi; omega)]
  · rw [← eM, hhist M (le_refl M)]
    obtain ⟨m, rfl⟩ : ∃ m, M = m + 1 := ⟨M - 1, by omega⟩
    rw [List.range_succ, List.map_append, Nat.add_sub_cancel]
    congr 1
    · rw [List.eq_replicate_iff]
      refine ⟨by simp, ?_⟩
      intro r hr
      obtain ⟨i, hi, rfl⟩ := List.mem_map.mp hr
      rw [if_neg (by have := List.mem_range.mp hi; omega)]
    · simp
  · rw [← eM]
    exact zM rfl
  · rw [← eM]
    obtain ⟨_, _, r3, _⟩ := chain_rounds tl stage M hc M 0 _ (by omega) hinit hleft hne
    have hb := (rounds_blocks tl stage M (stageInit tl startup stage pmb_array)).2
    rw [r3] at hb
    rw [hb]
    simp only [stageInit, List.map_map, Nat.add_sub_cancel_left]
    apply List.map_congr_left
    intro b _
    have hts := (chain_calls tl stage M hc M 0 (startup b.data stage) (by omega)).1
    simp only [Function.comp, callsBlock, hc.1, reset_eq_chainState, hts]
    simp [chainState]

/-- Witness of C7: the three-task chain with two blocks. Allowed three sweeps the driver
returns, both units having returned Running, Running, Complete and holding the state
`(7, 3, 0)`; allowed two sweeps it has not returned. -/
theorem C7_round_count_witness :
    (1 ≤ 3 ∧ IsChain chain3 0 3 ∧
      1 ≤ [MeshBlock.mk (TaskState.mk 0 0 0) 0, MeshBlock.mk (TaskState.mk 0 0 0) 5].length) ∧
    DoTaskListOneStage chain3 (fun d _ => d) 0 3
        [MeshBlock.mk (TaskState.mk 0 0 0) 0, MeshBlock.mk (TaskState.mk 0 0 0) 5]
      = some (StageState.mk
          [MeshBlock.mk (TaskState.mk 7 3 0) 3, MeshBlock.mk (TaskState.mk 7 3 0) 8] 0
          [[TL_RUNNING, TL_RUNNING], [TL_RUNNING, TL_RUNNING], [TL_COMPLETE, TL_COMPLETE]]) ∧
    DoTaskListOneStage chain3 (fun d _ => d) 0 2
        [MeshBlock.mk (TaskState.mk 0 0 0) 0, MeshBlock.mk (TaskState.mk 0 0 0) 5] = none ∧
    (∀ fuel, 3 ≤ fuel →
      DoTaskListOneStage chain3 (fun d _ => d) 0 fuel
          [MeshBlock.mk (TaskState.mk 0 0 0) 0, MeshBlock.mk (TaskState.mk 0 0 0) 5]
        = some (Nat.iterate (sweepStep chain3 0) 3 (stageInit chain3 (fun d _ => d) 0
            [MeshBlock.mk (TaskState.mk 0 0 0) 0, MeshBlock.mk (TaskState.mk 0 0 0) 5]))) :=
  ⟨⟨by decide, isChain_chain3, by decide⟩, rfl, rfl,
    (C7_round_count chain3 (fun d _ => d) 0 3 (by decide) isChain_chain3
      [MeshBlock.mk (TaskState.mk 0 0 0) 0, MeshBlock.mk (TaskState.mk 0 0 0) 5]
      (by decide)).1⟩

/-- C8 (a permanently failing task). For a graph whose identities are pairwise distinct
non-zero single bits, a task `j` of it and a unit `u` such that the action of `j` signals
Fail on every data unit `u` can hold (the set `Q`, which holds the data of `u` after the
startup hook and which the actions do not leave): after any number `n` of rounds of the
driver, the driver is still in its loop and has made `n` sweeps, unit `u` has
`num_tasks_left > 0`, the bit of task `j` is not in the `finished_tasks` of `u`, and no
call for `u` has returned `TL_COMPLETE`. Every unit `v` is after these rounds what `n`
successive calls on `v` alone make of it, from its own reset state and its own data, so
its progress does not depend on any other unit, stuck or not. -/
theorem C8_failing_task_keeps_unit_incomplete {β : Type} (tl : TaskList β)
    (startup : β → Int → β) (stage : Int) (hwf : DistinctBits tl) (Q : β → Prop)
    (j u : Nat) (hj : j < tl.ntasks)
    (hQ : ∀ i d, Q d → Q ((tl.task_list_ i).TaskFunc d stage).2)
    (hfail : ∀ d, Q d → ((tl.task_list_ j).TaskFunc d stage).1 = TASK_FAIL)
    (pmb_array : List (MeshBlock β)) (bu : MeshBlock β) (hu : pmb_array[u]? = some bu)
    (hQu : Q (startup bu.data stage)) (n : Nat) :
    (whileRounds tl stage n (stageInit tl startup stage pmb_array)).nmb_left > 0 ∧
    (whileRounds tl stage n (stageInit tl startup stage pmb_array)).history.length = n ∧
    (∃ b, (whileRounds tl stage n (stageInit tl startup stage pmb_array)).blocks[u]? = some b ∧
      b.tasks.num_tasks_left > 0 ∧ (tl.task_list_ j).task_id &&& b.tasks.finished_tasks = 0) ∧
    (∀ round ∈ (whileRounds tl stage n (stageInit tl startup stage pmb_array)).history,
      ∃ st, round[u]? = some st ∧ st ≠ TL_COMPLETE) ∧
    (∀ (v : Nat) (bv : MeshBlock β), pmb_array[v]? = some bv →
      (whileRounds tl stage n (stageInit tl startup stage pmb_array)).blocks[v]? =
        some (MeshBlock.mk
          (DoCalls tl stage n (TaskState.Reset tl.ntasks) (startup bv.data stage)).ts
          (DoCalls tl stage n (TaskState.Reset tl.ntasks) (startup bv.data stage)).pmb)) := by
  have hinit : StuckRun tl Q j u (stageInit tl startup stage pmb_array) := by
    refine ⟨⟨MeshBlock.mk (TaskState.Reset tl.ntasks) (startup bu.data stage), ?_, ?_⟩, ?_, ?_⟩
    · simp only [stageInit, List.getElem?_map, hu]; rfl
    · exact ⟨hQu, counted_reset tl, by simp [TaskState.Reset]⟩
    · intro round hr
      simp [stageInit] at hr
    · simp only [stageInit]
      have : pending (List.map (fun b : MeshBlock β =>
          MeshBlock.mk (TaskState.Reset tl.ntasks) (startup b.data stage)) pmb_array)
          ≤ pmb_array.length := by
        unfold pending
        exact le_trans (List.length_filter_le _ _) (by simp)
      exact_mod_cast this
  obtain ⟨hrun, hlen⟩ := stuckRun_rounds tl stage hwf Q j u hj hQ hfail n _ hinit
  have hlen' : (whileRounds tl stage n (stageInit tl startup stage pmb_array)).history.length
      = n := by
    rw [hlen]; simp [stageInit]
  refine ⟨stuckRun_guard tl Q j u hj _ hrun, hlen', ?_, hrun.2.1, ?_⟩
  · obtain ⟨b, hb, hst⟩ := hrun.1
    exact ⟨b, hb, stuckAt_left tl Q j hj b hst, hst.2.2⟩
  · intro v bv hv
    rw [(rounds_blocks tl stage n (stageInit tl startup stage pmb_array)).2, hlen']
    simp only [stageInit, List.map_map, List.getElem?_map, hv, List.length_nil, Nat.sub_zero]
    rfl


/-- Witness of C8 on two blocks of `stuck2`: block 0 holds data 0, on which task 1 fails
for ever; block 1 holds data 1 and completes. After three rounds block 0 still has a task
left and block 1 is complete. -/
theorem C8_failing_task_keeps_unit_incomplete_witness :
    (DistinctBits stuck2 ∧ 1 < stuck2.ntasks ∧
      (∀ i d, d = 0 → ((stuck2.task_list_ i).TaskFunc d 0).2 = 0) ∧
      (∀ d, d = 0 → ((stuck2.task_list_ 1).TaskFunc d 0).1 = TASK_FAIL)) ∧
    ((whileRounds stuck2 0 3 (stageInit stuck2 (fun d _ => d) 0
        [MeshBlock.mk (TaskState.mk 9 9 9) 0, MeshBlock.mk (TaskState.mk 9 9 9) 1])).blocks.map
      (fun b => b.tasks) = [TaskState.mk 1 1 1, TaskState.mk 3 2 0]) ∧
    ((whileRounds stuck2 0 3 (stageInit stuck2 (fun d _ => d) 0
        [MeshBlock.mk (TaskState.mk 9 9 9) 0, MeshBlock.mk (TaskState.mk 9 9 9) 1])).nmb_left > 0 ∧
    (whileRounds stuck2 0 3 (stageInit stuck2 (fun d _ => d) 0
        [MeshBlock.mk (TaskState.mk 9 9 9) 0, MeshBlock.mk (TaskState.mk 9 9 9) 1])).history.length
      = 3 ∧
    (∃ b, (whileRounds stuck2 0 3 (stageInit stuck2 (fun d _ => d) 0
        [MeshBlock.mk (TaskState.mk 9 9 9) 0, MeshBlock.mk (TaskState.mk 9 9 9) 1])).blocks[0]?
        = some b ∧
      b.tasks.num_tasks_left > 0 ∧
      (stuck2.task_list_ 1).task_id &&& b.tasks.finished_tasks = 0) ∧
    (∀ round ∈ (whileRounds stuck2 0 3 (stageInit stuck2 (fun d _ => d) 0
        [MeshBlock.mk (TaskState.mk 9 9 9) 0, MeshBlock.mk (TaskState.mk 9 9 9) 1])).history,
      ∃ st, round[0]? = some st ∧ st ≠ TL_COMPLETE) ∧
    (∀ (v : Nat) (bv : MeshBlock Nat),
      [MeshBlock.mk (TaskState.mk 9 9 9) 0, MeshBlock.mk (TaskState.mk 9 9 9) 1][v]? = some bv →
      (whileRounds stuck2 0 3 (stageInit stuck2 (fun d _ => d) 0
        [MeshBlock.mk (TaskState.mk 9 9 9) 0, MeshBlock.mk (TaskState.mk 9 9 9) 1])).blocks[v]? =
        some (MeshBlock.mk
          (DoCalls stuck2 0 3 (TaskState.Reset stuck2.ntasks) ((fun d _ => d) bv.data 0)).ts
          (DoCalls stuck2 0 3 (TaskState.Reset stuck2.ntasks)
            ((fun d _ => d) bv.data 0)).pmb))) := by
  have h1 : DistinctBits stuck2 := by decide
  have h2 : 1 < stuck2.ntasks := by decide
  have h3 : ∀ i d, d = 0 → ((stuck2.task_list_ i).TaskFunc d 0).2 = 0 := by
    intro i d hd
    by_cases hi : i = 0 <;> simp [stuck2, hi, hd]
  have h4 : ∀ d, d = 0 → ((stuck2.task_list_ 1).TaskFunc d 0).1 = TASK_FAIL := by
    intro d hd
    simp [stuck2, hd]
  exact ⟨⟨h1, h2, h3, h4⟩, by decide,
    C8_failing_task_keeps_unit_incomplete stuck2 (fun d _ => d) 0 h1 (fun d => d = 0) 1 0 h2
      h3 h4 [MeshBlock.mk (TaskState.mk 9 9 9) 0, MeshBlock.mk (TaskState.mk 9 9 9) 1]
      (MeshBlock.mk (TaskState.mk 9 9 9) 0) rfl rfl 3⟩

/-- Counterexample to C9 as stated. For the integrator value `"a\x00b"` (an `a`, a NUL
character, a `b`) the constructor throws, and the message it throws, which
`std::runtime_error` takes as a C string, is
"### FATAL ERROR in Radiation task list\nintegrator=a": it contains neither the offending
value nor the list of valid choices. -/
theorem C9_scheme_validation_counterexample :
    (RadiationIntegratorTaskList.new exampleNames id "a\x00b" exampleMem).1
      = Except.error "### FATAL ERROR in Radiation task list\nintegrator=a" ∧
    ¬ Contains "### FATAL ERROR in Radiation task list\nintegrator=a" "a\x00b" ∧
    ¬ Contains "### FATAL ERROR in Radiation task list\nintegrator=a"
      "\x7bjeans, six_ray, const\x7d" := by
  refine ⟨rfl, ?_, ?_⟩
  · intro h
    have := contains_mem _ _ h (Char.ofNat 0) (by decide)
    revert this
    decide
  · intro h
    have := contains_mem _ _ h (Char.ofNat 123) (by decide)
    revert this
    decide

/-- C9 (scheme validation), amended. Constructing a `RadiationIntegratorTaskList` throws if
and only if the configured integrator is none of "jeans", "six_ray", "const". When it
throws, the message is the C string of the text written to `msg`, that is the text up to
its first NUL character: it contains the offending integrator value up to the first NUL
character of that value, and, when the value has no NUL character, the whole value and the
list of valid choices `{jeans, six_ray, const}`; no descriptor has been added (`ntasks`
is still 0). For "foo" it throws. -/
theorem C9_scheme_validation {β : Type} (names : RadiationIntegratorTaskNames)
    (UpdateRadJeans : β → β) (integrator : String) (mem : Nat → Task β) :
    ((∃ msg, (RadiationIntegratorTaskList.new names UpdateRadJeans integrator mem).1
        = Except.error msg) ↔
      (integrator ≠ "jeans" ∧ integrator ≠ "six_ray" ∧ integrator ≠ "const")) ∧
    (∀ msg, (RadiationIntegratorTaskList.new names UpdateRadJeans integrator mem).1
        = Except.error msg →
      msg = c_str (invalidIntegratorMessage integrator) ∧
      Contains msg (c_str integrator) ∧
      ((∀ c ∈ integrator.data, c ≠ Char.ofNat 0) →
        Contains msg integrator ∧ Contains msg "\x7bjeans, six_ray, const\x7d") ∧
      (RadiationIntegratorTaskList.new names UpdateRadJeans integrator mem).2.base.ntasks = 0) ∧
    (∃ msg, (RadiationIntegratorTaskList.new names UpdateRadJeans "foo" mem).1
        = Except.error msg) := by
  have hbad : ∀ s : String, s ≠ "jeans" → s ≠ "six_ray" → s ≠ "const" →
      RadiationIntegratorTaskList.new names UpdateRadJeans s mem =
        (Except.error (c_str (invalidIntegratorMessage s)),
          RadiationIntegratorTaskList.mk (TaskList.new mem) 1 s) := by
    intro s h1 h2 h3
    simp [RadiationIntegratorTaskList.new, h1, h2, h3]
  have hgood : (integrator = "jeans" ∨ integrator = "six_ray" ∨ integrator = "const") →
      (RadiationIntegratorTaskList.new names UpdateRadJeans integrator mem).1 = Except.ok () := by
    rintro (h | h | h)
    · simp [RadiationIntegratorTaskList.new, AddRadiationIntegratorTask, h]
    · subst h
      simp [RadiationIntegratorTaskList.new]
    · subst h
      simp [RadiationIntegratorTaskList.new, AddRadiationIntegratorTask, names.distinct.symm]
  refine ⟨⟨?_, ?_⟩, ?_, ?_⟩
  · rintro ⟨msg, hmsg⟩
    by_contra hne
    have : integrator = "jeans" ∨ integrator = "six_ray" ∨ integrator = "const" := by
      by_contra hall
      push_neg at hall
      exact hne hall
    rw [hgood this] at hmsg
    exact absurd hmsg (by simp)
  · rintro ⟨h1, h2, h3⟩
    exact ⟨_, by rw [hbad integrator h1 h2 h3]⟩
  · intro msg hmsg
    have hne : integrator ≠ "jeans" ∧ integrator ≠ "six_ray" ∧ integrator ≠ "const" := by
      by_contra hne
      have : integrator = "jeans" ∨ integrator = "six_ray" ∨ integrator = "const" := by
        by_contra hall
        push_neg at hall
        exact hne hall
      rw [hgood this] at hmsg
      exact absurd hmsg (by simp)
    rw [hbad integrator hne.1 hne.2.1 hne.2.2] at hmsg ⊢
    have hm : msg = c_str (invalidIntegratorMessage integrator) := by
      simp only [Except.error.injEq] at hmsg
      exact hmsg.symm
    subst hm
    refine ⟨rfl, c_str_invalidIntegratorMessage_value integrator, ?_, rfl⟩
    intro hn
    rw [c_str_invalidIntegratorMessage integrator hn]
    exact ⟨invalidIntegratorMessage_value integrator,
      invalidIntegratorMessage_choices integrator⟩
  · exact ⟨_, by rw [hbad "foo" (by decide) (by decide) (by decide)]⟩

/-- Witness of C9 (amended) for "foo": the constructor throws the whole message of lines
53-55 with `foo` and the list of choices in it, and leaves `ntasks = 0`. -/
theorem C9_scheme_validation_witness :
    (RadiationIntegratorTaskList.new exampleNames id "foo" exampleMem).1 = Except.error
      "### FATAL ERROR in Radiation task list\nintegrator=foo not valid radiation integrator, \nchoose from \x7bjeans, six_ray, const\x7d\n" ∧
    (Contains
        "### FATAL ERROR in Radiation task list\nintegrator=foo not valid radiation integrator, \nchoose from \x7bjeans, six_ray, const\x7d\n"
        "foo" ∧
      Contains
        "### FATAL ERROR in Radiation task list\nintegrator=foo not valid radiation integrator, \nchoose from \x7bjeans, six_ray, const\x7d\n"
        "\x7bjeans, six_ray, const\x7d") ∧
    (RadiationIntegratorTaskList.new exampleNames id "foo" exampleMem).2.base.ntasks = 0 :=
  ⟨rfl, ((C9_scheme_validation exampleNames id "foo" exampleMem).2.1 _ rfl).2.2.1 (by decide),
    ((C9_scheme_validation exampleNames id "foo" exampleMem).2.1 _ rfl).2.2.2⟩

/-- C10 (binding an identity). For every task list, every `id` and every `dep`:
if `id` is neither `INT_LOC_JEANS` nor `INT_CONST`, `AddRadiationIntegratorTask(id, dep)`
throws a message that contains "Invalid Task" followed by the id, and leaves `ntasks` and
the descriptors of index below `ntasks` as they were; if `id` is `INT_LOC_JEANS` or
`INT_CONST` it does not throw, the descriptor at index `ntasks` (the old value) is exactly
`id`, `dep` and the matching action (`LocalIntegratorJeans`, `ConstRadiation`), the
descriptors below are unchanged and `ntasks` has grown by exactly one. -/
theorem C10_add_task {β : Type} (names : RadiationIntegratorTaskNames)
    (UpdateRadJeans : β → β) (tl : TaskList β) (id dep : Nat) :
    (id ≠ names.INT_LOC_JEANS → id ≠ names.INT_CONST →
      (∃ msg, (AddRadiationIntegratorTask names UpdateRadJeans tl id dep).1 = Except.error msg ∧
        Contains msg ("Invalid Task " ++ toString id)) ∧
      (AddRadiationIntegratorTask names UpdateRadJeans tl id dep).2.ntasks = tl.ntasks ∧
      ∀ i, i < tl.ntasks →
        (AddRadiationIntegratorTask names UpdateRadJeans tl id dep).2.task_list_ i
          = tl.task_list_ i) ∧
    (id = names.INT_LOC_JEANS ∨ id = names.INT_CONST →
      (AddRadiationIntegratorTask names UpdateRadJeans tl id dep).1 = Except.ok () ∧
      (AddRadiationIntegratorTask names UpdateRadJeans tl id dep).2.ntasks = tl.ntasks + 1 ∧
      (AddRadiationIntegratorTask names UpdateRadJeans tl id dep).2.task_list_ tl.ntasks
        = Task.mk id dep (if id = names.INT_LOC_JEANS then LocalIntegratorJeans UpdateRadJeans
            else ConstRadiation) ∧
      ∀ i, i < tl.ntasks →
        (AddRadiationIntegratorTask names UpdateRadJeans tl id dep).2.task_list_ i
          = tl.task_list_ i) := by
  constructor
  · intro h1 h2
    simp only [AddRadiationIntegratorTask, h1, h2, if_false]
    refine ⟨⟨_, rfl, by rw [c_str_invalidTaskMessage]; exact invalidTaskMessage_id id⟩,
      trivial, ?_⟩
    intro i hi
    exact Function.update_noteq (by omega) _ _
  · rintro (h | h)
    · simp only [AddRadiationIntegratorTask, h, if_true]
      refine ⟨trivial, trivial, by simp, ?_⟩
      intro i hi
      exact Function.update_noteq (by omega) _ _
    · have hne : id ≠ names.INT_LOC_JEANS := by
        rw [h]; exact names.distinct.symm
      simp only [AddRadiationIntegratorTask, hne, if_false]
      simp only [h, if_true]
      refine ⟨trivial, trivial, ?_, ?_⟩
      · simp [names.distinct.symm]
      · intro i hi
        exact Function.update_noteq (by omega) _ _

/-- Witness of C10 on a list of one descriptor: identity 7 is refused with the message
"Invalid Task 7", identity `INT_CONST = 2` is appended at index 1. -/
theorem C10_add_task_witness :
    ((7 : Nat) ≠ exampleNames.INT_LOC_JEANS ∧ (7 : Nat) ≠ exampleNames.INT_CONST ∧
      ((2 : Nat) = exampleNames.INT_LOC_JEANS ∨ (2 : Nat) = exampleNames.INT_CONST)) ∧
    (AddRadiationIntegratorTask exampleNames id (TaskList.mk 1 0 exampleMem) 7 0).1
      = Except.error "### FATAL ERROR in Add Radiation Task\nInvalid Task 7 is specified\n" ∧
    ((∃ msg, (AddRadiationIntegratorTask exampleNames id (TaskList.mk 1 0 exampleMem) 7 0).1
        = Except.error msg ∧ Contains msg ("Invalid Task " ++ toString 7)) ∧
      (AddRadiationIntegratorTask exampleNames id (TaskList.mk 1 0 exampleMem) 7 0).2.ntasks
        = (TaskList.mk 1 0 exampleMem).ntasks ∧
      ∀ i, i < (TaskList.mk 1 0 exampleMem).ntasks →
        (AddRadiationIntegratorTask exampleNames id (TaskList.mk 1 0 exampleMem) 7 0).2.task_list_ i
          = (TaskList.mk 1 0 exampleMem).task_list_ i) ∧
    ((AddRadiationIntegratorTask exampleNames id (TaskList.mk 1 0 exampleMem) 2 0).1
        = Except.ok () ∧
      (AddRadiationIntegratorTask exampleNames id (TaskList.mk 1 0 exampleMem) 2 0).2.ntasks
        = (TaskList.mk 1 0 exampleMem).ntasks + 1 ∧
      (AddRadiationIntegratorTask exampleNames id (TaskList.mk 1 0 exampleMem) 2 0).2.task_list_
          (TaskList.mk 1 0 exampleMem).ntasks
        = Task.mk 2 0 (if 2 = exampleNames.INT_LOC_JEANS then LocalIntegratorJeans id
            else ConstRadiation) ∧
      ∀ i, i < (TaskList.mk 1 0 exampleMem).ntasks →
        (AddRadiationIntegratorTask exampleNames id (TaskList.mk 1 0 exampleMem) 2 0).2.task_list_ i
          = (TaskList.mk 1 0 exampleMem).task_list_ i) :=
  ⟨⟨by decide, by decide, Or.inr rfl⟩, rfl,
    (C10_add_task exampleNames id (TaskList.mk 1 0 exampleMem) 7 0).1 (by decide) (by decide),
    (C10_add_task exampleNames id (TaskList.mk 1 0 exampleMem) 2 0).2 (Or.inr rfl)⟩

/-- Counterexample to C11 as stated: on the three-task chain, the progress state left by
three calls has `num_tasks_left = 0`, and the next call returns `TL_NOTHING_TO_DO`, which
is not the Complete status `TL_COMPLETE`. -/
theorem C11_call_after_completion_counterexample :
    (DoCalls chain3 0 3 (TaskState.Reset chain3.ntasks) 0).ts.num_tasks_left = 0 ∧
    (DoAllAvailableTasks chain3 3 0
      (DoCalls chain3 0 3 (TaskState.Reset chain3.ntasks) 0).ts).status = TL_NOTHING_TO_DO ∧
    (DoAllAvailableTasks chain3 3 0
      (DoCalls chain3 0 3 (TaskState.Reset chain3.ntasks) 0).ts).status ≠ TL_COMPLETE := by
  decide

/-- C11 (call after completion), amended. For every graph, every block data and every
progress state with `num_tasks_left == 0`, `DoAllAvailableTasks` returns at once the
status `TL_NOTHING_TO_DO` (not `TL_COMPLETE`), invokes no action, and leaves the progress
state and the data of the block unchanged, so that calling again gives the same. -/
theorem C11_call_after_completion {β : Type} (tl : TaskList β) (stage : Int)
    (ts : TaskState) (pmb : β) (h0 : ts.num_tasks_left = 0) :
    (DoAllAvailableTasks tl pmb stage ts).status = TL_NOTHING_TO_DO ∧
    (DoAllAvailableTasks tl pmb stage ts).log = [] ∧
    (DoAllAvailableTasks tl pmb stage ts).ts = ts ∧
    (DoAllAvailableTasks tl pmb stage ts).pmb = pmb ∧
    DoAllAvailableTasks tl (DoAllAvailableTasks tl pmb stage ts).pmb stage
        (DoAllAvailableTasks tl pmb stage ts).ts
      = DoAllAvailableTasks tl pmb stage ts := by
  rw [call_done tl stage ts pmb h0]
  refine ⟨rfl, rfl, rfl, rfl, ?_⟩
  exact call_done tl stage ts pmb h0

/-- Witness of C11 (amended) on the progress state `(7, 3, 0)` of the completed chain. -/
theorem C11_call_after_completion_witness :
    (TaskState.mk 7 3 0).num_tasks_left = 0 ∧
    (DoAllAvailableTasks chain3 3 0 (TaskState.mk 7 3 0)).status = TL_NOTHING_TO_DO ∧
    (DoAllAvailableTasks chain3 3 0 (TaskState.mk 7 3 0)).log = [] ∧
    (DoAllAvailableTasks chain3 3 0 (TaskState.mk 7 3 0)).ts = TaskState.mk 7 3 0 ∧
    (DoAllAvailableTasks chain3 3 0 (TaskState.mk 7 3 0)).pmb = 3 ∧
    DoAllAvailableTasks chain3 (DoAllAvailableTasks chain3 3 0 (TaskState.mk 7 3 0)).pmb 0
        (DoAllAvailableTasks chain3 3 0 (TaskState.mk 7 3 0)).ts
      = DoAllAvailableTasks chain3 3 0 (TaskState.mk 7 3 0) :=
  ⟨rfl, C11_call_after_completion chain3 0 (TaskState.mk 7 3 0) 3 rfl⟩

/-- Counterexample to C12 as stated. On `stuck2` with one block whose data is 0 (the
action of task 1 signals Fail on every invocation) and on `orphan1` (the dependency of its
only task is a bit that no task provides), the stage can never complete, and there is no
number of rounds after which `DoTaskListOneStage` has stopped: it sweeps for ever, and
the driver has no error to report. -/
theorem C12_deadlock_detection_counterexample :
    (¬ ∃ n : Nat, (DoTaskListOneStage stuck2 (fun d _ => d) 0 n
        [MeshBlock.mk (TaskState.mk 0 0 0) 0]).isSome = true) ∧
    (¬ ∃ n : Nat, (DoTaskListOneStage orphan1 (fun d _ => d) 0 n
        [MeshBlock.mk (TaskState.mk 0 0 0) 0]).isSome = true) := by
  constructor
  · rintro ⟨n, hn⟩
    have := (driver_never_returns stuck2 (fun d _ => d) 0 (by decide) (fun d => d = 0) 1 0
      (by decide) stuck2_closed stuck2_cannot [MeshBlock.mk (TaskState.mk 0 0 0) 0]
      (MeshBlock.mk (TaskState.mk 0 0 0) 0) rfl rfl n).2.2
    rw [this] at hn
    simp at hn
  · rintro ⟨n, hn⟩
    have := (driver_never_returns orphan1 (fun d _ => d) 0 (by decide) (fun _ => True) 0 0
      (by decide) (fun _ _ _ => trivial) orphan1_cannot [MeshBlock.mk (TaskState.mk 0 0 0) 0]
      (MeshBlock.mk (TaskState.mk 0 0 0) 0) rfl trivial n).2.2
    rw [this] at hn
    simp at hn

/-- C12 (deadlock detection), amended. The driver has no deadlock detection. For a graph
whose identities are pairwise distinct non-zero single bits, when a task `j` can never be
completed for a unit `u` (its action signals Fail on every data `u` can hold, or its
dependency names a bit that no task provides), `DoTaskListOneStage` does not stop after any
number of rounds and reports nothing: after every number `n` of rounds the guard
`nmb_left > 0` still holds, `n` sweeps have been made, and the driver has not returned. -/
theorem C12_deadlock_detection {β : Type} (tl : TaskList β) (startup : β → Int → β)
    (stage : Int) (hwf : DistinctBits tl) (Q : β → Prop) (j u : Nat) (hj : j < tl.ntasks)
    (hQ : ∀ i d, Q d → Q ((tl.task_list_ i).TaskFunc d stage).2)
    (hstuck : CannotComplete tl stage Q j)
    (pmb_array : List (MeshBlock β)) (bu : MeshBlock β) (hu : pmb_array[u]? = some bu)
    (hQu : Q (startup bu.data stage)) (n : Nat) :
    (whileRounds tl stage n (stageInit tl startup stage pmb_array)).nmb_left > 0 ∧
    (whileRounds tl stage n (stageInit tl startup stage pmb_array)).history.length = n ∧
    DoTaskListOneStage tl startup stage n pmb_array = none :=
  driver_never_returns tl startup stage hwf Q j u hj hQ hstuck pmb_array bu hu hQu n

/-- Witness of C12 (amended) on `orphan1` with one block: after four rounds the driver is
still in its loop, the only unit having returned `TL_STUCK` in every sweep. -/
theorem C12_deadlock_detection_witness :
    (DistinctBits orphan1 ∧ 0 < orphan1.ntasks ∧ CannotComplete orphan1 0 (fun _ => True) 0) ∧
    (whileRounds orphan1 0 4 (stageInit orphan1 (fun d _ => d) 0
      [MeshBlock.mk (TaskState.mk 0 0 0) 0])).history
      = [[TL_STUCK], [TL_STUCK], [TL_STUCK], [TL_STUCK]] ∧
    ((whileRounds orphan1 0 4 (stageInit orphan1 (fun d _ => d) 0
        [MeshBlock.mk (TaskState.mk 0 0 0) 0])).nmb_left > 0 ∧
      (whileRounds orphan1 0 4 (stageInit orphan1 (fun d _ => d) 0
        [MeshBlock.mk (TaskState.mk 0 0 0) 0])).history.length = 4 ∧
      DoTaskListOneStage orphan1 (fun d _ => d) 0 4 [MeshBlock.mk (TaskState.mk 0 0 0) 0]
        = none) :=
  ⟨⟨by decide, by decide, orphan1_cannot⟩, by decide,
    C12_deadlock_detection orphan1 (fun d _ => d) 0 (by decide) (fun _ => True) 0 0
      (by decide) (fun _ _ _ => trivial) orphan1_cannot [MeshBlock.mk (TaskState.mk 0 0 0) 0]
      (MeshBlock.mk (TaskState.mk 0 0 0) 0) rfl trivial 4⟩

/-- Counterexample to C13 as stated. Two successive calls
`AddRadiationIntegratorTask(INT_CONST, NONE)` on an empty list, well within the width,
both succeed: the second call, which adds an identity already present, does not fail, and
the graph obtained has two descriptors with the same identity. -/
theorem C13_builder_invariant_counterexample :
    (addAll exampleNames id (TaskList.new exampleMem)
      [(exampleNames.INT_CONST, NONE), (exampleNames.INT_CONST, NONE)]).1 = Except.ok () ∧
    (addAll exampleNames id (TaskList.new exampleMem)
      [(exampleNames.INT_CONST, NONE), (exampleNames.INT_CONST, NONE)]).2.ntasks = 2 ∧
    2 ≤ width ∧
    ((addAll exampleNames id (TaskList.new exampleMem)
      [(exampleNames.INT_CONST, NONE), (exampleNames.INT_CONST, NONE)]).2.task_list_ 0).task_id
      = ((addAll exampleNames id (TaskList.new exampleMem)
        [(exampleNames.INT_CONST, NONE), (exampleNames.INT_CONST, NONE)]).2.task_list_
          1).task_id ∧
    ¬ DistinctBits (addAll exampleNames id (TaskList.new exampleMem)
      [(exampleNames.INT_CONST, NONE), (exampleNames.INT_CONST, NONE)]).2 := by
  refine ⟨rfl, rfl, by decide, rfl, ?_⟩
  decide

/-- C13 (graph-definition invariant), amended. As long as the graph has room (fewer than
`width` descriptors), the builder checks the identity and nothing else: a call
`AddRadiationIntegratorTask(id, dep)` succeeds exactly when `id` is `INT_LOC_JEANS` or
`INT_CONST`, also when that identity is already in the graph, its only error is the
"Invalid Task" one, and it leaves at most `width` descriptors. Hence a sequence of calls
with these identities that keeps the number of descriptors within `width` succeeds and
leaves at most `width` descriptors, one per call, in call order, with the identity and
the dependency given, duplicates included. The graphs the constructor builds have at most
one descriptor. Nothing is stated of a call on a graph that already has `width`
descriptors. -/
theorem C13_builder_invariant {β : Type} (names : RadiationIntegratorTaskNames)
    (UpdateRadJeans : β → β) (tl : TaskList β) :
    (∀ id dep : Nat, tl.ntasks < width →
      ((AddRadiationIntegratorTask names UpdateRadJeans tl id dep).1 = Except.ok () ↔
        (id = names.INT_LOC_JEANS ∨ id = names.INT_CONST)) ∧
      (∀ msg, (AddRadiationIntegratorTask names UpdateRadJeans tl id dep).1 = Except.error msg →
        msg = invalidTaskMessage id) ∧
      (AddRadiationIntegratorTask names UpdateRadJeans tl id dep).2.ntasks ≤ width) ∧
    (∀ ids : List (Nat × Nat),
      (∀ p ∈ ids, p.1 = names.INT_LOC_JEANS ∨ p.1 = names.INT_CONST) →
      tl.ntasks + ids.length ≤ width →
      (addAll names UpdateRadJeans tl ids).1 = Except.ok () ∧
      (addAll names UpdateRadJeans tl ids).2.ntasks = tl.ntasks + ids.length ∧
      (addAll names UpdateRadJeans tl ids).2.ntasks ≤ width ∧
      (∀ i, i < tl.ntasks →
        (addAll names UpdateRadJeans tl ids).2.task_list_ i = tl.task_list_ i) ∧
      (∀ (k : Nat) (p : Nat × Nat), ids[k]? = some p →
        ((addAll names UpdateRadJeans tl ids).2.task_list_ (tl.ntasks + k)).task_id = p.1 ∧
        ((addAll names UpdateRadJeans tl ids).2.task_list_ (tl.ntasks + k)).dependency
          = p.2)) ∧
    (∀ (integrator : String) (mem : Nat → Task β),
      (RadiationIntegratorTaskList.new names UpdateRadJeans integrator mem).2.base.ntasks ≤ 1 ∧
      (RadiationIntegratorTaskList.new names UpdateRadJeans integrator mem).2.base.ntasks
        ≤ width) := by
  refine ⟨?_, ?_, ?_⟩
  · intro id dep hcap
    by_cases h : id = names.INT_LOC_JEANS ∨ id = names.INT_CONST
    · obtain ⟨f, hf⟩ := add_ok names UpdateRadJeans tl id dep h
      rw [hf]
      exact ⟨⟨fun _ => h, fun _ => rfl⟩, fun msg hmsg => by simp at hmsg, hcap⟩
    · have h1 : id ≠ names.INT_LOC_JEANS := fun e => h (Or.inl e)
      have h2 : id ≠ names.INT_CONST := fun e => h (Or.inr e)
      have hn : (AddRadiationIntegratorTask names UpdateRadJeans tl id dep).2.ntasks
          = tl.ntasks := by
        simp [AddRadiationIntegratorTask, h1, h2]
      rw [add_error names UpdateRadJeans tl id dep h1 h2, hn]
      refine ⟨⟨fun e => by simp at e, fun e => absurd e h⟩, ?_, by omega⟩
      intro msg hmsg
      simp only [Except.error.injEq] at hmsg
      exact hmsg.symm
  · intro ids hids hcap
    obtain ⟨a1, a2, a3, a4⟩ := addAll_ok names UpdateRadJeans ids tl hids
    exact ⟨a1, a2, by omega, a3, a4⟩
  · intro integrator mem
    have := new_ntasks_le names UpdateRadJeans integrator mem
    exact ⟨this, le_trans this (by decide)⟩

/-- Witness of C13 (amended): three calls with the identities `INT_LOC_JEANS`,
`INT_CONST`, `INT_CONST` on an empty list succeed and leave three descriptors. -/
theorem C13_builder_invariant_witness :
    ((∀ p ∈ [(exampleNames.INT_LOC_JEANS, NONE), (exampleNames.INT_CONST, 1),
        (exampleNames.INT_CONST, 1)],
        p.1 = exampleNames.INT_LOC_JEANS ∨ p.1 = exampleNames.INT_CONST) ∧
      (TaskList.new exampleMem).ntasks + 3 ≤ width) ∧
    ((addAll exampleNames id (TaskList.new exampleMem)
        [(exampleNames.INT_LOC_JEANS, NONE), (exampleNames.INT_CONST, 1),
          (exampleNames.INT_CONST, 1)]).1 = Except.ok () ∧
      (addAll exampleNames id (TaskList.new exampleMem)
        [(exampleNames.INT_LOC_JEANS, NONE), (exampleNames.INT_CONST, 1),
          (exampleNames.INT_CONST, 1)]).2.ntasks = (TaskList.new exampleMem).ntasks + 3 ∧
      (addAll exampleNames id (TaskList.new exampleMem)
        [(exampleNames.INT_LOC_JEANS, NONE), (exampleNames.INT_CONST, 1),
          (exampleNames.INT_CONST, 1)]).2.ntasks ≤ width ∧
      (∀ i, i < (TaskList.new exampleMem).ntasks →
        (addAll exampleNames id (TaskList.new exampleMem)
          [(exampleNames.INT_LOC_JEANS, NONE), (exampleNames.INT_CONST, 1),
            (exampleNames.INT_CONST, 1)]).2.task_list_ i
          = (TaskList.new exampleMem).task_list_ i) ∧
      (∀ (k : Nat) (p : Nat × Nat),
        [(exampleNames.INT_LOC_JEANS, NONE), (exampleNames.INT_CONST, 1),
          (exampleNames.INT_CONST, 1)][k]? = some p →
        ((addAll exampleNames id (TaskList.new exampleMem)
          [(exampleNames.INT_LOC_JEANS, NONE), (exampleNames.INT_CONST, 1),
            (exampleNames.INT_CONST, 1)]).2.task_list_
            ((TaskList.new exampleMem).ntasks + k)).task_id = p.1 ∧
        ((addAll exampleNames id (TaskList.new exampleMem)
          [(exampleNames.INT_LOC_JEANS, NONE), (exampleNames.INT_CONST, 1),
            (exampleNames.INT_CONST, 1)]).2.task_list_
            ((TaskList.new exampleMem).ntasks + k)).dependency = p.2)) :=
  ⟨⟨by decide, by decide⟩,
    (C13_builder_invariant exampleNames id (TaskList.new exampleMem)).2.1
      [(exampleNames.INT_LOC_JEANS, NONE), (exampleNames.INT_CONST, 1),
        (exampleNames.INT_CONST, 1)] (by decide) (by decide)⟩

/-- C14 (SuccessContinue drains the graph in one call). For every non-empty graph whose
identities are pairwise distinct non-zero single bits, registered in topological order,
in which every action signals `TASK_NEXT`: the first call of `DoAllAvailableTasks` after
a reset returns `TL_COMPLETE`, has invoked the actions of tasks `0, 1, ..., ntasks - 1`,
each once and in this order, and leaves `num_tasks_left = 0`, `indx_first_task = ntasks`
and `finished_tasks` = the OR of all identities. Whereas, on any graph and in any state,
an invocation that signals plain `TASK_SUCCESS` is the last invocation of its call, and
the call returns `TL_RUNNING` when tasks remain. -/
theorem C14_success_continue_drains {β : Type} (tl : TaskList β) (stage : Int)
    (hne : 0 < tl.ntasks) (hwf : DistinctBits tl) (htopo : Topological tl)
    (hnext : ∀ i, i < tl.ntasks → ∀ d, ((tl.task_list_ i).TaskFunc d stage).1 = TASK_NEXT)
    (pmb : β) :
    (DoAllAvailableTasks tl pmb stage (TaskState.Reset tl.ntasks)).status = TL_COMPLETE ∧
    (DoAllAvailableTasks tl pmb stage (TaskState.Reset tl.ntasks)).log.map Invocation.index
      = List.range tl.ntasks ∧
    (DoAllAvailableTasks tl pmb stage (TaskState.Reset tl.ntasks)).ts
      = TaskState.mk (allIds tl) tl.ntasks 0 ∧
    (∀ (tl' : TaskList β) (ts : TaskState) (pmb' : β) (l₁ l₂ : List Invocation)
      (e : Invocation),
      (DoAllAvailableTasks tl' pmb' stage ts).log = l₁ ++ e :: l₂ → e.ret = TASK_SUCCESS →
      l₂ = [] ∧
      ((DoAllAvailableTasks tl' pmb' stage ts).ts.num_tasks_left ≠ 0 →
        (DoAllAvailableTasks tl' pmb' stage ts).status = TL_RUNNING)) := by
  obtain ⟨n, hn⟩ : ∃ n, tl.ntasks = n + 1 := ⟨tl.ntasks - 1, by omega⟩
  have h0 : (TaskState.Reset tl.ntasks).num_tasks_left ≠ 0 := by
    simp [TaskState.Reset]; omega
  have hscan := scan_drain tl stage hwf htopo hnext n 0 pmb (by omega)
  have hreset : TaskState.Reset tl.ntasks = TaskState.mk (orIds tl 0) 0 ((n : Int) + 1) := by
    simp [TaskState.Reset, orIds, hn]
  have hcall : DoAllAvailableTasks tl pmb stage (TaskState.Reset tl.ntasks)
      = scan tl stage (n + 1) 0 0 (TaskState.mk (orIds tl 0) 0 ((n : Int) + 1)) pmb := by
    unfold DoAllAvailableTasks
    rw [if_neg h0, hreset, hn]
    rfl
  rw [hcall]
  refine ⟨hscan.1, ?_, hscan.2.1, ?_⟩
  · rw [hscan.2.2, hn, List.range_eq_range']
  · intro tl' ts pmb' l₁ l₂ e hlog hret
    exact call_success_last tl' stage ts pmb' l₁ l₂ e hlog hret

/-- Witness of C14 on the three-task chain with SuccessContinue actions: one call runs
tasks 0, 1, 2 and completes; and on the chain with plain Success the call stops after
task 0 with `TL_RUNNING`. -/
theorem C14_success_continue_drains_witness :
    (0 < chainNext3.ntasks ∧ DistinctBits chainNext3 ∧ Topological chainNext3 ∧
      (∀ i, i < chainNext3.ntasks →
        ∀ d, ((chainNext3.task_list_ i).TaskFunc d 0).1 = TASK_NEXT)) ∧
    (DoAllAvailableTasks chainNext3 0 0 (TaskState.Reset chainNext3.ntasks)).log
      = [Invocation.mk 0 0 TASK_NEXT, Invocation.mk 1 1 TASK_NEXT, Invocation.mk 2 3 TASK_NEXT] ∧
    (DoAllAvailableTasks chain3 0 0 (TaskState.Reset chain3.ntasks)).log
      = [] ++ Invocation.mk 0 0 TASK_SUCCESS :: [] ∧
    (DoAllAvailableTasks chain3 0 0 (TaskState.Reset chain3.ntasks)).status = TL_RUNNING ∧
    ((DoAllAvailableTasks chainNext3 0 0 (TaskState.Reset chainNext3.ntasks)).status
        = TL_COMPLETE ∧
      (DoAllAvailableTasks chainNext3 0 0 (TaskState.Reset chainNext3.ntasks)).log.map
          Invocation.index = List.range chainNext3.ntasks ∧
      (DoAllAvailableTasks chainNext3 0 0 (TaskState.Reset chainNext3.ntasks)).ts
        = TaskState.mk (allIds chainNext3) chainNext3.ntasks 0 ∧
      (∀ (tl' : TaskList Nat) (ts : TaskState) (pmb' : Nat) (l₁ l₂ : List Invocation)
        (e : Invocation),
        (DoAllAvailableTasks tl' pmb' 0 ts).log = l₁ ++ e :: l₂ → e.ret = TASK_SUCCESS →
        l₂ = [] ∧
        ((DoAllAvailableTasks tl' pmb' 0 ts).ts.num_tasks_left ≠ 0 →
          (DoAllAvailableTasks tl' pmb' 0 ts).status = TL_RUNNING))) := by
  have h1 : 0 < chainNext3.ntasks := by decide
  have h2 : DistinctBits chainNext3 := by decide
  have h3 : Topological chainNext3 := by decide
  have h4 : ∀ i, i < chainNext3.ntasks →
      ∀ d, ((chainNext3.task_list_ i).TaskFunc d 0).1 = TASK_NEXT := by
    intro i _ d
    rfl
  exact ⟨⟨h1, h2, h3, h4⟩, by decide, by decide, by decide,
    C14_success_continue_drains chainNext3 0 h1 h2 h3 h4 0⟩

/-- Counterexample to C15 as stated. On `failFirst3` (three independent tasks, the first
always failing), the first call after a reset invokes task 0, which signals Fail, then
task 1, which signals plain Success, and returns `TL_RUNNING`: task 2, a later task that is
unfinished and whose dependency is satisfied, is not invoked in that call. And on the
completed chain, a reachable state, a call invokes no action at all and returns
`TL_NOTHING_TO_DO`, not `TL_STUCK`. -/
theorem C15_fail_is_absorbed_counterexample :
    ((DoAllAvailableTasks failFirst3 0 0 (TaskState.Reset failFirst3.ntasks)).log
        = [Invocation.mk 0 0 TASK_FAIL, Invocation.mk 1 0 TASK_SUCCESS] ∧
      (DoAllAvailableTasks failFirst3 0 0 (TaskState.Reset failFirst3.ntasks)).status
        = TL_RUNNING ∧
      (0 < 2 ∧ 2 < failFirst3.ntasks ∧ Runnable failFirst3 0 2) ∧
      ¬ ∃ e ∈ (DoAllAvailableTasks failFirst3 0 0 (TaskState.Reset failFirst3.ntasks)).log,
        e.index = 2) ∧
    ((DoCalls chain3 0 3 (TaskState.Reset chain3.ntasks) 0).ts = TaskState.mk 7 3 0 ∧
      (DoAllAvailableTasks chain3 3 0 (TaskState.mk 7 3 0)).log = [] ∧
      (DoAllAvailableTasks chain3 3 0 (TaskState.mk 7 3 0)).status = TL_NOTHING_TO_DO ∧
      (DoAllAvailableTasks chain3 3 0 (TaskState.mk 7 3 0)).status ≠ TL_STUCK) := by
  decide

/-- C15 (Fail is absorbed), amended. For every progress state: on a runnable task whose
action signals Fail, the loop records the invocation and goes on at the next index with
the same `finished_tasks`, `num_tasks_left` and `indx_first_task` (and `skip + 1`). On a
graph with distinct identity bits, the failed task is still not done when the call ends,
and the first later task in registration order that is not done and whose dependency is
satisfied has its action invoked in the same call (the call may end with that task, so
tasks after it need not be invoked). A call made with `num_tasks_left ≠ 0` in which every
invoked action signals Fail returns `TL_STUCK` with `finished_tasks` and `num_tasks_left`
unchanged; made with `num_tasks_left = 0` it returns `TL_NOTHING_TO_DO`. -/
theorem C15_fail_is_absorbed {β : Type} (tl : TaskList β) (stage : Int)
    (hwf : DistinctBits tl) (ts : TaskState) (pmb : β) :
    (∀ (n i skip : Nat), Runnable tl ts.finished_tasks i →
      ((tl.task_list_ i).TaskFunc pmb stage).1 = TASK_FAIL →
      scan tl stage (n + 1) i skip ts pmb =
        Outcome.record (Invocation.mk i ts.finished_tasks TASK_FAIL)
          (scan tl stage n (i + 1) (skip + 1) ts ((tl.task_list_ i).TaskFunc pmb stage).2)) ∧
    (∀ e ∈ (DoAllAvailableTasks tl pmb stage ts).log, e.ret = TASK_FAIL →
      (tl.task_list_ e.index).task_id &&&
        (DoAllAvailableTasks tl pmb stage ts).ts.finished_tasks = 0) ∧
    (∀ (l₁ l₂ : List Invocation) (e : Invocation),
      (DoAllAvailableTasks tl pmb stage ts).log = l₁ ++ e :: l₂ → e.ret = TASK_FAIL →
      ∀ t, e.index < t → t < tl.ntasks → Runnable tl e.finished_at_call t →
        (∀ m, e.index < m → m < t → ¬ Runnable tl e.finished_at_call m) →
        ∃ e' l₃, l₂ = e' :: l₃ ∧ e'.index = t ∧
          e'.finished_at_call = e.finished_at_call) ∧
    (ts.num_tasks_left ≠ 0 →
      (∀ e ∈ (DoAllAvailableTasks tl pmb stage ts).log, e.ret = TASK_FAIL) →
      (DoAllAvailableTasks tl pmb stage ts).status = TL_STUCK ∧
      (DoAllAvailableTasks tl pmb stage ts).ts.finished_tasks = ts.finished_tasks ∧
      (DoAllAvailableTasks tl pmb stage ts).ts.num_tasks_left = ts.num_tasks_left) ∧
    (ts.num_tasks_left = 0 →
      (DoAllAvailableTasks tl pmb stage ts).status = TL_NOTHING_TO_DO) := by
  refine ⟨?_, call_fail_unfinished tl stage hwf ts pmb, ?_, call_all_fail tl stage ts pmb, ?_⟩
  · intro n i skip hr hf
    rw [scan_eq_fail tl stage n i skip ts pmb hr.1 hr.2 hf]
    simp only [invoked, hf]
  · intro l₁ l₂ e hlog hret t h1 h2 hr hmin
    exact call_after_fail tl stage ts pmb l₁ l₂ e hlog hret t h1 h2 hr hmin
  · intro h0
    rw [call_done tl stage ts pmb h0]

/-- Witness of C15 (amended) on `failFirst3` after a reset: the failed task 0 is not done
at the end of the call, and task 1, the first runnable task after it, is invoked next. -/
theorem C15_fail_is_absorbed_witness :
    DistinctBits failFirst3 ∧
    (DoAllAvailableTasks failFirst3 0 0 (TaskState.Reset failFirst3.ntasks)).log
      = [] ++ Invocation.mk 0 0 TASK_FAIL :: [Invocation.mk 1 0 TASK_SUCCESS] ∧
    (failFirst3.task_list_ (Invocation.mk 0 0 TASK_FAIL).index).task_id &&&
      (DoAllAvailableTasks failFirst3 0 0
        (TaskState.Reset failFirst3.ntasks)).ts.finished_tasks = 0 ∧
    (∃ e' l₃, [Invocation.mk 1 0 TASK_SUCCESS] = e' :: l₃ ∧ e'.index = 1 ∧
      e'.finished_at_call = (Invocation.mk 0 0 TASK_FAIL).finished_at_call) :=
  ⟨by decide, by decide,
    (C15_fail_is_absorbed failFirst3 0 (by decide) (TaskState.Reset failFirst3.ntasks) 0).2.1
      (Invocation.mk 0 0 TASK_FAIL) (by decide) rfl,
    (C15_fail_is_absorbed failFirst3 0 (by decide) (TaskState.Reset failFirst3.ntasks)
      0).2.2.1 [] [Invocation.mk 1 0 TASK_SUCCESS] (Invocation.mk 0 0 TASK_FAIL) (by decide) rfl
      1 (by decide) (by decide) (by decide) (by intro m h1 h2; simp at h1 h2; omega)⟩

/-- Counterexample to C16 as stated. On `next2` (task 0 depends on task 1, both actions
signal SuccessContinue), the first call after a reset passes task 0, which is blocked,
invokes task 1, which succeeds, goes on and falls out of the loop: it returns `TL_STUCK`
although a task was completed during the call, `finished_tasks` going from 0 to 2 and
`num_tasks_left` from 2 to 1. -/
theorem C16_meaning_of_stalled_counterexample :
    (DoAllAvailableTasks next2 0 0 (TaskState.Reset next2.ntasks)).status = TL_STUCK ∧
    (DoAllAvailableTasks next2 0 0 (TaskState.Reset next2.ntasks)).log
      = [Invocation.mk 1 0 TASK_NEXT] ∧
    (TaskState.Reset next2.ntasks).finished_tasks = 0 ∧
    (DoAllAvailableTasks next2 0 0 (TaskState.Reset next2.ntasks)).ts.finished_tasks = 2 ∧
    (TaskState.Reset next2.ntasks).num_tasks_left = 2 ∧
    (DoAllAvailableTasks next2 0 0 (TaskState.Reset next2.ntasks)).ts.num_tasks_left = 1 := by
  decide

/-- C16 (meaning of Stalled), amended. For every graph, every progress state and all
action outcomes: if a call of `DoAllAvailableTasks` returns `TL_STUCK`, then it was made
with `num_tasks_left ≠ 0`, it leaves `num_tasks_left ≠ 0` (the unit still has unfinished
tasks), and none of its invocations signalled plain Success; when none of them signalled
SuccessContinue either, no task was completed during the call: `finished_tasks` and
`num_tasks_left` have the values they had on entry.
Conversely a call made with `num_tasks_left ≠ 0` that completes no task (every invoked
action signals Fail) returns `TL_STUCK` with these values unchanged. -/
theorem C16_meaning_of_stalled {β : Type} (tl : TaskList β) (stage : Int)
    (ts : TaskState) (pmb : β) :
    ((DoAllAvailableTasks tl pmb stage ts).status = TL_STUCK →
      ts.num_tasks_left ≠ 0 ∧
      (DoAllAvailableTasks tl pmb stage ts).ts.num_tasks_left ≠ 0 ∧
      (∀ e ∈ (DoAllAvailableTasks tl pmb stage ts).log, e.ret ≠ TASK_SUCCESS) ∧
      ((∀ e ∈ (DoAllAvailableTasks tl pmb stage ts).log, e.ret ≠ TASK_NEXT) →
        (DoAllAvailableTasks tl pmb stage ts).ts.finished_tasks = ts.finished_tasks ∧
        (DoAllAvailableTasks tl pmb stage ts).ts.num_tasks_left = ts.num_tasks_left)) ∧
    (ts.num_tasks_left ≠ 0 →
      (∀ e ∈ (DoAllAvailableTasks tl pmb stage ts).log, e.ret = TASK_FAIL) →
      (DoAllAvailableTasks tl pmb stage ts).status = TL_STUCK ∧
      (DoAllAvailableTasks tl pmb stage ts).ts.finished_tasks = ts.finished_tasks ∧
      (DoAllAvailableTasks tl pmb stage ts).ts.num_tasks_left = ts.num_tasks_left) := by
  refine ⟨?_, call_all_fail tl stage ts pmb⟩
  intro hst
  have h0 : ts.num_tasks_left ≠ 0 := by
    intro h0
    rw [call_done tl stage ts pmb h0] at hst
    simp at hst
  have hleft : (DoAllAvailableTasks tl pmb stage ts).ts.num_tasks_left ≠ 0 := by
    intro hz
    have := (call_status tl stage ts pmb).1.mpr ⟨h0, hz⟩
    rw [this] at hst
    simp at hst
  have hns : ∀ e ∈ (DoAllAvailableTasks tl pmb stage ts).log, e.ret ≠ TASK_SUCCESS := by
    unfold DoAllAvailableTasks at hst ⊢
    rw [if_neg h0] at hst ⊢
    exact scan_stuck tl stage _ _ _ _ _ hst
  refine ⟨h0, hleft, hns, ?_⟩
  intro hnn
  have hall : ∀ e ∈ (DoAllAvailableTasks tl pmb stage ts).log, e.ret = TASK_FAIL := by
    intro e he
    have h1 := hns e he
    have h2 := hnn e he
    cases hr : e.ret <;> simp_all
  exact (call_all_fail tl stage ts pmb h0 hall).2

/-- Witness of C16 (amended) on `next2` after a reset: the call returns `TL_STUCK`, the
counter is not 0 before nor after, and its only invocation signalled SuccessContinue. -/
theorem C16_meaning_of_stalled_witness :
    (DoAllAvailableTasks next2 0 0 (TaskState.Reset next2.ntasks)).status = TL_STUCK ∧
    ((TaskState.Reset next2.ntasks).num_tasks_left ≠ 0 ∧
      (DoAllAvailableTasks next2 0 0 (TaskState.Reset next2.ntasks)).ts.num_tasks_left ≠ 0 ∧
      (∀ e ∈ (DoAllAvailableTasks next2 0 0 (TaskState.Reset next2.ntasks)).log,
        e.ret ≠ TASK_SUCCESS) ∧
      ((∀ e ∈ (DoAllAvailableTasks next2 0 0 (TaskState.Reset next2.ntasks)).log,
          e.ret ≠ TASK_NEXT) →
        (DoAllAvailableTasks next2 0 0 (TaskState.Reset next2.ntasks)).ts.finished_tasks
          = (TaskState.Reset next2.ntasks).finished_tasks ∧
        (DoAllAvailableTasks next2 0 0 (TaskState.Reset next2.ntasks)).ts.num_tasks_left
          = (TaskState.Reset next2.ntasks).num_tasks_left)) :=
  ⟨by decide,
    (C16_meaning_of_stalled next2 0 (TaskState.Reset next2.ntasks) 0).1 (by decide)⟩

/-- C17 (the resume index does not change behaviour). For every graph whose identities
are single bits and every progress state reached from a reset by any number of calls,
`DoAllAvailableTasks`, which scans from `indx_first_task`, and the naive executor, which
performs the same scan from index 0, return the same status, invoke the same actions in
the same order with the same outcomes (equal logs), and leave the same `finished_tasks`,
`num_tasks_left` and block data. -/
theorem C17_resume_index_refinement {β : Type} (tl : TaskList β) (stage : Int)
    (hbits : ∀ j, j < tl.ntasks → IsBit (tl.task_list_ j).task_id) (k : Nat) (pmb₀ pmb : β) :
    (DoAllAvailableTasks tl pmb stage
        (DoCalls tl stage k (TaskState.Reset tl.ntasks) pmb₀).ts).status
      = (DoAllAvailableTasksNaive tl pmb stage
        (DoCalls tl stage k (TaskState.Reset tl.ntasks) pmb₀).ts).status ∧
    (DoAllAvailableTasks tl pmb stage
        (DoCalls tl stage k (TaskState.Reset tl.ntasks) pmb₀).ts).log
      = (DoAllAvailableTasksNaive tl pmb stage
        (DoCalls tl stage k (TaskState.Reset tl.ntasks) pmb₀).ts).log ∧
    (DoAllAvailableTasks tl pmb stage
        (DoCalls tl stage k (TaskState.Reset tl.ntasks) pmb₀).ts).ts.finished_tasks
      = (DoAllAvailableTasksNaive tl pmb stage
        (DoCalls tl stage k (TaskState.Reset tl.ntasks) pmb₀).ts).ts.finished_tasks ∧
    (DoAllAvailableTasks tl pmb stage
        (DoCalls tl stage k (TaskState.Reset tl.ntasks) pmb₀).ts).ts.num_tasks_left
      = (DoAllAvailableTasksNaive tl pmb stage
        (DoCalls tl stage k (TaskState.Reset tl.ntasks) pmb₀).ts).ts.num_tasks_left ∧
    (DoAllAvailableTasks tl pmb stage
        (DoCalls tl stage k (TaskState.Reset tl.ntasks) pmb₀).ts).pmb
      = (DoAllAvailableTasksNaive tl pmb stage
        (DoCalls tl stage k (TaskState.Reset tl.ntasks) pmb₀).ts).pmb :=
  naive_same tl stage hbits _ pmb (calls_resume tl stage hbits k _ pmb₀ (resumeOK_reset tl))

/-- Witness of C17 on the three-task chain after one call: both executors invoke task 1
only and return `TL_RUNNING` with `finished_tasks = 3`. -/
theorem C17_resume_index_refinement_witness :
    (∀ j, j < chain3.ntasks → IsBit (chain3.task_list_ j).task_id) ∧
    (DoCalls chain3 0 1 (TaskState.Reset chain3.ntasks) 0).ts = TaskState.mk 1 1 2 ∧
    (DoAllAvailableTasksNaive chain3 1 0 (TaskState.mk 1 1 2)).status = TL_RUNNING ∧
    (DoAllAvailableTasksNaive chain3 1 0 (TaskState.mk 1 1 2)).log
      = [Invocation.mk 1 1 TASK_SUCCESS] ∧
    ((DoAllAvailableTasks chain3 1 0
        (DoCalls chain3 0 1 (TaskState.Reset chain3.ntasks) 0).ts).status
      = (DoAllAvailableTasksNaive chain3 1 0
        (DoCalls chain3 0 1 (TaskState.Reset chain3.ntasks) 0).ts).status ∧
    (DoAllAvailableTasks chain3 1 0
        (DoCalls chain3 0 1 (TaskState.Reset chain3.ntasks) 0).ts).log
      = (DoAllAvailableTasksNaive chain3 1 0
        (DoCalls chain3 0 1 (TaskState.Reset chain3.ntasks) 0).ts).log ∧
    (DoAllAvailableTasks chain3 1 0
        (DoCalls chain3 0 1 (TaskState.Reset chain3.ntasks) 0).ts).ts.finished_tasks
      = (DoAllAvailableTasksNaive chain3 1 0
        (DoCalls chain3 0 1 (TaskState.Reset chain3.ntasks) 0).ts).ts.finished_tasks ∧
    (DoAllAvailableTasks chain3 1 0
        (DoCalls chain3 0 1 (TaskState.Reset chain3.ntasks) 0).ts).ts.num_tasks_left
      = (DoAllAvailableTasksNaive chain3 1 0
        (DoCalls chain3 0 1 (TaskState.Reset chain3.ntasks) 0).ts).ts.num_tasks_left ∧
    (DoAllAvailableTasks chain3 1 0
        (DoCalls chain3 0 1 (TaskState.Reset chain3.ntasks) 0).ts).pmb
      = (DoAllAvailableTasksNaive chain3 1 0
        (DoCalls chain3 0 1 (TaskState.Reset chain3.ntasks) 0).ts).pmb) :=
  ⟨by decide, by decide, by decide, by decide,
    C17_resume_index_refinement chain3 0 (by decide) 1 0 1⟩

/-- C19 (the empty graph never completes). For a graph with `ntasks == 0`: every call of
`DoAllAvailableTasks` after `Reset(0)` returns `TL_NOTHING_TO_DO`, never `TL_COMPLETE`,
and invokes nothing; in `DoTaskListOneStage` with at least one block the counter
`nmb_left` keeps its initial value (it is never decremented), and for every number `n`
of rounds the driver has not returned after `n` rounds. The constructor builds such a
graph for the integrator "six_ray": it succeeds and adds no descriptor. -/
theorem C19_empty_graph_never_completes {β : Type} (tl : TaskList β) (stage : Int)
    (h0 : tl.ntasks = 0) :
    (∀ (k : Nat) (pmb : β),
      (DoCalls tl stage k (TaskState.Reset tl.ntasks) pmb).statuses
        = List.replicate k TL_NOTHING_TO_DO ∧
      (∀ st ∈ (DoCalls tl stage k (TaskState.Reset tl.ntasks) pmb).statuses,
        st ≠ TL_COMPLETE) ∧
      (DoCalls tl stage k (TaskState.Reset tl.ntasks) pmb).log = []) ∧
    (∀ (startup : β → Int → β) (pmb_array : List (MeshBlock β)), 1 ≤ pmb_array.length →
      ∀ n : Nat,
        (whileRounds tl stage n (stageInit tl startup stage pmb_array)).nmb_left
          = (pmb_array.length : Int) ∧
        (whileRounds tl stage n (stageInit tl startup stage pmb_array)).history.length = n ∧
        DoTaskListOneStage tl startup stage n pmb_array = none) ∧
    (∀ (names : RadiationIntegratorTaskNames) (UpdateRadJeans : β → β) (mem : Nat → Task β),
      (RadiationIntegratorTaskList.new names UpdateRadJeans "six_ray" mem).1 = Except.ok () ∧
      (RadiationIntegratorTaskList.new names UpdateRadJeans "six_ray" mem).2.base.ntasks
        = 0) := by
  have hreset : (TaskState.Reset tl.ntasks).num_tasks_left = 0 := by
    simp [TaskState.Reset, h0]
  refine ⟨?_, ?_, ?_⟩
  · intro k pmb
    rw [calls_done tl stage k _ pmb hreset]
    refine ⟨rfl, ?_, rfl⟩
    intro st hst
    rw [List.eq_of_mem_replicate hst]
    simp
  · intro startup pmb_array hN n
    have hall : ∀ b ∈ (stageInit tl startup stage pmb_array).blocks,
        b.tasks.num_tasks_left = 0 := by
      intro b hb
      simp only [stageInit, List.mem_map] at hb
      obtain ⟨b0, _, rfl⟩ := hb
      exact hreset
    have hleft : (stageInit tl startup stage pmb_array).nmb_left = (pmb_array.length : Int) :=
      rfl
    have hg : (stageInit tl startup stage pmb_array).nmb_left > 0 := by
      rw [hleft]; exact_mod_cast hN
    obtain ⟨_, b, c⟩ := rounds_all_done tl stage n _ hall hg
    refine ⟨by rw [b, hleft], ?_, ?_⟩
    · rw [c]; simp [stageInit]
    · unfold DoTaskListOneStage
      simp only [b, hg, if_true]
  · intro names upd mem
    rw [new_six_ray]
    exact ⟨rfl, rfl⟩

/-- Witness of C19 on the graph the constructor builds for "six_ray", with one block:
after five rounds `nmb_left` is still 1 and the driver has not returned. -/
theorem C19_empty_graph_never_completes_witness :
    (RadiationIntegratorTaskList.new exampleNames id "six_ray" exampleMem).2.base.ntasks
      = 0 ∧
    (1 ≤ [MeshBlock.mk (TaskState.mk 3 1 4) 0].length ∧
      (whileRounds (RadiationIntegratorTaskList.new exampleNames id "six_ray" exampleMem).2.base
        0 5 (stageInit
          (RadiationIntegratorTaskList.new exampleNames id "six_ray" exampleMem).2.base
          (fun d _ => d) 0 [MeshBlock.mk (TaskState.mk 3 1 4) 0])).nmb_left
        = ([MeshBlock.mk (TaskState.mk 3 1 4) (0 : Nat)].length : Int) ∧
      (whileRounds (RadiationIntegratorTaskList.new exampleNames id "six_ray" exampleMem).2.base
        0 5 (stageInit
          (RadiationIntegratorTaskList.new exampleNames id "six_ray" exampleMem).2.base
          (fun d _ => d) 0 [MeshBlock.mk (TaskState.mk 3 1 4) 0])).history.length = 5 ∧
      DoTaskListOneStage
        (RadiationIntegratorTaskList.new exampleNames id "six_ray" exampleMem).2.base
        (fun d _ => d) 0 5 [MeshBlock.mk (TaskState.mk 3 1 4) 0] = none) :=
  ⟨by decide, by decide,
    (C19_empty_graph_never_completes
      (RadiationIntegratorTaskList.new exampleNames id "six_ray" exampleMem).2.base 0
      (by decide)).2.1 (fun d _ => d) [MeshBlock.mk (TaskState.mk 3 1 4) 0] (by decide) 5⟩

/-- C20 (completion is reported exactly once per unit). For every graph with
`ntasks ≥ 1` and every sequence of calls of `DoAllAvailableTasks` on one unit from a
reset, whatever the actions return: `num_tasks_left` is never negative; the call number
`a + 1` returns `TL_COMPLETE` exactly when it takes `num_tasks_left` from a value above 0
to 0, its last invocation being the success that takes the counter from 1 to 0; every
later call then returns `TL_NOTHING_TO_DO`, invokes no action and leaves the state
unchanged, and no other call of the sequence returns `TL_COMPLETE`. Hence in
`DoTaskListOneStage`, after any number of rounds, `nmb_left` is the number of blocks
whose `num_tasks_left` is still above 0, and it is not negative. -/
theorem C20_completion_reported_once {β : Type} (tl : TaskList β) (stage : Int)
    (hne : 1 ≤ tl.ntasks) (pmb : β) (a : Nat) :
    0 ≤ (DoCalls tl stage a (TaskState.Reset tl.ntasks) pmb).ts.num_tasks_left ∧
    ((callAt tl stage pmb a).status = TL_COMPLETE ↔
      0 < (DoCalls tl stage a (TaskState.Reset tl.ntasks) pmb).ts.num_tasks_left ∧
      (callAt tl stage pmb a).ts.num_tasks_left = 0) ∧
    ((callAt tl stage pmb a).status = TL_COMPLETE →
      (∃ l e, (callAt tl stage pmb a).log = l ++ [e] ∧ e.ret ≠ TASK_FAIL ∧
        (DoCalls tl stage a (TaskState.Reset tl.ntasks) pmb).ts.num_tasks_left
          - (successes l : Int) = 1) ∧
      (∀ b, a < b → (callAt tl stage pmb b).status = TL_NOTHING_TO_DO ∧
        (callAt tl stage pmb b).log = [] ∧
        (callAt tl stage pmb b).ts = (callAt tl stage pmb a).ts ∧
        (callAt tl stage pmb b).pmb = (callAt tl stage pmb a).pmb) ∧
      (∀ b, b ≠ a → (callAt tl stage pmb b).status ≠ TL_COMPLETE)) ∧
    (∀ (startup : β → Int → β) (pmb_array : List (MeshBlock β)) (n : Nat),
      (whileRounds tl stage n (stageInit tl startup stage pmb_array)).nmb_left
        = (unitsLeft (whileRounds tl stage n (stageInit tl startup stage pmb_array)).blocks
            : Int) ∧
      0 ≤ (whileRounds tl stage n (stageInit tl startup stage pmb_array)).nmb_left) := by
  have hnn : 0 ≤ (DoCalls tl stage a (TaskState.Reset tl.ntasks) pmb).ts.num_tasks_left :=
    calls_nonneg tl stage a _ pmb (by simp [TaskState.Reset])
  have hst := (call_status tl stage (DoCalls tl stage a (TaskState.Reset tl.ntasks) pmb).ts
    (DoCalls tl stage a (TaskState.Reset tl.ntasks) pmb).pmb).1
  refine ⟨hnn, ?_, ?_, ?_⟩
  · unfold callAt
    rw [hst]
    constructor
    · rintro ⟨h1, h2⟩
      exact ⟨by omega, h2⟩
    · rintro ⟨h1, h2⟩
      exact ⟨by omega, h2⟩
  · intro hc
    have hz : (callAt tl stage pmb a).ts.num_tasks_left = 0 := (hst.mp hc).2
    refine ⟨call_complete_last tl stage _ _ hc, ?_, ?_⟩
    · intro b hab
      rw [callAt_after_done tl stage pmb a hz b hab]
      exact ⟨rfl, rfl, rfl, rfl⟩
    · intro b hba hcb
      rcases Nat.lt_or_gt_of_ne hba with hlt | hgt
      · have hzb : (callAt tl stage pmb b).ts.num_tasks_left = 0 :=
          ((call_status tl stage _ _).1.mp hcb).2
        rw [callAt_after_done tl stage pmb b hzb a hlt] at hc
        simp at hc
      · rw [callAt_after_done tl stage pmb a hz b hgt] at hcb
        simp at hcb
  · intro startup pmb_array n
    obtain ⟨h1, h2⟩ := rounds_units_left tl startup stage hne pmb_array n
    rw [h2, pending_eq_unitsLeft _ h1]
    exact ⟨rfl, by omega⟩

/-- Witness of C20 on the three-task chain: the third call returns `TL_COMPLETE`, the
fourth and fifth `TL_NOTHING_TO_DO`; with two blocks, `nmb_left` is 2 after two rounds and
0 after three. -/
theorem C20_completion_reported_once_witness :
    1 ≤ chain3.ntasks ∧
    (callAt chain3 0 0 2).status = TL_COMPLETE ∧
    (callAt chain3 0 0 3).status = TL_NOTHING_TO_DO ∧
    (callAt chain3 0 0 4).status = TL_NOTHING_TO_DO ∧
    (whileRounds chain3 0 2 (stageInit chain3 (fun d _ => d) 0
      [MeshBlock.mk (TaskState.mk 0 0 0) 0, MeshBlock.mk (TaskState.mk 0 0 0) 1])).nmb_left = 2 ∧
    (whileRounds chain3 0 3 (stageInit chain3 (fun d _ => d) 0
      [MeshBlock.mk (TaskState.mk 0 0 0) 0, MeshBlock.mk (TaskState.mk 0 0 0) 1])).nmb_left = 0 ∧
    ((∃ l e, (callAt chain3 0 0 2).log = l ++ [e] ∧ e.ret ≠ TASK_FAIL ∧
        (DoCalls chain3 0 2 (TaskState.Reset chain3.ntasks) 0).ts.num_tasks_left
          - (successes l : Int) = 1) ∧
      (∀ b, 2 < b → (callAt chain3 0 0 b).status = TL_NOTHING_TO_DO ∧
        (callAt chain3 0 0 b).log = [] ∧
        (callAt chain3 0 0 b).ts = (callAt chain3 0 0 2).ts ∧
        (callAt chain3 0 0 b).pmb = (callAt chain3 0 0 2).pmb) ∧
      (∀ b, b ≠ 2 → (callAt chain3 0 0 b).status ≠ TL_COMPLETE)) :=
  ⟨by decide, by decide, by decide, by decide, by decide, by decide,
    (C20_completion_reported_once chain3 0 (by decide) 0 2).2.2.1 (by decide)⟩

end Athena
